import Mathlib

/-!
# pph-cpp: minimal order-preserving perfect hash tables

A shallow embedding of `pph.h` and its helpers (`GcdBinary.cpp`, `PowerOfTwo.h`,
`XorShift1024Star.h`, `StringUtil.h`, `fnv64a_hash.h`) together with theorems about
construction, lookup and serialization.

Modelling conventions.

* A `std::string` is a list of byte values (`List Nat`).  A `const char*` is read as the
  bytes before the first NUL (`c_str`); the `key_` field of a slot always holds such a list.
* 64-bit hash arithmetic is written with an explicit `% 2 ^ 64`.  Indices, sizes and loop
  counters are unbounded naturals: the `int` loop counters and the 32-bit header fields
  `i_`, `r_` of the source are assumed not to wrap.
* `double` values are exact rationals.
* `while` loops are given a fuel that the number of their iterations cannot exceed; the
  wall clock of `find_h` is a budget of candidates.
* A read of `H_` or `D_` past the end (undefined in the source) yields a default element,
  a write past the end changes nothing.
* Code outside the repository (boost CRC, SpookyHash, `std::uniform_int_distribution`,
  the stream formatting of a `double`, `std::stod`) is a field of `Ext`.
-/

namespace pph

/-! ## Strings -/

/-- Byte values of a string literal. -/
def bytes (s : String) : List Nat := s.toList.map Char.toNat

/-- The bytes a `const char*` denotes: everything before the first NUL. -/
def c_str (s : List Nat) : List Nat := s.takeWhile (fun c => c != 0)

/-- Conversion `static_cast<uint64_t>(char)` with a signed `char`: sign extension. -/
def char_to_u64 (c : Nat) : Nat :=
  if c % 256 < 128 then c % 256 else 2 ^ 64 - 256 + c % 256

/-! ## Constants of `pph.h` -/

def EMPTY_VAL : Nat := 2 ^ 64 - 1
def HASH_MULTIPLIER : Nat := 65
def KEY_ADJUSTMENT_FACTOR : Nat := 10000000
def DEFAULT_LOADING_FACTOR : ℚ := 97 / 100
def DEFAULT_TIMEOUT : Nat := 60000
def DEFAULT_ATTEMPTS : Nat := 100
def UINT32_MAX : Nat := 2 ^ 32 - 1
def UINT64_MAX : Nat := 2 ^ 64 - 1

/-- The helper `modulo` of `pph.h`: a bit mask when `y & (y-1) == 0`, else `x % y`. -/
def modulo (x y : Nat) : Nat :=
  if y &&& ((y + (2 ^ 64 - 1)) % 2 ^ 64) = 0 then
    x &&& ((y + (2 ^ 64 - 1)) % 2 ^ 64)
  else
    x % y

/-! ## `GcdBinary.cpp` -/

/-- Trailing zero count of a 64-bit word, scanning at most `fuel` bits. -/
def ctzAux : Nat → Nat → Nat
  | 0, _ => 0
  | fuel + 1, x => if x % 2 = 1 then 0 else 1 + ctzAux fuel (x / 2)

/-- The macro `CTZ` (`__builtin_ctzll`): number of trailing zero bits; 64 at zero, where the
builtin is undefined. -/
def CTZ (x : Nat) : Nat := ctzAux 64 x

/-- The `do ... while (v != 0)` loop of `gcd_binary`. -/
def gcd_loop : Nat → Nat → Nat → Nat
  | 0, u, _ => u
  | fuel + 1, u, v =>
    let v1 := v >>> CTZ v
    let u2 := if u > v1 then v1 else u
    let v2 := if u > v1 then u else v1
    let v3 := v2 - u2
    if v3 ≠ 0 then gcd_loop fuel u2 v3 else u2

/-- The function `gcd_binary`; the loop is given `u + v` iterations, and `u + v` strictly
decreases in each one. -/
def gcd_binary (u v : Nat) : Nat :=
  if u = 0 then v
  else if v = 0 then u
  else
    let shift := CTZ (u ||| v)
    let u1 := u >>> CTZ u
    (gcd_loop (u1 + v) u1 v <<< shift) % 2 ^ 64

/-! ## `PowerOfTwo.h` -/

/-- The method `PowerOfTwo::RoundUpPowerOf2`. -/
def RoundUpPowerOf2 (v : Nat) : Nat :=
  let v0 := (v + (2 ^ 64 - 1)) % 2 ^ 64
  let v1 := v0 ||| (v0 >>> 1)
  let v2 := v1 ||| (v1 >>> 2)
  let v3 := v2 ||| (v2 >>> 4)
  let v4 := v3 ||| (v3 >>> 8)
  let v5 := v4 ||| (v4 >>> 16)
  let v6 := v5 ||| (v5 >>> 32)
  (v6 + 1) % 2 ^ 64

structure PowerOfTwo where
  x_ : Nat := 0
deriving DecidableEq, Repr

def PowerOfTwo.seed (_P : PowerOfTwo) (x : Nat) : PowerOfTwo := { x_ := x % 2 ^ 64 }

/-- The method `PowerOfTwo::next`, also `operator()`. -/
def PowerOfTwo.next (P : PowerOfTwo) : Nat × PowerOfTwo :=
  let p := RoundUpPowerOf2 P.x_
  (p, { x_ := (p + 1) % 2 ^ 64 })

/-! ## `XorShift1024Star.h` -/

structure SplitMix64 where
  x_ : Nat := 0
deriving DecidableEq, Repr

def SplitMix64.seed (_S : SplitMix64) (x : Nat) : SplitMix64 := { x_ := x % 2 ^ 64 }

def SplitMix64.next (S : SplitMix64) : Nat × SplitMix64 :=
  let x := (S.x_ + 0x9E3779B97F4A7C15) % 2 ^ 64
  let z0 := x
  let z1 := ((z0 ^^^ (z0 >>> 30)) * 0xBF58476D1CE4E5B9) % 2 ^ 64
  let z2 := ((z1 ^^^ (z1 >>> 27)) * 0x94D049BB133111EB) % 2 ^ 64
  (z2 ^^^ (z2 >>> 31), { x_ := x })

/-- The generator; the 16 state words of a default-constructed object, indeterminate in the
source, are zero here. -/
structure XorShift1024Star where
  SplittableRandom_ : SplitMix64 := {}
  s_ : List Nat := List.replicate 16 0
  p_ : Nat := 0
deriving DecidableEq, Repr

/-- The loop of `XorShift1024Star::Init`, filling `s_[i]`, `s_[i+1]`, ... -/
def XorShift1024Star.fill : Nat → Nat → SplitMix64 → List Nat → SplitMix64 × List Nat
  | 0, _, S, s => (S, s)
  | k + 1, i, S, s =>
    let r := S.next
    XorShift1024Star.fill k (i + 1) r.2 (s.set i r.1)

def XorShift1024Star.Init (G : XorShift1024Star) (x : Nat) : XorShift1024Star :=
  let r := XorShift1024Star.fill 16 0 (G.SplittableRandom_.seed x) G.s_
  { G with SplittableRandom_ := r.1, s_ := r.2 }

def XorShift1024Star.seed (G : XorShift1024Star) (x : Nat) : XorShift1024Star := G.Init x

/-- The constructor `XorShift1024Star(uint64_t x)`. -/
def XorShift1024Star.mk_seeded (x : Nat) : XorShift1024Star :=
  { (({} : XorShift1024Star).Init x) with p_ := 0 }

def XorShift1024Star.next (G : XorShift1024Star) : Nat × XorShift1024Star :=
  let s0 := G.s_.getD G.p_ 0
  let p := (G.p_ + 1) &&& 15
  let s1 := G.s_.getD p 0
  let s1a := s1 ^^^ ((s1 <<< 31) % 2 ^ 64)
  let w := s1a ^^^ s0 ^^^ (s1a >>> 11) ^^^ (s0 >>> 30)
  ((w * 1181783497276652981) % 2 ^ 64, { G with s_ := G.s_.set p w, p_ := p })

/-! ## Key functions -/

/-- The type `keyfunc_t`: `(str, multiplier, adjustment) -> uint64_t`. -/
abbrev keyfunc_t := List Nat → Nat → Nat → Nat

/-- Code outside the repository. -/
structure Ext where
  /-- The checksum of `boost::crc_optimal<64, ...>` over the bytes. -/
  crc_checksum : List Nat → Nat
  /-- The function `SpookyHash::Hash64(message, length, seed)`. -/
  spooky_Hash64 : List Nat → Nat → Nat
  /-- A draw of `std::uniform_int_distribution<uint64_t>(a, b)` from the generator. -/
  uniform_int : Nat → Nat → XorShift1024Star → Nat × XorShift1024Star
  /-- The text `operator<<` writes for a `double`. -/
  put_double : ℚ → List Nat
  /-- The function `std::stod`; `none` when it throws. -/
  stod : List Nat → Option ℚ

def crc64 (E : Ext) : keyfunc_t := fun str _multiplier adjustment =>
  (E.crc_checksum str + adjustment) % 2 ^ 64

def djb_hash : keyfunc_t := fun str multiplier adjustment =>
  (str.foldl (fun keyval c => ((keyval * multiplier) % 2 ^ 64) ^^^ char_to_u64 c) 0
    + adjustment) % 2 ^ 64

def FNV1A_64_INIT : Nat := 0xcbf29ce484222325
def FNV_64_PRIME : Nat := 0x100000001b3

def fnv64a_hash : keyfunc_t := fun str _multiplier adjustment =>
  (str.foldl (fun hval c => ((hval ^^^ char_to_u64 c) * FNV_64_PRIME) % 2 ^ 64) FNV1A_64_INIT
    + adjustment) % 2 ^ 64

def spookyV2_hash (E : Ext) : keyfunc_t := fun str multiplier adjustment =>
  (E.spooky_Hash64 str multiplier + adjustment) % 2 ^ 64

def oat_hash : keyfunc_t := fun str _multiplier adjustment =>
  let h0 := str.foldl (fun h c =>
    let h1 := (h + char_to_u64 c) % 2 ^ 64
    let h2 := (h1 + (h1 <<< 10)) % 2 ^ 64
    h2 ^^^ (h2 >>> 6)) 0
  let h1 := (h0 + (h0 <<< 3)) % 2 ^ 64
  let h2 := h1 ^^^ (h1 >>> 11)
  let h3 := (h2 + (h2 <<< 15)) % 2 ^ 64
  (h3 + adjustment) % 2 ^ 64

def UUID_CRC64 : List Nat := bytes "F80F007A-26C3-4BD0-A481-24EE9AE94D01"
def UUID_DJB : List Nat := bytes "BCC54D42-34F0-43FF-88EB-59C7B47EE210"
def UUID_FNV : List Nat := bytes "87333E59-7C1A-4613-9C6F-81F1BB1F6AED"
def UUID_OAT : List Nat := bytes "3AC2A805-6771-4189-8C62-5F41297126FE"
def UUID_SPOOKY : List Nat := bytes "A647F03D-A02E-477F-9635-420F3BCEB394"

def uuid_to_keyfunc (E : Ext) (uuid : List Nat) : keyfunc_t :=
  if uuid = UUID_CRC64 then crc64 E
  else if uuid = UUID_DJB then djb_hash
  else if uuid = UUID_FNV then fnv64a_hash
  else if uuid = UUID_OAT then oat_hash
  else if uuid = UUID_SPOOKY then spookyV2_hash E
  else djb_hash

/-! ## `StringUtil.h` and the text primitives of the C and C++ libraries -/

/-- Membership in the delimiter set `" \f\n\r\t\v"`. -/
def is_delim (c : Nat) : Bool :=
  c == 32 || c == 12 || c == 10 || c == 13 || c == 9 || c == 11

def rtrim (s : List Nat) : List Nat := (s.reverse.dropWhile is_delim).reverse

def ltrim (s : List Nat) : List Nat := if s.all is_delim then s else s.dropWhile is_delim

def trim (s : List Nat) : List Nat := ltrim (rtrim s)

/-- The function `std::isalnum` in the C locale. -/
def isalnum (c : Nat) : Bool :=
  (48 ≤ c && c ≤ 57) || (65 ≤ c && c ≤ 90) || (97 ≤ c && c ≤ 122)

/-- Conversion `static_cast<unsigned int>(char)` with a signed `char`. -/
def char_to_u32 (c : Nat) : Nat :=
  if c % 256 < 128 then c % 256 else 2 ^ 32 - 256 + c % 256

/-- One uppercase hexadecimal digit. -/
def hex_digit (d : Nat) : Nat := if d < 10 then 48 + d else 55 + d

/-- Hexadecimal digits of `n`, most significant first, in front of `acc`. -/
def put_hex_aux : Nat → Nat → List Nat → List Nat
  | 0, _, acc => acc
  | fuel + 1, n, acc =>
    if n < 16 then hex_digit n :: acc else put_hex_aux fuel (n / 16) (hex_digit (n % 16) :: acc)

/-- Output of `std::uppercase << std::setfill('0') << std::setw(4) << std::hex << n`. -/
def put_hex4 (n : Nat) : List Nat :=
  let ds := put_hex_aux (n + 1) n []
  List.replicate (4 - ds.length) 48 ++ ds

def escape_string (s : List Nat) : List Nat :=
  s.flatMap (fun c => if isalnum c then [c] else [92, 120] ++ put_hex4 (char_to_u32 c))

/-- Value of a hexadecimal digit character, either case. -/
def hex_value (c : Nat) : Option Nat :=
  if 48 ≤ c ∧ c ≤ 57 then some (c - 48)
  else if 65 ≤ c ∧ c ≤ 70 then some (c - 55)
  else if 97 ≤ c ∧ c ≤ 102 then some (c - 87)
  else none

/-- The function `std::isspace` in the C locale. -/
def isspace (c : Nat) : Bool := c == 32 || (9 ≤ c && c ≤ 13)

/-- Value of the leading hexadecimal digits, zero when there is none. -/
def hex_digits : List Nat → Nat → Nat
  | [], acc => acc
  | c :: cs, acc =>
    match hex_value c with
    | some d => hex_digits cs (acc * 16 + d)
    | none => acc

/-- A hexadecimal number without its sign: an optional prefix `0x` or `0X`, then the digits;
zero when no digit follows. -/
def hex_unsigned : List Nat → Nat
  | 48 :: 120 :: t => hex_digits t 0
  | 48 :: 88 :: t => hex_digits t 0
  | t => hex_digits t 0

/-- Extraction `stream >> std::hex >> c` into the `unsigned int c` from a string of at most
four characters: leading white space is skipped, then come an optional sign, an optional prefix
and the digits; a minus sign negates modulo `2 ^ 32`, and without a digit the value is 0.  On a
string that holds nothing but white space nothing is extracted and `c` keeps its value
`prev`. -/
def hex_extract (s : List Nat) (prev : Nat) : Nat :=
  match s.dropWhile isspace with
  | [] => prev
  | 45 :: t => (2 ^ 32 - hex_unsigned t) % 2 ^ 32
  | 43 :: t => hex_unsigned t
  | t => hex_unsigned t

/-- The loop of `unescape_string`, on the part of the buffer not yet searched; `c` is the
variable the extraction writes. -/
def unescape_aux : Nat → Nat → List Nat → List Nat
  | 0, _, s => s
  | _ + 1, _, [] => []
  | fuel + 1, c, ch :: rest =>
    if ch = 92 ∧ rest.head? = some 120 then
      (hex_extract ((rest.drop 1).take 4) c % 256) ::
        unescape_aux fuel (hex_extract ((rest.drop 1).take 4) c) (rest.drop 5)
    else ch :: unescape_aux fuel c rest

/-- The function `unescape_string`.  The variable `c` is not initialised in the source; it
starts at 0 here, and its first value matters only when the first escape is followed by
nothing but white space. -/
def unescape_string (s : List Nat) : List Nat := unescape_aux s.length 0 s

/-- The function `split(result, s, " ")`: the fields between single spaces, empty ones kept. -/
def split : List Nat → List (List Nat)
  | [] => [[]]
  | c :: cs =>
    if c = 32 then [] :: split cs
    else
      match split cs with
      | f :: fs => (c :: f) :: fs
      | [] => [[c]]

/-- Value of the leading decimal digits. -/
def digits_value : List Nat → Nat → Nat
  | [], acc => acc
  | c :: cs, acc => if 48 ≤ c ∧ c ≤ 57 then digits_value cs (acc * 10 + (c - 48)) else acc

/-- The function `std::atoll` followed by the conversion to `uint64_t`: white space, an
optional sign, decimal digits; a value outside `long long` is clamped, as `strtoll` does. -/
def atoll (s : List Nat) : Nat :=
  match s.dropWhile isspace with
  | 45 :: t => (2 ^ 64 - min (digits_value t 0) (2 ^ 63)) % 2 ^ 64
  | 43 :: t => min (digits_value t 0) (2 ^ 63 - 1)
  | t => min (digits_value t 0) (2 ^ 63 - 1)

/-- An input stream: the bytes not yet read, `eofbit` and `failbit`. -/
structure istream where
  buf : List Nat
  eof : Bool := false
  fail : Bool := false
deriving DecidableEq, Repr

/-- The function `std::getline(istr, line)`: the stream and the value of `line` afterwards.
On a stream that is not good nothing is read and `line` keeps its value. -/
def getline (is : istream) (line : List Nat) : istream × List Nat :=
  if is.eof || is.fail then ({ is with fail := true }, line)
  else
    let l := is.buf.takeWhile (fun c => c != 10)
    let rest := is.buf.dropWhile (fun c => c != 10)
    match rest with
    | _ :: rest1 => ({ is with buf := rest1 }, l)
    | [] => ({ buf := [], eof := true, fail := l.isEmpty }, l)

/-! ## Records of `pph.h` -/

/-- The record `hdr_t`: start `p_` of the group, function index `i_`, size `r_`. -/
structure hdr_t where
  p_ : Nat := 0
  i_ : Nat := 0
  r_ : Nat := 0
deriving DecidableEq, Repr, Inhabited

/-- The record `data_t`; `key_` is the C string the pointer denotes. -/
structure data_t where
  key_ : List Nat := []
  val_ : Nat := 0
  idx_ : Nat := 0
deriving DecidableEq, Repr, Inhabited

/-- The free-slot test `D_[i].key_[0] == 0`. -/
def is_free (d : data_t) : Bool := d.key_.headD 0 == 0

/-- The method `resize` of `std::vector` and `std::deque`. -/
def resize {α : Type} (l : List α) (n : Nat) (d : α) : List α :=
  l.take n ++ List.replicate (n - l.length) d

/-- The record `func_t`: the family of secondary hash functions. -/
structure func_t where
  h_ : List Nat := [0]
  multiplier_ : List Nat := [0]
  adjustment_ : List Nat := [0]
  suggestion_ : Nat := 0
  key_ : keyfunc_t := djb_hash

namespace func_t

def h_internal (F : func_t) (modulus multiplier adjustment : Nat) (k : List Nat) (r : Nat) :
    Nat :=
  modulo (modulo (F.key_ k multiplier adjustment) modulus) r

def reset_suggest_adjustment (F : func_t) : func_t := { F with suggestion_ := 0 }

/-- The method `suggest_adjustment`: the returned value and the updated record. -/
def suggest_adjustment (F : func_t) (modulus multiplier _adjustment : Nat) (k : List Nat) :
    Nat × func_t :=
  let key := F.key_ k multiplier 0
  if key < (modulus * KEY_ADJUSTMENT_FACTOR) % 2 ^ 64 then
    let suggestion := (modulus * KEY_ADJUSTMENT_FACTOR) % 2 ^ 64 - key
    let F1 := { F with suggestion_ := max F.suggestion_ suggestion }
    (F1.suggestion_, F1)
  else
    (0, F)

def setup (F : func_t) (key : keyfunc_t) : func_t := { F with key_ := key }

def is_candidate (F : func_t) (i r : Nat) : Bool :=
  gcd_binary (F.multiplier_.getD i 0) r == 1

def h (F : func_t) (i : Nat) (k : List Nat) (r : Nat) : Nat :=
  if i ≥ F.h_.length then 0
  else F.h_internal (F.h_.getD i 0) (F.multiplier_.getD i 0) (F.adjustment_.getD i 0) k r

/-- The method `add`: the index of the new entry and the updated record. -/
def add (F : func_t) (p m a : Nat) : Nat × func_t :=
  let F1 := { F with h_ := F.h_ ++ [p], multiplier_ := F.multiplier_ ++ [m],
                     adjustment_ := F.adjustment_ ++ [a] }
  (F1.h_.length - 1, F1)

def modulus (F : func_t) (i : Nat) : Nat := F.h_.getD i 0
def multiplier (F : func_t) (i : Nat) : Nat := F.multiplier_.getD i 0
def adjustment (F : func_t) (i : Nat) : Nat := F.adjustment_.getD i 0
def size (F : func_t) : Nat := F.h_.length

end func_t

/-- The class `Table`, as its constructor leaves it; `s_` and `seed_`, which the constructor
does not initialise, are zero.  The member `empty_`, written by the constructor only, is the
constant `Table.empty_`. -/
structure Table where
  n_ : Nat := 0
  p_ : ℚ := DEFAULT_LOADING_FACTOR
  s_ : Nat := 0
  H_ : List hdr_t := []
  D_ : List data_t := []
  keys_ : List (List Nat) := []
  uuid_ : List Nat := UUID_DJB
  func_ : func_t := {}
  key_ : keyfunc_t := djb_hash
  multiplier_ : Nat := HASH_MULTIPLIER
  adjustment_ : Nat := 0
  power_ : PowerOfTwo := {}
  timeout_ : Nat := DEFAULT_TIMEOUT
  random_ : XorShift1024Star := {}
  seed_ : Nat := 0

namespace Table

/-- The member `empty_`: the datum `find_key` returns for a key that is not found. -/
def empty_ (_T : Table) : data_t := { key_ := [], val_ := EMPTY_VAL, idx_ := 0 }

def s (T : Table) : Nat := T.s_

/-- The primary hash `Table::h`. -/
def h (T : Table) (k : List Nat) : Nat :=
  modulo (T.key_ k T.multiplier_ T.adjustment_) T.s

/-- The inner loop of `find_r`: free slots among `D_[i .. upper)`. -/
def count_free (D : List data_t) (i upper : Nat) : Nat :=
  ((List.range' i (upper - i)).filter (fun j => is_free (D.getD j default))).length

/-- The body of the outer loops of `find_r`: slot `i` is free and the count is `newsize`. -/
def window_ok (D : List data_t) (newsize bound i : Nat) : Bool :=
  is_free (D.getD i default) && count_free D i (min (i + newsize) bound) == newsize

/-- The method `find_r`: the index returned and the table, whose `D_` may have grown.  The
counters `int i`, `int j` of the two scans are natural numbers here, so the definition follows
the source while they stay in the range of `int`, that is for `|D| + newsize < 2^31`; the
definition `find_r_int` keeps the `int` counters. -/
def find_r (T : Table) (src size newsize : Nat) : Nat × Table :=
  let num_slots := T.D_.length
  let below :=
    if src > newsize then (List.range src).find? (window_ok T.D_ newsize src) else none
  match below with
  | some i => (i, T)
  | none =>
    let D := resize T.D_ (num_slots + newsize) default
    let T1 := { T with D_ := D }
    match (List.range' (src + size) (D.length - (src + size))).find?
        (window_ok D newsize D.length) with
    | some i => (i, T1)
    | none => (UINT64_MAX, T1)

/-- The loop `while (gcd_binary(multiplier_, s_) != 1) multiplier_++` of `setup`. -/
def setup_multiplier : Nat → Nat → Nat → Nat
  | 0, m, _ => m
  | fuel + 1, m, s => if gcd_binary m s ≠ 1 then setup_multiplier fuel ((m + 1) % 2 ^ 64) s else m

/-- The method `setup`.  The loading factor is a rational number and `s` the floor of the exact
quotient; the definition follows the source while the quotient is in the range of `uint64_t`
(`p ≠ 0`) and the two calls of `resize` return, which they do, memory permitting, for sizes the
containers accept (`24 · s < 2^63` and `24 · n < 2^63`). -/
def setup (T : Table) (n : Nat) (use_p : Bool) (p : ℚ) (timeout seed multiplier adjustment : Nat)
    (key : keyfunc_t) : Table :=
  let p1 : ℚ := if p > 1 then DEFAULT_LOADING_FACTOR else p
  let s : Nat := (Rat.floor ((n : ℚ) / p1)).toNat
  let pw := (T.power_.seed (s + 1)).next
  let s1 : Nat := if use_p = false then pw.1 else s
  let p2 : ℚ := if use_p = false then (n : ℚ) / (s1 : ℚ) else p1
  let power1 := if use_p = false then pw.2 else T.power_
  let m := setup_multiplier (2 ^ 64) multiplier s1
  { T with
    multiplier_ := m, adjustment_ := adjustment, n_ := n, p_ := p2, s_ := s1,
    power_ := power1,
    H_ := resize T.H_ s1 default, D_ := resize T.D_ n default,
    func_ := T.func_.setup key, timeout_ := timeout, seed_ := seed,
    random_ := T.random_.seed seed }

/-- The collision test of `find_h` over the slots `D_[p + j]`, `j` in the given list: occupied
slots are hashed with `hf`, a slot already marked in `collisions` stops the scan. -/
def check_r (hf : List Nat → Nat) (D : List data_t) (p : Nat) :
    List Nat → List Bool → Bool
  | [], _ => true
  | j :: js, collisions =>
    if is_free (D.getD (p + j) default) then check_r hf D p js collisions
    else if collisions.getD (hf (D.getD (p + j) default).key_) false = true then false
    else check_r hf D p js (collisions.set (hf (D.getD (p + j) default).key_) true)

/-- One collision test of `find_h`: the new key is marked first, then the `r` slots of the
window are scanned; the result is the flag `found`. -/
def no_collisions (hf : List Nat → Nat) (D : List data_t) (p r next_r : Nat) (key : List Nat) :
    Bool :=
  check_r hf D p (List.range r) ((List.replicate next_r false).set (hf key) true)

/-- The loops `while (gcd_binary(x, y) != 1) { x++; x++; }` of `find_h`. -/
def advance_odd : Nat → Nat → Nat → Nat
  | 0, x, _ => x
  | fuel + 1, x, y => if gcd_binary x y ≠ 1 then advance_odd fuel ((x + 2) % 2 ^ 64) y else x

/-- The step `if ((x & 1) == 0) x++`. -/
def make_odd (x : Nat) : Nat := if x &&& 1 = 0 then (x + 1) % 2 ^ 64 else x

/-- The adjustment loop of `find_h`: a call for the new key, then one for each of
`D_[p + j]`, `j < next_r`; the value kept is the one the last call returned.  A read past the
end of `D_`, which is undefined in the source, gives a free slot here: the definition follows
the source for `p + next_r ≤ |D|`. -/
def suggest_all (F : func_t) (D : List data_t) (p next_r modulus multiplier : Nat)
    (key : List Nat) : Nat × func_t :=
  (List.range next_r).foldl
    (fun acc j => acc.2.suggest_adjustment modulus multiplier 0 (D.getD (p + j) default).key_)
    (F.reset_suggest_adjustment.suggest_adjustment modulus multiplier 0 key)

/-- The candidate `(modulus, multiplier)` of iteration `i` of the generate loop, and the
generator after the draw. -/
def candidate (E : Ext) (T : Table) (i next_r : Nat) : Nat × Nat × XorShift1024Star :=
  let draw := E.uniform_int (2 * i + 100 * next_r + 1) UINT32_MAX T.random_
  let multiplier := advance_odd (2 ^ 63) (make_odd T.multiplier_) next_r
  let modulus := advance_odd (2 ^ 63) (make_odd draw.1) multiplier
  (modulus, multiplier, draw.2)

/-- The body of the generate loop of `find_h` up to the test of `found`: the flag, the header
returned when it is set, and the table (generator, suggestion and, on success, the family
changed). -/
def try_candidate (E : Ext) (p r : Nat) (D : data_t) (i next_r : Nat) (T : Table) :
    Bool × hdr_t × Table :=
  let c := candidate E T i next_r
  let modulus := c.1
  let multiplier := c.2.1
  let sa := suggest_all T.func_ T.D_ p next_r modulus multiplier D.key_
  let adjustment := sa.1
  let T1 := { T with random_ := c.2.2, func_ := sa.2 }
  if no_collisions (fun k => T1.func_.h_internal modulus multiplier adjustment k next_r)
      T1.D_ p r next_r D.key_ = true then
    let a := T1.func_.add modulus multiplier adjustment
    (true, { p_ := 0, i_ := a.1, r_ := next_r }, { T1 with func_ := a.2 })
  else
    (false, { p_ := 0, i_ := 0, r_ := 0 }, T1)

/-- The generate loop of `find_h`.  After a failed candidate the clock is read: with
`budget = 0` the timeout has passed and the loop ends. -/
def find_h_generate (E : Ext) (p r : Nat) (D : data_t) :
    Nat → Nat → Nat → Nat → Table → hdr_t × Table
  | 0, i, _, next_r, T =>
    let t := try_candidate E p r D i next_r T
    if t.1 = true then t.2 else ({ p_ := 0, i_ := 0, r_ := 0 }, t.2.2)
  | budget + 1, i, attempts, next_r, T =>
    let t := try_candidate E p r D i next_r T
    if t.1 = true then t.2
    else if attempts + 1 ≥ DEFAULT_ATTEMPTS then
      find_h_generate E p r D budget (i + 1) 0 (next_r + 1) t.2.2
    else
      find_h_generate E p r D budget (i + 1) (attempts + 1) next_r t.2.2

/-- The method `find_h`; `budget` is the number of failed candidates after which the clock
shows the timeout as passed. -/
def find_h (E : Ext) (T : Table) (budget p r : Nat) (D : data_t) : hdr_t × Table :=
  let next_r := r + 1
  match (List.range' 1 (T.func_.size - 1)).find? (fun i =>
      T.func_.is_candidate i next_r &&
        no_collisions (fun k => T.func_.h i k next_r) T.D_ p r next_r D.key_) with
  | some i => ({ p_ := 0, i_ := i, r_ := next_r }, T)
  | none => find_h_generate E p r D budget 0 0 next_r T

/-- One iteration of the loop of `move_nonoverlap`. -/
def move_step (F : func_t) (hidx src dst m r : Nat) (D : List data_t) (i : Nat) : List data_t :=
  let d := D.getD (src + i) default
  if is_free d then D
  else if d.idx_ ≠ hidx then D
  else
    let offset := F.h m d.key_ r
    let D1 := D.set (dst + offset) d
    D1.set (src + i) { (D1.getD (src + i) default) with key_ := [], val_ := 0 }

/-- The method `move_nonoverlap`. -/
def move_nonoverlap (T : Table) (hidx src dst size m r : Nat) : Table :=
  if src = dst then T
  else { T with D_ := (List.range size).foldl (move_step T.func_ hidx src dst m r) T.D_ }

/-- The method `insert`; the argument is a `const char*`, read up to its first NUL. -/
def insert (E : Ext) (T : Table) (budget : Nat) (k0 : List Nat) (v : Nat) : Bool × Table :=
  let k := c_str k0
  let hidx := T.h k
  let hdr := T.H_.getD hidx default
  let dat : data_t := { key_ := k, val_ := v, idx_ := hidx }
  if hdr.r_ = 0 then
    let fr := T.find_r 0 1 1
    let y := fr.1
    (true, { fr.2 with H_ := fr.2.H_.set hidx { p_ := y, i_ := 0, r_ := 1 },
                       D_ := fr.2.D_.set y dat })
  else
    let fh := find_h E T budget hdr.p_ hdr.r_ dat
    if fh.1.r_ = 0 then (false, fh.2)
    else
      let fr := fh.2.find_r hdr.p_ hdr.r_ fh.1.r_
      let y := fr.1
      if y = UINT64_MAX then (false, fr.2)
      else
        let T3 := fr.2.move_nonoverlap hidx hdr.p_ y hdr.r_ fh.1.i_ fh.1.r_
        let T4 := { T3 with D_ := T3.D_.set (y + T3.func_.h fh.1.i_ k fh.1.r_) dat }
        (true, { T4 with H_ := T4.H_.set (T4.h k) { p_ := y, i_ := fh.1.i_, r_ := fh.1.r_ } })

/-- The method `find_key`; the comparison `dat.key_ == k` is between a C string and a
`std::string`. -/
def find_key (T : Table) (k : List Nat) : data_t :=
  let hdr := T.H_.getD (T.h k) default
  if hdr.r_ = 0 then T.empty_
  else
    let dat := T.D_.getD (hdr.p_ + T.func_.h hdr.i_ k hdr.r_) default
    if dat.key_ = k then dat else T.empty_

def find_val (T : Table) (k : List Nat) : Nat := (T.find_key k).val_

def notfound_val (_T : Table) (v : Nat) : Bool := v == EMPTY_VAL

/-- The insertion loop of `load`; `clock j` is the budget the wall clock leaves to the
`find_h` call of the `j`-th key. -/
def load_loop (E : Ext) (clock : Nat → Nat) :
    List (List Nat) → List Nat → Nat → Table → Bool × Table
  | [], _, _, T => (true, T)
  | k :: ks, values, j, T =>
    let r := T.insert E (clock j) k (values.headD 0)
    if r.1 = false then (false, r.2)
    else load_loop E clock ks values.tail (j + 1) r.2

/-- The method `load`.  It calls `keys_.reserve(keys.size())`, which leaves the size of `keys_`
as it is, and then assigns `keys_[i] = keys[i]` for every `i < keys.size()`: the assignment is
defined only when `keys_` has that many entries already, and the result is `none` when it has
not.  The insertion loop follows. -/
def load (E : Ext) (T : Table) (clock : Nat → Nat) (keys : List (List Nat)) (values : List Nat) :
    Option (Bool × Table) :=
  if keys.length ≤ T.keys_.length then
    some (load_loop E clock keys values 0 { T with keys_ := keys ++ T.keys_.drop keys.length })
  else none

/-- The row loops of `unserialize`:
`while (getline(istr, line)) { line = trim(line); if (line.empty()) break; split; ... }`.
`body` is the rest of the loop body after the field count test and yields `none` at its
`return false`.  The result is `false` when the method returns `false` inside the loop. -/
def read_rows {σ : Type} (body : List (List Nat) → σ → Option σ) :
    Nat → istream → List Nat → σ → Bool × istream × List Nat × σ
  | 0, is, line, st => (true, is, line, st)
  | fuel + 1, is, line, st =>
    let g := getline is line
    if g.1.fail = true then (true, g.1, g.2, st)
    else if (trim g.2).isEmpty = true then (true, g.1, trim g.2, st)
    else if (split (trim g.2)).length ≠ 4 then (false, g.1, trim g.2, st)
    else
      match body (split (trim g.2)) st with
      | none => (false, g.1, trim g.2, st)
      | some st1 => read_rows body fuel g.1 (trim g.2) st1

/-- Body of the loop reading the family rows. -/
def func_row (fields : List (List Nat)) (F : func_t) : Option func_t :=
  let idx := atoll (c_str (fields.getD 0 []))
  let h := atoll (c_str (fields.getD 1 []))
  let m := atoll (c_str (fields.getD 2 []))
  let a := atoll (c_str (fields.getD 3 []))
  if idx ≥ F.h_.length then none
  else some { F with h_ := F.h_.set idx h, multiplier_ := F.multiplier_.set idx m,
                     adjustment_ := F.adjustment_.set idx a }

/-- Body of the loop reading the header rows. -/
def H_row (fields : List (List Nat)) (H : List hdr_t) : Option (List hdr_t) :=
  let idx := atoll (c_str (fields.getD 0 []))
  let p := atoll (c_str (fields.getD 1 []))
  let i := atoll (c_str (fields.getD 2 []))
  let r := atoll (c_str (fields.getD 3 []))
  if idx ≥ H.length then none
  else some (H.set idx { p_ := p, i_ := i, r_ := r })

/-- Body of the loop reading the slot rows; the state is `D_`, `keys` and `indices`.  The
local `dat` keeps the empty key of its constructor. -/
def D_row (fields : List (List Nat)) (st : List data_t × List (List Nat) × List Nat) :
    Option (List data_t × List (List Nat) × List Nat) :=
  let idx := atoll (c_str (fields.getD 0 []))
  let key := unescape_string (c_str (fields.getD 1 []))
  let val := atoll (c_str (fields.getD 2 []))
  let hidx := atoll (c_str (fields.getD 3 []))
  if idx ≥ st.1.length then none
  else some (st.1.set idx { key_ := [], val_ := val, idx_ := hidx }, st.2.1 ++ [key],
    st.2.2 ++ [idx])

/-- The last loop of `unserialize`: `keys_[i] = keys[i]; D_[indices[i]].key_ = keys_[i].c_str()`.
With more rows than `keys_` has entries the source writes past the end of `keys_`, which is
undefined, and the slot receives the key of its row here: the definition follows the source
while the rows are at most the `n` entries of `keys_`. -/
def set_keys : List Nat → List (List Nat) → Nat → List (List Nat) × List data_t →
    List (List Nat) × List data_t
  | [], _, _, st => st
  | _ :: _, [], _, st => st
  | idx :: indices, key :: keys, i, st =>
    set_keys indices keys (i + 1)
      (st.1.set i key, st.2.set idx { (st.2.getD idx default) with key_ := c_str key })

/-- The method `unserialize` on a stream holding `text`: the result and the table afterwards;
`none` when `std::stod` throws.  The calls of `resize` are taken to return, which they do,
memory permitting, for sizes the containers accept (`8 · size < 2^63` for the family,
`24 · size < 2^63` for `H_` and `D_`, `32 · n < 2^63` for `keys_`), and the slot rows are taken
to be at most `n` (see `set_keys`). -/
def unserialize (E : Ext) (T : Table) (text : List Nat) : Option (Bool × Table) :=
  let fuel := text.length + 2
  let g1 := getline { buf := text } []
  if trim g1.2 ≠ bytes "pph version 1.0.0" then some (false, T)
  else
    let g2 := getline g1.1 (trim g1.2)
    let g3 := getline g2.1 g2.2
    let uuid := unescape_string (trim g3.2)
    let g4 := getline g3.1 g3.2
    let g5 := getline g4.1 g4.2
    let seed := atoll (c_str (trim g5.2))
    let g6 := getline g5.1 g5.2
    let g7 := getline g6.1 g6.2
    let size := atoll (c_str (trim g7.2))
    let F1 : func_t :=
      { T.func_ with key_ := uuid_to_keyfunc E uuid, h_ := resize T.func_.h_ size 0,
                     multiplier_ := resize T.func_.multiplier_ size 0,
                     adjustment_ := resize T.func_.adjustment_ size 0 }
    let g8 := getline g7.1 g7.2
    let r1 := read_rows func_row fuel g8.1 g8.2 F1
    let T1 := { T with uuid_ := uuid, seed_ := seed, func_ := r1.2.2.2 }
    if r1.1 = false then some (false, T1)
    else
      let g9 := getline r1.2.1 r1.2.2.1
      let fields := split (trim g9.2)
      if fields.length ≠ 7 then some (false, T1)
      else
        match E.stod (fields.getD 2 []) with
        | none => none
        | some pv =>
          let hsize := atoll (c_str (fields.getD 0 []))
          let T2 := { T1 with
            n_ := atoll (c_str (fields.getD 1 [])), p_ := pv,
            s_ := atoll (c_str (fields.getD 3 [])),
            multiplier_ := atoll (c_str (fields.getD 4 [])),
            adjustment_ := atoll (c_str (fields.getD 5 [])),
            timeout_ := atoll (c_str (fields.getD 6 [])),
            H_ := resize T1.H_ hsize default,
            keys_ := resize T1.keys_ (atoll (c_str (fields.getD 1 []))) [] }
          let g10 := getline g9.1 (trim g9.2)
          let r2 := read_rows H_row fuel g10.1 g10.2 T2.H_
          let T3 := { T2 with H_ := r2.2.2.2 }
          if r2.1 = false then some (false, T3)
          else
            let g11 := getline r2.2.1 r2.2.2.1
            let dsize := atoll (c_str (trim g11.2))
            let g12 := getline g11.1 g11.2
            let r3 := read_rows D_row fuel g12.1 g12.2 (resize T3.D_ dsize default, [], [])
            if r3.1 = false then some (false, { T3 with D_ := r3.2.2.2.1 })
            else
              let kd := set_keys r3.2.2.2.2.2 r3.2.2.2.2.1 0 (T3.keys_, r3.2.2.2.1)
              some (true, { T3 with keys_ := kd.1, D_ := kd.2 })

def uuid (T : Table) : List Nat := T.uuid_

def set_uuid (T : Table) (uuid : List Nat) : Table := { T with uuid_ := uuid }

def set_keyfunc (T : Table) (key : keyfunc_t) : Table :=
  { T with func_ := { T.func_ with key_ := key }, key_ := key }

end Table

end pph

namespace pph

/-! ## Definitions used in the statements and proofs -/

/-- Bit `j` of `y` is set exactly when one of the bits `j .. j+n-1` of `x` is. -/
def Smeared (n y x : Nat) : Prop :=
  ∀ j, y.testBit j = decide (∃ d, d < n ∧ x.testBit (j + d) = true)

/-- The six or-shift steps of `RoundUpPowerOf2`. -/
def smear (v0 : Nat) : Nat :=
  let v1 := v0 ||| (v0 >>> 1)
  let v2 := v1 ||| (v1 >>> 2)
  let v3 := v2 ||| (v2 >>> 4)
  let v4 := v3 ||| (v3 >>> 8)
  let v5 := v4 ||| (v4 >>> 16)
  v5 ||| (v5 >>> 32)

namespace Table

/-- The table after `insert` when the bucket of the key is empty (`hdr.r_ == 0`). -/
def insert_fresh (T : Table) (k0 : List Nat) (v : Nat) : Table :=
  { (T.find_r 0 1 1).2 with
    H_ := (T.find_r 0 1 1).2.H_.set (T.h (c_str k0)) { p_ := (T.find_r 0 1 1).1, i_ := 0, r_ := 1 },
    D_ := (T.find_r 0 1 1).2.D_.set (T.find_r 0 1 1).1
      { key_ := c_str k0, val_ := v, idx_ := T.h (c_str k0) } }

/-- Every key of the list meets an empty bucket when its turn comes. -/
def all_fresh : List (List Nat) → List Nat → Table → Bool
  | [], _, _ => true
  | k :: ks, values, T =>
    decide ((T.H_.getD (T.h (c_str k)) default).r_ = 0) &&
      all_fresh ks values.tail (T.insert_fresh k (values.headD 0))

/-- The table after inserting the keys, each into an empty bucket. -/
def load_fresh : List (List Nat) → List Nat → Table → Table
  | [], _, T => T
  | k :: ks, values, T => load_fresh ks values.tail (T.insert_fresh k (values.headD 0))

end Table

end pph

namespace pph

/-- A stand-in for the library code, to run examples: the distribution returns its lower
bound and leaves the generator alone, a `double` is written as `0`. -/
def Ext.simple : Ext where
  crc_checksum := fun _ => 0
  spooky_Hash64 := fun _ _ => 0
  uniform_int := fun a _ G => (a, G)
  put_double := fun _ => [48]
  stod := fun _ => some 0

namespace Table

/-- What `find_h` leaves alone: everything but the generator and the family. -/
def Frame (T T1 : Table) : Prop :=
  T1.H_ = T.H_ ∧ T1.D_ = T.D_ ∧ T1.s_ = T.s_ ∧ T1.key_ = T.key_ ∧
  T1.multiplier_ = T.multiplier_ ∧ T1.adjustment_ = T.adjustment_ ∧
  T1.func_.key_ = T.func_.key_ ∧ T1.n_ = T.n_ ∧ T1.keys_ = T.keys_ ∧ T1.uuid_ = T.uuid_

/-- The triples of the family are the same. -/
def SameFamily (F F1 : func_t) : Prop :=
  F1.h_ = F.h_ ∧ F1.multiplier_ = F.multiplier_ ∧ F1.adjustment_ = F.adjustment_ ∧
  F1.key_ = F.key_

end Table

end pph

namespace pph
namespace Table

/-- The table of scenario 4 (`setup(2, ...)` with the DJB parameters) after its first key
`"x"`, inserted with value 0. -/
def scenario_x : Table :=
  ((({} : Table).setup 2 false (97 / 100) 60000 1 65 0 djb_hash).insert Ext.simple 0
    (bytes "x") 0).2

end Table
end pph

namespace pph
namespace Table

/-- The invariant of construction on the header size `s`, the arrays `H` and `D`, the family `F`
and the primary hash `hp`: the header array has `s ≥ 1` entries, the three arrays of the family
have one common non-zero length, every header selects a member of the family and a window
inside `D`, and every occupied slot sits where a lookup of its key goes: its owner is the bucket
of its key, that bucket is not empty, and the slot index is the start of the bucket's window
plus the secondary hash of the key. -/
def WFc (s : Nat) (H : List hdr_t) (D : List data_t) (F : func_t) (hp : List Nat → Nat) : Prop :=
  H.length = s ∧ (∀ k, hp k < s) ∧
  F.multiplier_.length = F.h_.length ∧
  F.adjustment_.length = F.h_.length ∧
  0 < F.h_.length ∧
  (∀ b, (H.getD b default).i_ < F.h_.length) ∧
  (∀ b, (H.getD b default).r_ ≠ 0 →
    (H.getD b default).p_ + (H.getD b default).r_ ≤ D.length) ∧
  (∀ x, is_free (D.getD x default) = false →
    (D.getD x default).idx_ = hp (D.getD x default).key_ ∧
    (H.getD (D.getD x default).idx_ default).r_ ≠ 0 ∧
    x = (H.getD (D.getD x default).idx_ default).p_ +
      F.h (H.getD (D.getD x default).idx_ default).i_ (D.getD x default).key_
        (H.getD (D.getD x default).idx_ default).r_)

/-- The invariant of construction of a table. -/
def WF (T : Table) : Prop := WFc T.s_ T.H_ T.D_ T.func_ T.h

/-- Some occupied slot of `D` stores the key `k` with the value `v`. -/
def HoldsD (D : List data_t) (k : List Nat) (v : Nat) : Prop :=
  ∃ x, is_free (D.getD x default) = false ∧ (D.getD x default).key_ = k ∧
    (D.getD x default).val_ = v

/-- Some occupied slot of the table stores the key `k` with the value `v`. -/
def Holds (T : Table) (k : List Nat) (v : Nat) : Prop := HoldsD T.D_ k v

/-- Every slot of `D1` stores the pair `(k, v)`, is blank (empty key, value 0), or has the
content of a slot of `D`. -/
def FromD (D D1 : List data_t) (k : List Nat) (v : Nat) : Prop :=
  ∀ x, ((D1.getD x default).key_ = k ∧ (D1.getD x default).val_ = v) ∨
    ((D1.getD x default).key_ = [] ∧ (D1.getD x default).val_ = 0) ∨
    ∃ x0, D1.getD x default = D.getD x0 default

/-- The slot array after a bucket is rebuilt: `m` free slots appended, the members of bucket
`b` moved from the window at `p` (size `r`) to the window at `y` under the hash `(i1, r1)`, and
the new datum written. -/
def rebuild_D (F1 : func_t) (D : List data_t) (k : List Nat) (v b p r i1 r1 y m : Nat) :
    List data_t :=
  ((List.range r).foldl (move_step F1 b p y i1 r1) (D ++ List.replicate m default)).set
    (y + F1.h i1 k r1) { key_ := k, val_ := v, idx_ := b }

/-- Every slot is blank (empty key, value 0) or stores one of the given pairs. -/
def Stores (T : Table) (kvs : List (List Nat × Nat)) : Prop :=
  ∀ x, ((T.D_.getD x default).key_ = [] ∧ (T.D_.getD x default).val_ = 0) ∨
    ((T.D_.getD x default).key_, (T.D_.getD x default).val_) ∈ kvs

end Table
end pph

namespace pph

/-- The text `escape_string` writes for one byte. -/
def escape_char (c : Nat) : List Nat :=
  if isalnum c then [c] else [92, 120] ++ put_hex4 (char_to_u32 c)

end pph

namespace pph
namespace Table

/-- The row loop of `unserialize` on rows already split into fields. -/
def run_rows {σ : Type} (body : List (List Nat) → σ → Option σ) :
    List (List (List Nat)) → σ → Option σ
  | [], st => some st
  | r :: rs, st =>
    match body r st with
    | none => none
    | some st1 => run_rows body rs st1

end Table
end pph

namespace pph
namespace Table

/-- The table of `setup(3, true, 1.0, ...)` with the DJB parameters (header size 3) after its
first key `"a"`, inserted with value 0: the key sits in slot 1, the window of bucket 1. -/
def scenario_a : Table :=
  ((({} : Table).setup 3 true 1 60000 1 65 0 djb_hash).insert Ext.simple 0 (bytes "a") 0).2

end Table
end pph

namespace pph
namespace Table

/-! ## The stages of `unserialize`, and reachable states -/

/-- The start of `unserialize` on a text whose first line is the magic: the stream and the line
after the empty line that precedes the family rows, and the UUID, the seed and the family size
read on the way. -/
def uns_head (text : List Nat) : (istream × List Nat) × List Nat × Nat × Nat :=
  let g1 := getline { buf := text } []
  let g2 := getline g1.1 (trim g1.2)
  let g3 := getline g2.1 g2.2
  let g4 := getline g3.1 g3.2
  let g5 := getline g4.1 g4.2
  let g6 := getline g5.1 g5.2
  let g7 := getline g6.1 g6.2
  (getline g7.1 g7.2, unescape_string (trim g3.2), atoll (c_str (trim g5.2)),
    atoll (c_str (trim g7.2)))

/-- The family of the receiving table before its rows are read: the key function of the UUID
and the arrays resized. -/
def uns_F1 (E : Ext) (T : Table) (text : List Nat) : func_t :=
  { T.func_ with key_ := uuid_to_keyfunc E (uns_head text).2.1,
                 h_ := resize T.func_.h_ (uns_head text).2.2.2 0,
                 multiplier_ := resize T.func_.multiplier_ (uns_head text).2.2.2 0,
                 adjustment_ := resize T.func_.adjustment_ (uns_head text).2.2.2 0 }

/-- The loop of `unserialize` over the family rows. -/
def uns_family (E : Ext) (T : Table) (text : List Nat) : Bool × istream × List Nat × func_t :=
  read_rows func_row (text.length + 2) (uns_head text).1.1 (uns_head text).1.2 (uns_F1 E T text)

/-- The table when the loop over the family rows is left. -/
def uns_T1 (E : Ext) (T : Table) (text : List Nat) : Table :=
  { T with uuid_ := (uns_head text).2.1, seed_ := (uns_head text).2.2.1,
           func_ := (uns_family E T text).2.2.2 }

/-- The line of parameters: the line read after the family rows, trimmed. -/
def uns_param_line (E : Ext) (T : Table) (text : List Nat) : istream × List Nat :=
  ((getline (uns_family E T text).2.1 (uns_family E T text).2.2.1).1,
    trim (getline (uns_family E T text).2.1 (uns_family E T text).2.2.1).2)

/-- The fields of the line of parameters. -/
def uns_fields (E : Ext) (T : Table) (text : List Nat) : List (List Nat) :=
  split (uns_param_line E T text).2

/-- The table after the line of parameters is read, `pv` being the loading factor. -/
def uns_T2 (E : Ext) (T : Table) (text : List Nat) (pv : ℚ) : Table :=
  { uns_T1 E T text with
    n_ := atoll (c_str ((uns_fields E T text).getD 1 [])), p_ := pv,
    s_ := atoll (c_str ((uns_fields E T text).getD 3 [])),
    multiplier_ := atoll (c_str ((uns_fields E T text).getD 4 [])),
    adjustment_ := atoll (c_str ((uns_fields E T text).getD 5 [])),
    timeout_ := atoll (c_str ((uns_fields E T text).getD 6 [])),
    H_ := resize T.H_ (atoll (c_str ((uns_fields E T text).getD 0 []))) default,
    keys_ := resize T.keys_ (atoll (c_str ((uns_fields E T text).getD 1 []))) [] }

/-- The loop of `unserialize` over the header rows. -/
def uns_headers (E : Ext) (T : Table) (text : List Nat) :
    Bool × istream × List Nat × List hdr_t :=
  read_rows H_row (text.length + 2)
    (getline (uns_param_line E T text).1 (uns_param_line E T text).2).1
    (getline (uns_param_line E T text).1 (uns_param_line E T text).2).2
    (resize T.H_ (atoll (c_str ((uns_fields E T text).getD 0 []))) default)

/-- The number of slots read after the header rows, and the stream and line after the empty
line that follows it. -/
def uns_dsize (E : Ext) (T : Table) (text : List Nat) : Nat × istream × List Nat :=
  let g11 := getline (uns_headers E T text).2.1 (uns_headers E T text).2.2.1
  (atoll (c_str (trim g11.2)), getline g11.1 g11.2)

/-- The loop of `unserialize` over the slot rows. -/
def uns_slots (E : Ext) (T : Table) (text : List Nat) :
    Bool × istream × List Nat × List data_t × List (List Nat) × List Nat :=
  read_rows D_row (text.length + 2) (uns_dsize E T text).2.1 (uns_dsize E T text).2.2
    (resize T.D_ (uns_dsize E T text).1 default, [], [])

/-- The method `unserialize` by its stages. -/
def unserialize_staged (E : Ext) (T : Table) (text : List Nat) : Option (Bool × Table) :=
  if trim (getline { buf := text } []).2 ≠ bytes "pph version 1.0.0" then some (false, T)
  else if (uns_family E T text).1 = false then some (false, uns_T1 E T text)
  else if (uns_fields E T text).length ≠ 7 then some (false, uns_T1 E T text)
  else
    match E.stod ((uns_fields E T text).getD 2 []) with
    | none => none
    | some pv =>
      if (uns_headers E T text).1 = false then
        some (false, { uns_T2 E T text pv with H_ := (uns_headers E T text).2.2.2 })
      else if (uns_slots E T text).1 = false then
        some (false, { uns_T2 E T text pv with H_ := (uns_headers E T text).2.2.2,
                                               D_ := (uns_slots E T text).2.2.2.1 })
      else
        some (true, { uns_T2 E T text pv with
          H_ := (uns_headers E T text).2.2.2,
          keys_ := (set_keys (uns_slots E T text).2.2.2.2.2 (uns_slots E T text).2.2.2.2.1 0
            (resize T.keys_ (atoll (c_str ((uns_fields E T text).getD 1 []))) [],
              (uns_slots E T text).2.2.2.1)).1,
          D_ := (set_keys (uns_slots E T text).2.2.2.2.2 (uns_slots E T text).2.2.2.2.1 0
            (resize T.keys_ (atoll (c_str ((uns_fields E T text).getD 1 []))) [],
              (uns_slots E T text).2.2.2.1)).2 })

/-- The rows a row loop of `unserialize` reads from the stream: the lines up to the first one
that cannot be read, is empty after trimming or does not have four fields, each split into its
fields. -/
def rows_read : Nat → istream → List Nat → List (List (List Nat))
  | 0, _, _ => []
  | fuel + 1, is, line =>
    if (getline is line).1.fail = true then []
    else if (trim (getline is line).2).isEmpty = true then []
    else if (split (trim (getline is line).2)).length ≠ 4 then []
    else split (trim (getline is line).2) ::
      rows_read fuel (getline is line).1 (trim (getline is line).2)

/-- The family rows of a text. -/
def family_rows (text : List Nat) : List (List (List Nat)) :=
  rows_read (text.length + 2) (uns_head text).1.1 (uns_head text).1.2

/-- The header rows of a text. -/
def header_rows (E : Ext) (T : Table) (text : List Nat) : List (List (List Nat)) :=
  rows_read (text.length + 2)
    (getline (uns_param_line E T text).1 (uns_param_line E T text).2).1
    (getline (uns_param_line E T text).1 (uns_param_line E T text).2).2

/-- The slot rows of a text. -/
def slot_rows (E : Ext) (T : Table) (text : List Nat) : List (List (List Nat)) :=
  rows_read (text.length + 2) (uns_dsize E T text).2.1 (uns_dsize E T text).2.2

/-- The index a row starts with. -/
def row_index (r : List (List Nat)) : Nat := atoll (c_str (r.getD 0 []))

/-- The states reached from `T0` by calls of `insert` that return true. -/
inductive Reach (E : Ext) (T0 : Table) : Table → Prop
  | start : Reach E T0 T0
  | step (T : Table) (budget : Nat) (k : List Nat) (v : Nat) :
      Reach E T0 T → (T.insert E budget k v).1 = true → Reach E T0 (T.insert E budget k v).2

end Table
end pph

namespace pph

/-! ## `bitScanForward.cpp` and `bitScanReverse.cpp` -/

/-- The constant `debruijn64` of both functions. -/
def debruijn64 : Nat := 0x03f79d71b4cb0a89

/-- The table `index64` of `bitScanForward`. -/
def bitScanForward.index64 : List Nat :=
  [0, 1, 48, 2, 57, 49, 28, 3,
   61, 58, 50, 42, 38, 29, 17, 4,
   62, 55, 59, 36, 53, 51, 43, 22,
   45, 39, 33, 30, 24, 18, 12, 5,
   63, 47, 56, 27, 60, 41, 37, 16,
   54, 35, 52, 21, 44, 32, 23, 11,
   46, 26, 40, 15, 34, 20, 31, 10,
   25, 14, 19, 9, 13, 8, 7, 6]

/-- The index `((bb & -bb) * debruijn64) >> 58` of the lookup of `bitScanForward`. -/
def bitScanForward.lookup (bb : Nat) : Nat :=
  (((bb &&& ((2 ^ 64 - bb) % 2 ^ 64)) * debruijn64) % 2 ^ 64) >>> 58

/-- The function `bitScanForward`. -/
def bitScanForward (bb : Nat) : Nat :=
  bitScanForward.index64.getD (bitScanForward.lookup bb) 0

/-- The table `index64` of `bitScanReverse`. -/
def bitScanReverse.index64 : List Nat :=
  [63, 16, 62, 7, 15, 36, 61, 3,
   6, 14, 22, 26, 35, 47, 60, 2,
   9, 5, 28, 11, 13, 21, 42, 19,
   25, 31, 34, 40, 46, 52, 59, 1,
   17, 8, 37, 4, 23, 27, 48, 10,
   29, 12, 43, 20, 32, 41, 53, 18,
   38, 24, 49, 30, 44, 33, 54, 39,
   50, 45, 55, 51, 56, 57, 58, 0]

/-- The function `bitScanReverse`. -/
def bitScanReverse (bb : Nat) : Nat :=
  let b1 := bb ||| (bb >>> 1)
  let b2 := b1 ||| (b1 >>> 2)
  let b3 := b2 ||| (b2 >>> 4)
  let b4 := b3 ||| (b3 >>> 8)
  let b5 := b4 ||| (b4 >>> 16)
  let b6 := b5 ||| (b5 >>> 32)
  bitScanReverse.index64.getD (((b6 * debruijn64) % 2 ^ 64) >>> 58) 0

/-- The values of `n` successive calls of `next`. -/
def XorShift1024Star.stream : Nat → XorShift1024Star → List Nat
  | 0, _ => []
  | n + 1, G => G.next.1 :: XorShift1024Star.stream n G.next.2

/-- The first `n` outputs of a `SplitMix64` generator. -/
def SplitMix64.stream : Nat → SplitMix64 → List Nat
  | 0, _ => []
  | n + 1, S => S.next.1 :: SplitMix64.stream n S.next.2

end pph

namespace pph
namespace Table

/-! ## Reads of `find_h`, examples -/

/-- The indices at which the adjustment loop of `find_h` reads `D_`:
`for (j = 0; j < next_r; j++) ... D_[p + j].key_`. -/
def suggest_reads (p next_r : Nat) : List Nat := (List.range next_r).map (fun j => p + j)

/-- The table of `setup(1, true, 1.0, ...)` with the DJB parameters (one bucket) after its
first key `"a"`: the key sits in slot 1, the last slot of `D_`. -/
def scenario_one : Table :=
  ((({} : Table).setup 1 true 1 60000 1 65 0 djb_hash).insert Ext.simple 0 (bytes "a") 0).2

/-- The table `scenario_one` with one more slot, which stores the key `"zz"`. -/
def scenario_one_more : Table :=
  { scenario_one with D_ := scenario_one.D_ ++ [{ key_ := bytes "zz", val_ := 7, idx_ := 0 }] }

end Table
end pph

namespace pph
namespace Table

/-- The states reached from `T0` by calls of `insert` that return true, with the pairs
inserted (the key as the C string `insert` reads), last one first. -/
inductive Inserted (E : Ext) (T0 : Table) : List (List Nat × Nat) → Table → Prop
  | start : Inserted E T0 [] T0
  | step (kvs : List (List Nat × Nat)) (T : Table) (budget : Nat) (k : List Nat) (v : Nat) :
      Inserted E T0 kvs T → (T.insert E budget k v).1 = true →
      Inserted E T0 ((c_str k, v) :: kvs) (T.insert E budget k v).2

end Table
end pph

namespace pph
namespace Table

/-- The hash `hf` maps the key `key` and the keys of the live slots of `D[p .. p+r)` to
pairwise distinct values. -/
def Separates (hf : List Nat → Nat) (D : List data_t) (p r : Nat) (key : List Nat) : Prop :=
  (∀ j, j < r → is_free (D.getD (p + j) default) = false →
    hf (D.getD (p + j) default).key_ ≠ hf key) ∧
  (∀ j1 j2, j1 < r → j2 < r → j1 ≠ j2 →
    is_free (D.getD (p + j1) default) = false →
    is_free (D.getD (p + j2) default) = false →
    hf (D.getD (p + j1) default).key_ ≠ hf (D.getD (p + j2) default).key_)

/-- The table after the candidates `0, ..., c - 1` of the generate loop of `find_h`, entered
with bucket size `r`, when candidate `j` is tested at the size `r + 1 + j / 100`. -/
def generate_state (E : Ext) (p r : Nat) (D : data_t) : Nat → Table → Table
  | 0, T => T
  | c + 1, T =>
    (try_candidate E p r D c (r + 1 + c / 100) (generate_state E p r D c T)).2.2

end Table
end pph

namespace pph
namespace Table

/-- The table `scenario_a` after the keys `"d"` (same bucket as `"a"`; a member is added to
the family) and `"b"` (bucket 2). -/
def scenario_adb : Table :=
  ((scenario_a.insert Ext.simple 1000 (bytes "d") 1).2.insert Ext.simple 1000 (bytes "b") 2).2

end Table
end pph

namespace pph
namespace Table

/-! ## Examples of serialized tables -/

/-- The table `scenario_a` after the key `"d"`, which shares bucket 1 with `"a"`: the bucket
uses member 1 of the family. -/
def scenario_ad : Table := (scenario_a.insert Ext.simple 1000 (bytes "d") 1).2

/-- A text with the magic, the UUID `X`, a family of size 0 and a line of parameters of one
field. -/
def short_param_text : List Nat := bytes "pph version 1.0.0\n\nX\n\n0\n\n0\n\n\nbad\n"

/-- A text with a family of size 1, one bucket and one slot, whose header row gives bucket 0
the header `(5, 7, 3)`. -/
def wide_header_text : List Nat :=
  bytes "pph version 1.0.0\n\nX\n\n0\n\n1\n\n0 0 0 0\n\n1 0 0 1 65 0 60000\n\n0 5 7 3\n\n1\n\n\n"

/-- The text of the table of `setup(3, true, 1.0, ...)` that holds the key `"b"` with the value
0 under DJB (bucket 2, slot 1), with the UUID `X`, which is not registered. -/
def foreign_uuid_text : List Nat :=
  bytes "pph version 1.0.0\n\nX\n\n1\n\n1\n\n0 0 0 0\n\n3 3 1 3 65 0 60000\n\n2 1 0 1\n\n4\n\n1 b 0 2\n\n"

/-! ## The `int` counters of `find_r` -/

/-- The value an `int` is given from a 64-bit word: the low 32 bits, read as a two's complement
number. -/
def to_int (x : Nat) : Int :=
  if x % 2 ^ 32 < 2 ^ 31 then ((x % 2 ^ 32 : Nat) : Int) else ((x % 2 ^ 32 : Nat) : Int) - 2 ^ 32

/-- The 64-bit word an `int` becomes when it is compared with a `uint64_t`. -/
def int_to_u64 (i : Int) : Nat := (i % 2 ^ 64).toNat

/-- The counter of the second scan of `find_r` when the scan starts: `int i = src+size`. -/
def find_r_scan_start (src size : Nat) : Int := to_int ((src + size) % 2 ^ 64)

/-! ## `find_r` with the `int` counters of the source -/

/-- The inner loop of `find_r`, `for (int j = i; j < upper; j++)`, from the counter `j` with
`count` free slots seen: the count when the loop ends, or `none` when `j++` leaves the range
of `int`.  The first argument bounds the number of tests `j < upper`; `upper + 1` is enough. -/
def count_free_int (D : List data_t) (upper : Nat) : Nat → Int → Nat → Option Nat
  | 0, _, _ => none
  | fuel + 1, j, count =>
    if int_to_u64 j < upper then
      if j = 2 ^ 31 - 1 then none
      else count_free_int D upper fuel (j + 1)
        (if is_free (D.getD (int_to_u64 j) default) then count + 1 else count)
    else some count

/-- An outer loop of `find_r`, `for (int i = ...; i < bound; i++)`, from the counter `i`:
`some (some y)` when the loop returns the index `y`, `some none` when it ends without a
return, `none` when `i++` or `j++` leaves the range of `int`.  The first argument bounds the
number of tests `i < bound`; `bound + 1` is enough. -/
def scan_int (D : List data_t) (newsize bound : Nat) : Nat → Int → Option (Option Nat)
  | 0, _ => none
  | fuel + 1, i =>
    if int_to_u64 i < bound then
      if is_free (D.getD (int_to_u64 i) default) then
        match count_free_int D (min ((int_to_u64 i + newsize) % 2 ^ 64) bound)
            (min ((int_to_u64 i + newsize) % 2 ^ 64) bound + 1) i 0 with
        | none => none
        | some count =>
          if count = newsize then some (some (int_to_u64 i))
          else if i = 2 ^ 31 - 1 then none
          else scan_int D newsize bound fuel (i + 1)
      else if i = 2 ^ 31 - 1 then none
      else scan_int D newsize bound fuel (i + 1)
    else some none

/-- The method `find_r` with the `int` counters of the source: the index returned and the
table, or `none` when a counter leaves the range of `int`. -/
def find_r_int (T : Table) (src size newsize : Nat) : Option (Nat × Table) :=
  match (if src > newsize then scan_int T.D_ newsize src (src + 1) 0 else some none) with
  | none => none
  | some (some y) => some (y, T)
  | some none =>
    match scan_int (resize T.D_ (T.D_.length + newsize) default) newsize
        (resize T.D_ (T.D_.length + newsize) default).length
        ((resize T.D_ (T.D_.length + newsize) default).length + 1)
        (find_r_scan_start src size) with
    | none => none
    | some (some y) => some (y, { T with D_ := resize T.D_ (T.D_.length + newsize) default })
    | some none =>
      some (UINT64_MAX, { T with D_ := resize T.D_ (T.D_.length + newsize) default })

end Table
end pph

namespace pph

/-! ## Arithmetic helpers -/

theorem mask_lt {y : Nat} (hy : 0 < y) : (y + (2 ^ 64 - 1)) % 2 ^ 64 < y := by
  by_cases h : y < 2 ^ 64
  · have : (y + (2 ^ 64 - 1)) % 2 ^ 64 = y - 1 := by omega
    omega
  · have : (y + (2 ^ 64 - 1)) % 2 ^ 64 < 2 ^ 64 := Nat.mod_lt _ (by norm_num)
    omega

theorem modulo_lt (x : Nat) {y : Nat} (hy : 0 < y) : modulo x y < y := by
  unfold modulo
  split
  · exact lt_of_le_of_lt Nat.and_le_right (mask_lt hy)
  · exact Nat.mod_lt _ hy

theorem and_pred_eq_zero : ∀ (n y : Nat), y < 2 ^ n → 0 < y → y &&& (y - 1) = 0 → ∃ k, y = 2 ^ k := by
  intro n
  induction n with
  | zero => intro y h1 h2; omega
  | succ n ih =>
    intro y hlt hpos h
    rcases Nat.even_or_odd y with he | ho
    · obtain ⟨m, hm⟩ := he
      have hm2 : y = 2 * m := by omega
      have hmpos : 0 < m := by omega
      have hmlt : m < 2 ^ n := by rw [pow_succ] at hlt; omega
      have key : m &&& (m - 1) = 0 := by
        apply Nat.eq_of_testBit_eq
        intro i
        have := congrArg (fun z => z.testBit (i + 1)) h
        simp only [Nat.testBit_and, Nat.zero_testBit] at this ⊢
        rw [Nat.testBit_succ, Nat.testBit_succ] at this
        have e1 : y / 2 = m := by omega
        have e2 : (y - 1) / 2 = m - 1 := by omega
        rw [e1, e2] at this
        exact this
      obtain ⟨k, hk⟩ := ih m hmlt hmpos key
      exact ⟨k + 1, by rw [hm2, hk, pow_succ]; ring⟩
    · obtain ⟨m, hm⟩ := ho
      by_cases hm0 : m = 0
      · exact ⟨0, by simp [hm, hm0]⟩
      · exfalso
        have hb : ∀ i, (y &&& (y - 1)).testBit (i + 1) = m.testBit i := by
          intro i
          rw [Nat.testBit_and, Nat.testBit_succ, Nat.testBit_succ]
          have e1 : y / 2 = m := by omega
          have e2 : (y - 1) / 2 = m := by omega
          rw [e1, e2, Bool.and_self]
        have hz : m = 0 := by
          apply Nat.eq_of_testBit_eq
          intro i
          rw [← hb i, h, Nat.zero_testBit, Nat.zero_testBit]
        exact hm0 hz

theorem modulo_eq_mod {x y : Nat} (hx : x < 2 ^ 64) (hy : y < 2 ^ 64) : modulo x y = x % y := by
  unfold modulo
  by_cases hy0 : y = 0
  · subst hy0
    have : (0 + (2 ^ 64 - 1)) % 2 ^ 64 = 2 ^ 64 - 1 := by norm_num
    rw [if_pos (by simp), this, Nat.and_pow_two_sub_one_eq_mod, Nat.mod_zero, Nat.mod_eq_of_lt hx]
  · have e : (y + (2 ^ 64 - 1)) % 2 ^ 64 = y - 1 := by omega
    rw [e]
    split
    · rename_i h
      obtain ⟨k, hk⟩ := and_pred_eq_zero 64 y hy (by omega) h
      rw [hk, Nat.and_pow_two_sub_one_eq_mod]
    · rfl

end pph

namespace pph

/-! ## `RoundUpPowerOf2` -/

theorem smeared_one (x : Nat) : Smeared 1 x x := by
  intro j
  by_cases h : x.testBit j = true
  · rw [h]; symm; rw [decide_eq_true_iff]; exact ⟨0, by omega, by simpa using h⟩
  · rw [Bool.not_eq_true] at h
    rw [h]; symm; rw [decide_eq_false_iff_not]
    rintro ⟨d, hd, hb⟩
    have : d = 0 := by omega
    subst this
    simp [h] at hb

theorem smeared_step {n y x : Nat} (h : Smeared n y x) : Smeared (2 * n) (y ||| (y >>> n)) x := by
  intro j
  rw [Nat.testBit_or, Nat.testBit_shiftRight, h j, h (n + j)]
  by_cases h1 : ∃ d, d < 2 * n ∧ x.testBit (j + d) = true
  · rw [decide_eq_true h1]
    obtain ⟨d, hd, hb⟩ := h1
    by_cases hdn : d < n
    · have : decide (∃ d, d < n ∧ x.testBit (j + d) = true) = true :=
        decide_eq_true ⟨d, hdn, hb⟩
      rw [this, Bool.true_or]
    · have : decide (∃ d, d < n ∧ x.testBit (n + j + d) = true) = true :=
        decide_eq_true ⟨d - n, by omega, by
          have e : n + j + (d - n) = j + d := by omega
          rw [e]; exact hb⟩
      rw [this, Bool.or_true]
  · rw [decide_eq_false h1]
    have a1 : decide (∃ d, d < n ∧ x.testBit (j + d) = true) = false := by
      apply decide_eq_false
      rintro ⟨d, hd, hb⟩
      exact h1 ⟨d, by omega, hb⟩
    have a2 : decide (∃ d, d < n ∧ x.testBit (n + j + d) = true) = false := by
      apply decide_eq_false
      rintro ⟨d, hd, hb⟩
      exact h1 ⟨n + d, by omega, by
        have e : j + (n + d) = n + j + d := by omega
        rw [e]; exact hb⟩
    rw [a1, a2, Bool.or_false]

theorem smeared_smear (x : Nat) : Smeared 64 (smear x) x := by
  have h1 := smeared_step (smeared_one x)
  have h2 := smeared_step h1
  have h3 := smeared_step h2
  have h4 := smeared_step h3
  have h5 := smeared_step h4
  have h6 := smeared_step h5
  exact h6

theorem smear_zero : smear 0 = 0 := by decide

theorem smear_eq {x i : Nat} (hi : i < 64) (hb : x.testBit i = true)
    (hhi : ∀ j, i < j → x.testBit j = false) : smear x = 2 ^ (i + 1) - 1 := by
  apply Nat.eq_of_testBit_eq
  intro j
  rw [smeared_smear x j, Nat.testBit_two_pow_sub_one]
  by_cases hj : j < i + 1
  · rw [decide_eq_true hj]
    apply decide_eq_true
    exact ⟨i - j, by omega, by
      have e : j + (i - j) = i := by omega
      rw [e]; exact hb⟩
  · rw [decide_eq_false hj]
    apply decide_eq_false
    rintro ⟨d, _, hd⟩
    rw [hhi (j + d) (by omega)] at hd
    exact Bool.false_ne_true hd

/-- For `1 ≤ v ≤ 2^63` the function `RoundUpPowerOf2` returns the least power of two that is
at least `v`. -/
theorem RoundUpPowerOf2_spec {v : Nat} (h1 : 1 ≤ v) (h2 : v ≤ 2 ^ 63) :
    ∃ k, RoundUpPowerOf2 v = 2 ^ k ∧ v ≤ 2 ^ k ∧ ∀ j, v ≤ 2 ^ j → k ≤ j := by
  have hv0 : (v + (2 ^ 64 - 1)) % 2 ^ 64 = v - 1 := by omega
  have hdef : RoundUpPowerOf2 v = (smear (v - 1) + 1) % 2 ^ 64 := by
    unfold RoundUpPowerOf2 smear
    rw [hv0]
  by_cases hx : v - 1 = 0
  · refine ⟨0, ?_, by omega, fun j _ => Nat.zero_le j⟩
    rw [hdef, hx, smear_zero]; norm_num
  · obtain ⟨i, hb, hhi⟩ := Nat.exists_most_significant_bit hx
    have hge : 2 ^ i ≤ v - 1 := Nat.testBit_implies_ge hb
    have hi : i < 63 := by
      by_contra hcon
      have : 2 ^ 63 ≤ 2 ^ i := Nat.pow_le_pow_right (by norm_num) (by omega)
      omega
    have hlt : v - 1 < 2 ^ (i + 1) :=
      Nat.lt_pow_two_of_testBit _ (fun j hj => hhi j (by omega))
    have hs := smear_eq (by omega : i < 64) hb hhi
    have hpos : 0 < 2 ^ (i + 1) := Nat.pow_pos (by norm_num)
    have hle : 2 ^ (i + 1) ≤ 2 ^ 63 := Nat.pow_le_pow_right (by norm_num) (by omega)
    refine ⟨i + 1, ?_, by omega, ?_⟩
    · rw [hdef, hs]
      have : 2 ^ (i + 1) - 1 + 1 = 2 ^ (i + 1) := by omega
      rw [this]
      exact Nat.mod_eq_of_lt (by omega)
    · intro j hj
      by_contra hcon
      have : 2 ^ j ≤ 2 ^ i := Nat.pow_le_pow_right (by norm_num) (by omega)
      omega

/-! ## `gcd_binary` at `u = 1` and the termination of the coprimality loops -/

theorem shiftRight_ctzAux_ne_zero : ∀ (fuel v : Nat), v ≠ 0 → v >>> ctzAux fuel v ≠ 0 := by
  intro fuel
  induction fuel with
  | zero => intro v hv; simpa [ctzAux] using hv
  | succ f ih =>
    intro v hv
    unfold ctzAux
    split
    · simpa using hv
    · have h2 : v / 2 ≠ 0 := by omega
      have := ih (v / 2) h2
      rw [Nat.add_comm 1, Nat.shiftRight_succ_inside]
      exact this

theorem gcd_loop_one : ∀ (fuel v : Nat), v ≠ 0 → gcd_loop fuel 1 v = 1 := by
  intro fuel
  induction fuel with
  | zero => intro v _; rfl
  | succ f ih =>
    intro v hv
    have h1 : v >>> CTZ v ≠ 0 := shiftRight_ctzAux_ne_zero 64 v hv
    unfold gcd_loop
    have hng : ¬ (1 > v >>> CTZ v) := by
      intro hcon
      exact h1 (Nat.lt_one_iff.mp hcon)
    simp only [hng, if_false]
    split
    · rename_i h3; exact ih _ h3
    · rfl

theorem gcd_binary_one_left (v : Nat) : gcd_binary 1 v = 1 := by
  unfold gcd_binary
  rw [if_neg (by norm_num)]
  split
  · rfl
  · rename_i hv
    have hodd : (1 ||| v) % 2 = 1 := by
      have h0 : (1 ||| v).testBit 0 = true := by
        rw [Nat.testBit_or]; simp
      rw [Nat.testBit_zero] at h0
      exact of_decide_eq_true h0
    have hc : CTZ (1 ||| v) = 0 := by
      unfold CTZ ctzAux
      rw [if_pos hodd]
    have hc1 : CTZ 1 = 0 := by decide
    simp only [hc, hc1, Nat.shiftRight_zero, Nat.shiftLeft_zero]
    rw [gcd_loop_one _ _ hv]
    norm_num

namespace Table

/-- The loop of `setup` ends within `2^64` iterations with a multiplier coprime to `s`. -/
theorem setup_multiplier_coprime_aux : ∀ (fuel m s : Nat), m < 2 ^ 64 →
    (2 ^ 64 + 1 - m) % 2 ^ 64 ≤ fuel → gcd_binary (setup_multiplier fuel m s) s = 1 := by
  intro fuel
  induction fuel with
  | zero =>
    intro m s hm hd
    have : m = 1 := by omega
    subst this
    simp only [setup_multiplier]
    exact gcd_binary_one_left s
  | succ f ih =>
    intro m s hm hd
    unfold setup_multiplier
    split
    · rename_i hg
      have hm1 : m ≠ 1 := by
        intro h; subst h; exact hg (gcd_binary_one_left s)
      apply ih _ _ (Nat.mod_lt _ (by norm_num))
      omega
    · rename_i hg
      simpa using hg

theorem setup_multiplier_coprime (m s : Nat) (hm : m < 2 ^ 64) :
    gcd_binary (setup_multiplier (2 ^ 64) m s) s = 1 :=
  setup_multiplier_coprime_aux _ m s hm (le_of_lt (Nat.mod_lt _ (by norm_num)))

/-- The loops `x += 2` of `find_h`, started at an odd value, end within `2^63` iterations with
`gcd_binary(x, y) == 1`. -/
theorem advance_odd_coprime_aux : ∀ (fuel x y : Nat), x < 2 ^ 64 → x % 2 = 1 →
    ((2 ^ 64 + 1 - x) % 2 ^ 64) / 2 ≤ fuel → gcd_binary (advance_odd fuel x y) y = 1 := by
  intro fuel
  induction fuel with
  | zero =>
    intro x y hx ho hd
    have : x = 1 := by omega
    subst this
    simp only [advance_odd]
    exact gcd_binary_one_left y
  | succ f ih =>
    intro x y hx ho hd
    unfold advance_odd
    split
    · rename_i hg
      have hx1 : x ≠ 1 := by
        intro h; subst h; exact hg (gcd_binary_one_left y)
      apply ih _ _ (Nat.mod_lt _ (by norm_num))
      · omega
      · omega
    · rename_i hg
      simpa using hg

theorem advance_odd_coprime (x y : Nat) (hx : x < 2 ^ 64) (ho : x % 2 = 1) :
    gcd_binary (advance_odd (2 ^ 63) x y) y = 1 :=
  advance_odd_coprime_aux _ x y hx ho (by omega)

end Table

end pph

namespace pph
namespace Table

/-! ## `setup` -/

theorem length_resize {α : Type} (l : List α) (n : Nat) (d : α) : (resize l n d).length = n := by
  unfold resize
  rw [List.length_append, List.length_take, List.length_replicate]
  omega

theorem setup_s_pow2 (T : Table) (n : Nat) (p : ℚ) (timeout seed multiplier adjustment : Nat)
    (key : keyfunc_t) :
    (T.setup n false p timeout seed multiplier adjustment key).s_ =
      RoundUpPowerOf2 (((Rat.floor ((n : ℚ) / (if p > 1 then DEFAULT_LOADING_FACTOR else p))).toNat
        + 1) % 2 ^ 64) := by
  simp [setup, PowerOfTwo.seed, PowerOfTwo.next]

theorem setup_H_length (T : Table) (n : Nat) (use_p : Bool) (p : ℚ)
    (timeout seed multiplier adjustment : Nat) (key : keyfunc_t) :
    (T.setup n use_p p timeout seed multiplier adjustment key).H_.length =
      (T.setup n use_p p timeout seed multiplier adjustment key).s_ := by
  simp [setup, length_resize]

theorem rat_floor_toNat (q : ℚ) : (Rat.floor q).toNat = ⌊q⌋₊ := by
  rw [← Int.floor_toNat]
  rfl

/-- C10: for `N` and `p` with `0 < p` and `⌊N/p⌋ + 1 ≤ 2^63`, when `setup` with
`use_exact_p = false` returns, that is, when the `N` slots of `D` and the `s` headers of `H`, of
24 bytes each, are within the sizes `resize` accepts, the header size `s` is a power of two and
the header array has exactly `s` entries. -/
theorem C10_header_size_power_of_two (T : Table) (n : Nat) (p : ℚ)
    (timeout seed multiplier adjustment : Nat) (key : keyfunc_t)
    (hp0 : 0 < p) (hb : ⌊(n : ℚ) / p⌋₊ + 1 ≤ 2 ^ 63)
    (hD : 24 * n < 2 ^ 63)
    (hH : 24 * (T.setup n false p timeout seed multiplier adjustment key).s_ < 2 ^ 63) :
    (∃ k, (T.setup n false p timeout seed multiplier adjustment key).s_ = 2 ^ k) ∧
    (T.setup n false p timeout seed multiplier adjustment key).H_.length =
      (T.setup n false p timeout seed multiplier adjustment key).s_ := by
  have _ := hp0
  have _ := hH
  refine ⟨?_, setup_H_length _ _ _ _ _ _ _ _ _⟩
  have hb1 : ⌊(n : ℚ) / (if p > 1 then DEFAULT_LOADING_FACTOR else p)⌋₊ + 1 ≤ 2 ^ 63 := by
    by_cases hp : p > 1
    · rw [if_pos hp]
      have h1 : (n : ℚ) / DEFAULT_LOADING_FACTOR ≤ ((2 * n : ℕ) : ℚ) := by
        unfold DEFAULT_LOADING_FACTOR
        rw [div_le_iff₀ (by norm_num)]
        push_cast
        have : (0 : ℚ) ≤ (n : ℚ) := Nat.cast_nonneg n
        linarith
      have h2 : ⌊(n : ℚ) / DEFAULT_LOADING_FACTOR⌋₊ ≤ 2 * n :=
        (Nat.floor_le_floor h1).trans (le_of_eq (Nat.floor_natCast _))
      omega
    · rw [if_neg hp]
      exact hb
  rw [setup_s_pow2, rat_floor_toNat]
  rw [Nat.mod_eq_of_lt (by omega)]
  obtain ⟨k, hk, _⟩ := RoundUpPowerOf2_spec (by omega) hb1
  exact ⟨k, hk⟩

/-- C10 at `N = 3`, `p = 97/100`. -/
theorem C10_header_size_power_of_two_witness :
    (∃ k, (({} : Table).setup 3 false (97 / 100) 60000 1 65 0 djb_hash).s_ = 2 ^ k) ∧
    (({} : Table).setup 3 false (97 / 100) 60000 1 65 0 djb_hash).H_.length =
      (({} : Table).setup 3 false (97 / 100) 60000 1 65 0 djb_hash).s_ :=
  C10_header_size_power_of_two {} 3 (97 / 100) 60000 1 65 0 djb_hash (by norm_num) (by decide!)
    (by decide) (by decide!)

end Table
end pph

namespace pph
namespace Table

/-! ## Lookup -/

theorem func_h_lt (F : func_t) (i : Nat) (k : List Nat) {r : Nat} (hr : 0 < r) :
    F.h i k r < r := by
  unfold func_t.h
  split
  · exact hr
  · exact modulo_lt _ hr

theorem find_val_eq (T : Table) (k : List Nat) :
    T.find_val k =
      if (T.H_.getD (T.h k) default).r_ ≠ 0 ∧
          (T.D_.getD ((T.H_.getD (T.h k) default).p_ +
            T.func_.h (T.H_.getD (T.h k) default).i_ k (T.H_.getD (T.h k) default).r_)
            default).key_ = k
      then (T.D_.getD ((T.H_.getD (T.h k) default).p_ +
            T.func_.h (T.H_.getD (T.h k) default).i_ k (T.H_.getD (T.h k) default).r_)
            default).val_
      else EMPTY_VAL := by
  unfold find_val find_key empty_
  dsimp only
  by_cases h1 : (T.H_.getD (T.h k) default).r_ = 0
  · rw [if_pos h1, if_neg (fun h => h.1 h1)]
  · rw [if_neg h1]
    by_cases h2 : (T.D_.getD ((T.H_.getD (T.h k) default).p_ +
            T.func_.h (T.H_.getD (T.h k) default).i_ k (T.H_.getD (T.h k) default).r_)
            default).key_ = k
    · rw [if_pos h2, if_pos ⟨h1, h2⟩]
    · rw [if_neg h2, if_neg (fun h => h2 h.2)]

/-- C3: with `(p, i, r) = H[h(k)]` and `q = (keyfn(k, mu_i, alpha_i) mod m_i) mod r` (the index
`i` inside the family, all values 64-bit), `find_val(k)` is `D[p+q].val` when `r != 0` and
`D[p+q].key = k`, and `EMPTY_VAL` otherwise; a value other than `EMPTY_VAL` comes only from a
slot whose key equals `k`. -/
theorem C3_lookup_reference (T : Table) (k : List Nat)
    (hi : (T.H_.getD (T.h k) default).i_ < T.func_.size)
    (hkey : T.func_.key_ k (T.func_.multiplier (T.H_.getD (T.h k) default).i_)
      (T.func_.adjustment (T.H_.getD (T.h k) default).i_) < 2 ^ 64)
    (hm : T.func_.modulus (T.H_.getD (T.h k) default).i_ < 2 ^ 64)
    (hr : (T.H_.getD (T.h k) default).r_ < 2 ^ 64) :
    let hdr := T.H_.getD (T.h k) default
    let q := (T.func_.key_ k (T.func_.multiplier hdr.i_) (T.func_.adjustment hdr.i_)
      % T.func_.modulus hdr.i_) % hdr.r_
    (hdr.r_ ≠ 0 ∧ (T.D_.getD (hdr.p_ + q) default).key_ = k →
      T.find_val k = (T.D_.getD (hdr.p_ + q) default).val_) ∧
    (hdr.r_ = 0 ∨ (T.D_.getD (hdr.p_ + q) default).key_ ≠ k → T.find_val k = EMPTY_VAL) ∧
    (T.find_val k ≠ EMPTY_VAL → (T.D_.getD (hdr.p_ + q) default).key_ = k) := by
  intro hdr q
  have hq : T.func_.h hdr.i_ k hdr.r_ = q := by
    unfold func_t.h func_t.h_internal
    rw [if_neg (show ¬ (hdr.i_ ≥ T.func_.h_.length) from not_le.mpr hi)]
    have h1 : modulo (T.func_.key_ k (T.func_.multiplier_.getD hdr.i_ 0)
        (T.func_.adjustment_.getD hdr.i_ 0)) (T.func_.h_.getD hdr.i_ 0) =
        T.func_.key_ k (T.func_.multiplier_.getD hdr.i_ 0) (T.func_.adjustment_.getD hdr.i_ 0)
          % T.func_.h_.getD hdr.i_ 0 := modulo_eq_mod hkey hm
    rw [h1]
    exact modulo_eq_mod (lt_of_le_of_lt (Nat.mod_le _ _) hkey) hr
  have hfv := find_val_eq T k
  rw [show T.func_.h (T.H_.getD (T.h k) default).i_ k (T.H_.getD (T.h k) default).r_ = q
    from hq] at hfv
  refine ⟨?_, ?_, ?_⟩
  · intro h
    rw [hfv, if_pos h]
  · intro h
    rw [hfv, if_neg]
    rintro ⟨h1, h2⟩
    rcases h with h | h
    · exact h1 h
    · exact h h2
  · intro h
    by_contra hne
    apply h
    rw [hfv, if_neg]
    rintro ⟨_, h2⟩
    exact hne h2

/-- C3 on scenario 4 after its first key: the lookup of `"x"`. -/
theorem C3_lookup_reference_witness :
    ((scenario_x.H_.getD (scenario_x.h (bytes "x")) default).i_ < scenario_x.func_.size ∧
     scenario_x.func_.key_ (bytes "x")
       (scenario_x.func_.multiplier (scenario_x.H_.getD (scenario_x.h (bytes "x")) default).i_)
       (scenario_x.func_.adjustment (scenario_x.H_.getD (scenario_x.h (bytes "x")) default).i_)
       < 2 ^ 64 ∧
     scenario_x.func_.modulus (scenario_x.H_.getD (scenario_x.h (bytes "x")) default).i_ < 2 ^ 64 ∧
     (scenario_x.H_.getD (scenario_x.h (bytes "x")) default).r_ < 2 ^ 64) ∧
    (scenario_x.find_val (bytes "x") ≠ EMPTY_VAL →
      (scenario_x.D_.getD ((scenario_x.H_.getD (scenario_x.h (bytes "x")) default).p_ +
        (scenario_x.func_.key_ (bytes "x")
          (scenario_x.func_.multiplier (scenario_x.H_.getD (scenario_x.h (bytes "x")) default).i_)
          (scenario_x.func_.adjustment (scenario_x.H_.getD (scenario_x.h (bytes "x")) default).i_)
          % scenario_x.func_.modulus (scenario_x.H_.getD (scenario_x.h (bytes "x")) default).i_)
          % (scenario_x.H_.getD (scenario_x.h (bytes "x")) default).r_) default).key_
        = bytes "x") :=
  ⟨⟨by decide!, by decide!, by decide!, by decide!⟩,
   (C3_lookup_reference scenario_x (bytes "x") (by decide!) (by decide!) (by decide!)
     (by decide!)).2.2⟩

/-! ## Insertion into an empty bucket -/

theorem insert_of_empty_bucket (E : Ext) (T : Table) (budget : Nat) (k0 : List Nat) (v : Nat)
    (h : (T.H_.getD (T.h (c_str k0)) default).r_ = 0) :
    T.insert E budget k0 v = (true, T.insert_fresh k0 v) := by
  unfold insert insert_fresh
  simp only [h, if_true]

theorem load_loop_of_all_fresh (E : Ext) (clock : Nat → Nat) :
    ∀ (keys : List (List Nat)) (values : List Nat) (j : Nat) (T : Table),
      all_fresh keys values T = true →
      load_loop E clock keys values j T = (true, load_fresh keys values T) := by
  intro keys
  induction keys with
  | nil => intro values j T _; rfl
  | cons k ks ih =>
    intro values j T h
    simp only [all_fresh, Bool.and_eq_true, decide_eq_true_eq] at h
    simp only [load_loop, load_fresh, insert_of_empty_bucket E T (clock j) k _ h.1]
    exact ih _ _ _ h.2

/-- C4 fails on the code: scenario 1.  With DJB, seed 1, multiplier 65, adjustment 0, timeout
60000, `use_exact_p = false`, `p = 0.97`, after `setup(3, ...)` the vector `keys_` is empty, and
`load(["alpha","beta","gamma"], [0,1,2])` assigns `keys_[0]`, `keys_[1]`, `keys_[2]` after a
`reserve` that leaves it empty: the call has no defined result.  The three calls of `insert` that
follow the assignments return true, and after them `find_val` gives 0, 1, 2 and
`find_val("delta")` is `EMPTY_VAL`, for every behaviour of the library code and of the clock. -/
theorem C4_scenario_load_undefined :
    (({} : Table).setup 3 false (97 / 100) 60000 1 65 0 djb_hash).keys_.length = 0 ∧
    (∀ (E : Ext) (clock : Nat → Nat),
      (({} : Table).setup 3 false (97 / 100) 60000 1 65 0 djb_hash).load E clock
        [bytes "alpha", bytes "beta", bytes "gamma"] [0, 1, 2] = none) ∧
    (∀ (E : Ext) (clock : Nat → Nat),
      (load_loop E clock [bytes "alpha", bytes "beta", bytes "gamma"] [0, 1, 2] 0
        (({} : Table).setup 3 false (97 / 100) 60000 1 65 0 djb_hash)).1 = true ∧
      ([bytes "alpha", bytes "beta", bytes "gamma", bytes "delta"].map
        (load_loop E clock [bytes "alpha", bytes "beta", bytes "gamma"] [0, 1, 2] 0
          (({} : Table).setup 3 false (97 / 100) 60000 1 65 0 djb_hash)).2.find_val)
        = [0, 1, 2, EMPTY_VAL]) := by
  refine ⟨by decide!, ?_, ?_⟩
  · intro E clock
    unfold load
    rw [if_neg (by decide!)]
  · intro E clock
    have hf : all_fresh [bytes "alpha", bytes "beta", bytes "gamma"] [0, 1, 2]
        (({} : Table).setup 3 false (97 / 100) 60000 1 65 0 djb_hash) = true := by
      decide!
    rw [load_loop_of_all_fresh E clock _ _ 0 _ hf]
    refine ⟨rfl, ?_⟩
    decide!

theorem setup_H (T : Table) (n : Nat) (use_p : Bool) (p : ℚ)
    (timeout seed multiplier adjustment : Nat) (key : keyfunc_t) :
    (T.setup n use_p p timeout seed multiplier adjustment key).H_ =
      resize T.H_ (T.setup n use_p p timeout seed multiplier adjustment key).s_ default := by
  rfl

theorem setup_key (T : Table) (n : Nat) (use_p : Bool) (p : ℚ)
    (timeout seed multiplier adjustment : Nat) (key : keyfunc_t) :
    (T.setup n use_p p timeout seed multiplier adjustment key).key_ = T.key_ := by
  rfl

theorem getD_singleton_default (n : Nat) :
    ([default] : List hdr_t).getD n default = default := by
  cases n <;> rfl

theorem load_nil (E : Ext) (T : Table) (clock : Nat → Nat) (values : List Nat) :
    T.load E clock [] values = some (true, { T with keys_ := [] ++ T.keys_.drop 0 }) := by
  simp only [load, load_loop, List.length_nil, Nat.zero_le, if_true]

theorem h_lt (T : Table) (k : List Nat) (hs : 0 < T.s_) : T.h k < T.s_ := by
  unfold h s
  exact modulo_lt _ hs

/-- C8: after `setup(0, false, p, ...)` on a fresh table the header array has one entry,
`load([], [])` returns true, and every key hashes to bucket 0 and is looked up as `EMPTY_VAL`. -/
theorem C8_empty_input (E : Ext) (clock : Nat → Nat) (p : ℚ)
    (timeout seed multiplier adjustment : Nat) (key : keyfunc_t) (k : List Nat) :
    (({} : Table).setup 0 false p timeout seed multiplier adjustment key).H_.length = 1 ∧
    ∃ U, (({} : Table).setup 0 false p timeout seed multiplier adjustment key).load E clock [] []
        = some (true, U) ∧
      U.h k = 0 ∧ U.find_val k = EMPTY_VAL := by
  generalize hT : ({} : Table).setup 0 false p timeout seed multiplier adjustment key = T0
  have hs : T0.s_ = 1 := by
    rw [← hT, setup_s_pow2, rat_floor_toNat]
    have hz : ((0 : ℕ) : ℚ) / (if p > 1 then DEFAULT_LOADING_FACTOR else p) = 0 := by
      rw [Nat.cast_zero, zero_div]
    rw [hz, Nat.floor_zero]
    decide
  have hH : T0.H_ = [default] := by
    rw [← hT, setup_H, hT, hs]
    rfl
  refine ⟨by rw [hH]; rfl, _, load_nil E T0 clock [], ?_, ?_⟩
  · have := h_lt { T0 with keys_ := [] ++ T0.keys_.drop 0 } k (by show 0 < T0.s_; rw [hs]; norm_num)
    have e : ({ T0 with keys_ := [] ++ T0.keys_.drop 0 } : Table).s_ = 1 := hs
    exact Nat.lt_one_iff.mp (lt_of_lt_of_eq this e)
  · rw [find_val_eq, if_neg]
    rintro ⟨h1, _⟩
    apply h1
    show (T0.H_.getD _ default).r_ = 0
    rw [hH, getD_singleton_default]
    rfl

end Table
end pph

namespace pph
namespace Table

/-! ## `find_h`: what it changes, and duplicate keys -/

theorem frame_refl (T : Table) : Frame T T :=
  ⟨rfl, rfl, rfl, rfl, rfl, rfl, rfl, rfl, rfl, rfl⟩

theorem same_family_refl (F : func_t) : SameFamily F F := ⟨rfl, rfl, rfl, rfl⟩

theorem same_family_trans {F F1 F2 : func_t} (h1 : SameFamily F F1) (h2 : SameFamily F1 F2) :
    SameFamily F F2 :=
  ⟨h2.1.trans h1.1, h2.2.1.trans h1.2.1, h2.2.2.1.trans h1.2.2.1, h2.2.2.2.trans h1.2.2.2⟩

theorem suggest_adjustment_same (F : func_t) (m mu a : Nat) (k : List Nat) :
    SameFamily F (F.suggest_adjustment m mu a k).2 := by
  unfold func_t.suggest_adjustment
  dsimp only
  split
  · exact ⟨rfl, rfl, rfl, rfl⟩
  · exact ⟨rfl, rfl, rfl, rfl⟩

theorem suggest_fold_same (D : List data_t) (p m mu : Nat) :
    ∀ (js : List Nat) (acc : Nat × func_t),
      SameFamily acc.2 (js.foldl (fun acc j =>
        acc.2.suggest_adjustment m mu 0 (D.getD (p + j) default).key_) acc).2 := by
  intro js
  induction js with
  | nil => intro acc; exact same_family_refl _
  | cons j js ih =>
    intro acc
    rw [List.foldl_cons]
    exact same_family_trans (suggest_adjustment_same acc.2 m mu 0 _) (ih _)

theorem suggest_all_same (F : func_t) (D : List data_t) (p next_r m mu : Nat) (key : List Nat) :
    SameFamily F (suggest_all F D p next_r m mu key).2 := by
  unfold suggest_all
  have h0 : SameFamily F F.reset_suggest_adjustment := ⟨rfl, rfl, rfl, rfl⟩
  exact same_family_trans (same_family_trans h0 (suggest_adjustment_same _ m mu 0 key))
    (suggest_fold_same D p m mu _ _)

theorem h_internal_congr {F F1 : func_t} (hk : F1.key_ = F.key_) (m mu a : Nat) (k : List Nat)
    (r : Nat) : F1.h_internal m mu a k r = F.h_internal m mu a k r := by
  unfold func_t.h_internal
  rw [hk]

theorem h_internal_lt (F : func_t) (m mu a : Nat) (k : List Nat) {r : Nat} (hr : 0 < r) :
    F.h_internal m mu a k r < r :=
  modulo_lt _ hr

/-- A failed candidate leaves the family as it was; a successful one appends its triple. -/
theorem try_candidate_spec (E : Ext) (p r : Nat) (D : data_t) (i next_r : Nat) (T : Table) :
    Frame T (try_candidate E p r D i next_r T).2.2 ∧
    (((try_candidate E p r D i next_r T).1 = false ∧
        (try_candidate E p r D i next_r T).2.1 = { p_ := 0, i_ := 0, r_ := 0 } ∧
        SameFamily T.func_ (try_candidate E p r D i next_r T).2.2.func_) ∨
     ((try_candidate E p r D i next_r T).1 = true ∧
        ∃ m mu a,
          (try_candidate E p r D i next_r T).2.1 =
            { p_ := 0, i_ := T.func_.h_.length, r_ := next_r } ∧
          (try_candidate E p r D i next_r T).2.2.func_.h_ = T.func_.h_ ++ [m] ∧
          (try_candidate E p r D i next_r T).2.2.func_.multiplier_ = T.func_.multiplier_ ++ [mu] ∧
          (try_candidate E p r D i next_r T).2.2.func_.adjustment_ = T.func_.adjustment_ ++ [a] ∧
          no_collisions (fun k => T.func_.h_internal m mu a k next_r) T.D_ p r next_r D.key_
            = true)) := by
  have hs := suggest_all_same T.func_ T.D_ p next_r (candidate E T i next_r).1
    (candidate E T i next_r).2.1 D.key_
  unfold try_candidate
  dsimp only
  split
  · rename_i hc
    refine ⟨⟨rfl, rfl, rfl, rfl, rfl, rfl, hs.2.2.2, rfl, rfl, rfl⟩, Or.inr ⟨rfl, ?_⟩⟩
    refine ⟨(candidate E T i next_r).1, (candidate E T i next_r).2.1,
      (suggest_all T.func_ T.D_ p next_r (candidate E T i next_r).1
        (candidate E T i next_r).2.1 D.key_).1, ?_, ?_, ?_, ?_, ?_⟩
    · simp only [func_t.add, List.length_append, List.length_singleton, Nat.add_sub_cancel, hs.1]
    · simp only [func_t.add, hs.1]
    · simp only [func_t.add, hs.2.1]
    · simp only [func_t.add, hs.2.2.1]
    · rw [← hc]
      congr 1
      funext k
      exact (h_internal_congr hs.2.2.2 _ _ _ _ _).symm
  · exact ⟨⟨rfl, rfl, rfl, rfl, rfl, rfl, hs.2.2.2, rfl, rfl, rfl⟩, Or.inl ⟨rfl, rfl, hs⟩⟩

theorem frame_trans {T T1 T2 : Table} (h1 : Frame T T1) (h2 : Frame T1 T2) : Frame T T2 := by
  obtain ⟨a1, a2, a3, a4, a5, a6, a7, a8, a9, a10⟩ := h1
  obtain ⟨b1, b2, b3, b4, b5, b6, b7, b8, b9, b10⟩ := h2
  exact ⟨b1.trans a1, b2.trans a2, b3.trans a3, b4.trans a4, b5.trans a5, b6.trans a6,
    b7.trans a7, b8.trans a8, b9.trans a9, b10.trans a10⟩

/-- The generate loop either fails, with the family as it was, or appends one triple that
passes the collision test at the size it returns. -/
theorem find_h_generate_spec (E : Ext) (p r : Nat) (D : data_t) :
    ∀ (budget i attempts next_r : Nat) (T : Table),
    Frame T (find_h_generate E p r D budget i attempts next_r T).2 ∧
    (((find_h_generate E p r D budget i attempts next_r T).1 = { p_ := 0, i_ := 0, r_ := 0 } ∧
        SameFamily T.func_ (find_h_generate E p r D budget i attempts next_r T).2.func_) ∨
     (∃ m mu a nr, next_r ≤ nr ∧
        (find_h_generate E p r D budget i attempts next_r T).1 =
          { p_ := 0, i_ := T.func_.h_.length, r_ := nr } ∧
        (find_h_generate E p r D budget i attempts next_r T).2.func_.h_ = T.func_.h_ ++ [m] ∧
        (find_h_generate E p r D budget i attempts next_r T).2.func_.multiplier_ =
          T.func_.multiplier_ ++ [mu] ∧
        (find_h_generate E p r D budget i attempts next_r T).2.func_.adjustment_ =
          T.func_.adjustment_ ++ [a] ∧
        no_collisions (fun k => T.func_.h_internal m mu a k nr) T.D_ p r nr D.key_ = true)) := by
  intro budget
  induction budget with
  | zero =>
    intro i attempts next_r T
    obtain ⟨hf, hc⟩ := try_candidate_spec E p r D i next_r T
    unfold find_h_generate
    dsimp only
    rcases hc with ⟨h1, h2, h3⟩ | ⟨h1, m, mu, a, h2, h3, h4, h5, h6⟩
    · rw [if_neg (by rw [h1]; exact Bool.false_ne_true)]
      exact ⟨hf, Or.inl ⟨rfl, h3⟩⟩
    · rw [if_pos h1]
      exact ⟨hf, Or.inr ⟨m, mu, a, next_r, le_refl _, h2, h3, h4, h5, h6⟩⟩
  | succ b ih =>
    intro i attempts next_r T
    obtain ⟨hf, hc⟩ := try_candidate_spec E p r D i next_r T
    unfold find_h_generate
    dsimp only
    rcases hc with ⟨h1, h2, h3⟩ | ⟨h1, m, mu, a, h2, h3, h4, h5, h6⟩
    · rw [if_neg (by rw [h1]; exact Bool.false_ne_true)]
      have key : ∀ (att nr : Nat), next_r ≤ nr →
          Frame T (find_h_generate E p r D b (i + 1) att nr
            (try_candidate E p r D i next_r T).2.2).2 ∧
          (((find_h_generate E p r D b (i + 1) att nr
              (try_candidate E p r D i next_r T).2.2).1 = { p_ := 0, i_ := 0, r_ := 0 } ∧
            SameFamily T.func_ (find_h_generate E p r D b (i + 1) att nr
              (try_candidate E p r D i next_r T).2.2).2.func_) ∨
          (∃ m mu a nr', next_r ≤ nr' ∧
            (find_h_generate E p r D b (i + 1) att nr
              (try_candidate E p r D i next_r T).2.2).1 =
              { p_ := 0, i_ := T.func_.h_.length, r_ := nr' } ∧
            (find_h_generate E p r D b (i + 1) att nr
              (try_candidate E p r D i next_r T).2.2).2.func_.h_ = T.func_.h_ ++ [m] ∧
            (find_h_generate E p r D b (i + 1) att nr
              (try_candidate E p r D i next_r T).2.2).2.func_.multiplier_ =
              T.func_.multiplier_ ++ [mu] ∧
            (find_h_generate E p r D b (i + 1) att nr
              (try_candidate E p r D i next_r T).2.2).2.func_.adjustment_ =
              T.func_.adjustment_ ++ [a] ∧
            no_collisions (fun k => T.func_.h_internal m mu a k nr') T.D_ p r nr' D.key_
              = true)) := by
        intro att nr hnr
        obtain ⟨hf2, hc2⟩ := ih (i + 1) att nr (try_candidate E p r D i next_r T).2.2
        refine ⟨frame_trans hf hf2, ?_⟩
        rcases hc2 with ⟨g1, g2⟩ | ⟨m, mu, a, nr', g0, g1, g2, g3, g4, g5⟩
        · exact Or.inl ⟨g1, same_family_trans h3 g2⟩
        · refine Or.inr ⟨m, mu, a, nr', le_trans hnr g0, ?_, ?_, ?_, ?_, ?_⟩
          · rw [g1, h3.1]
          · rw [g2, h3.1]
          · rw [g3, h3.2.1]
          · rw [g4, h3.2.2.1]
          · rw [← g5, hf.2.1]
            congr 1
            funext k
            exact (h_internal_congr h3.2.2.2 _ _ _ _ _).symm
      split
      · exact key 0 (next_r + 1) (Nat.le_succ _)
      · exact key (attempts + 1) next_r (le_refl _)
    · rw [if_pos h1]
      exact ⟨hf, Or.inr ⟨m, mu, a, next_r, le_refl _, h2, h3, h4, h5, h6⟩⟩

end Table
end pph

namespace pph
namespace Table

theorem find_h_spec (E : Ext) (T : Table) (budget p r : Nat) (D : data_t) :
    Frame T (find_h E T budget p r D).2 ∧
    (((find_h E T budget p r D).1 = { p_ := 0, i_ := 0, r_ := 0 } ∧
        SameFamily T.func_ (find_h E T budget p r D).2.func_) ∨
     (∃ i, 1 ≤ i ∧ i < T.func_.size ∧
        (find_h E T budget p r D).1 = { p_ := 0, i_ := i, r_ := r + 1 } ∧
        SameFamily T.func_ (find_h E T budget p r D).2.func_ ∧
        T.func_.is_candidate i (r + 1) = true ∧
        no_collisions (fun k => T.func_.h i k (r + 1)) T.D_ p r (r + 1) D.key_ = true) ∨
     (∃ m mu a nr, r + 1 ≤ nr ∧
        (find_h E T budget p r D).1 = { p_ := 0, i_ := T.func_.h_.length, r_ := nr } ∧
        (find_h E T budget p r D).2.func_.h_ = T.func_.h_ ++ [m] ∧
        (find_h E T budget p r D).2.func_.multiplier_ = T.func_.multiplier_ ++ [mu] ∧
        (find_h E T budget p r D).2.func_.adjustment_ = T.func_.adjustment_ ++ [a] ∧
        no_collisions (fun k => T.func_.h_internal m mu a k nr) T.D_ p r nr D.key_ = true)) := by
  unfold find_h
  dsimp only
  split
  · rename_i i hfind
    have hp := List.find?_some hfind
    have hm := List.mem_of_find?_eq_some hfind
    rw [List.mem_range'_1] at hm
    rw [Bool.and_eq_true] at hp
    refine ⟨frame_refl T, Or.inr (Or.inl ⟨i, hm.1, ?_, rfl, same_family_refl _, hp.1, hp.2⟩)⟩
    omega
  · obtain ⟨hf, hc⟩ := find_h_generate_spec E p r D budget 0 0 (r + 1) T
    refine ⟨hf, ?_⟩
    rcases hc with h | h
    · exact Or.inl h
    · exact Or.inr (Or.inr h)

/-- A header returned by `find_h` with `r_ = 0` is the failure header, and the family is
unchanged. -/
theorem find_h_failure (E : Ext) (T : Table) (budget p r : Nat) (D : data_t)
    (h0 : (find_h E T budget p r D).1.r_ = 0) :
    (find_h E T budget p r D).1 = { p_ := 0, i_ := 0, r_ := 0 } ∧
    SameFamily T.func_ (find_h E T budget p r D).2.func_ := by
  obtain ⟨_, hc⟩ := find_h_spec E T budget p r D
  rcases hc with h | ⟨i, _, _, h, _⟩ | ⟨m, mu, a, nr, hnr, h, _⟩
  · exact h
  · rw [h] at h0
    exact absurd h0 (Nat.succ_ne_zero r)
  · rw [h] at h0
    have : nr = 0 := h0
    omega

theorem h_congr {T T1 : Table} (hf : Frame T T1) (k : List Nat) : T1.h k = T.h k := by
  obtain ⟨_, _, a3, a4, a5, a6, _⟩ := hf
  unfold h s
  rw [a3, a4, a5, a6]

theorem func_h_congr {F F1 : func_t} (hs : SameFamily F F1) (i : Nat) (k : List Nat) (r : Nat) :
    F1.h i k r = F.h i k r := by
  obtain ⟨a1, a2, a3, a4⟩ := hs
  unfold func_t.h func_t.h_internal
  rw [a1, a2, a3, a4]

theorem find_val_congr {T T1 : Table} (hf : Frame T T1) (hs : SameFamily T.func_ T1.func_)
    (k : List Nat) : T1.find_val k = T.find_val k := by
  rw [find_val_eq T1 k, find_val_eq T k, h_congr hf k, hf.1, hf.2.1]
  simp only [func_h_congr hs]

/-- C7: when `insert(k, v)` meets a non-empty bucket and `find_h` returns the failure header,
`insert` returns false, `H`, `D` and the family are what they were, and every lookup gives
what it gave before. -/
theorem C7_failed_insert_keeps_table (E : Ext) (T : Table) (budget : Nat) (k0 : List Nat)
    (v : Nat)
    (hr : (T.H_.getD (T.h (c_str k0)) default).r_ ≠ 0)
    (hfail : (find_h E T budget (T.H_.getD (T.h (c_str k0)) default).p_
      (T.H_.getD (T.h (c_str k0)) default).r_
      { key_ := c_str k0, val_ := v, idx_ := T.h (c_str k0) }).1.r_ = 0) :
    (T.insert E budget k0 v).1 = false ∧
    (T.insert E budget k0 v).2.H_ = T.H_ ∧
    (T.insert E budget k0 v).2.D_ = T.D_ ∧
    (T.insert E budget k0 v).2.func_.h_ = T.func_.h_ ∧
    (T.insert E budget k0 v).2.func_.multiplier_ = T.func_.multiplier_ ∧
    (T.insert E budget k0 v).2.func_.adjustment_ = T.func_.adjustment_ ∧
    ∀ k, (T.insert E budget k0 v).2.find_val k = T.find_val k := by
  have hins : T.insert E budget k0 v = (false,
      (find_h E T budget (T.H_.getD (T.h (c_str k0)) default).p_
        (T.H_.getD (T.h (c_str k0)) default).r_
        { key_ := c_str k0, val_ := v, idx_ := T.h (c_str k0) }).2) := by
    unfold insert
    dsimp only
    rw [if_neg hr, if_pos hfail]
  obtain ⟨hf, _⟩ := find_h_spec E T budget (T.H_.getD (T.h (c_str k0)) default).p_
      (T.H_.getD (T.h (c_str k0)) default).r_
      { key_ := c_str k0, val_ := v, idx_ := T.h (c_str k0) }
  obtain ⟨_, hs⟩ := find_h_failure E T budget _ _ _ hfail
  rw [hins]
  exact ⟨rfl, hf.1, hf.2.1, hs.1, hs.2.1, hs.2.2.1, fun k => find_val_congr hf hs k⟩

/-- C7 on scenario 4: the second `"x"` with a budget of three candidates. -/
theorem C7_failed_insert_keeps_table_witness :
    (scenario_x.H_.getD (scenario_x.h (c_str (bytes "x"))) default).r_ ≠ 0 ∧
    (scenario_x.insert Ext.simple 3 (bytes "x") 1).1 = false ∧
    (scenario_x.insert Ext.simple 3 (bytes "x") 1).2.H_ = scenario_x.H_ ∧
    (scenario_x.insert Ext.simple 3 (bytes "x") 1).2.D_ = scenario_x.D_ ∧
    (scenario_x.insert Ext.simple 3 (bytes "x") 1).2.func_.h_ = scenario_x.func_.h_ ∧
    (scenario_x.insert Ext.simple 3 (bytes "x") 1).2.func_.multiplier_ =
      scenario_x.func_.multiplier_ ∧
    (scenario_x.insert Ext.simple 3 (bytes "x") 1).2.func_.adjustment_ =
      scenario_x.func_.adjustment_ ∧
    ∀ k, (scenario_x.insert Ext.simple 3 (bytes "x") 1).2.find_val k = scenario_x.find_val k :=
  ⟨by decide!, C7_failed_insert_keeps_table Ext.simple scenario_x 3 (bytes "x") 1 (by decide!)
    (by decide!)⟩

/-! ### Duplicate keys -/

theorem getD_set_true_of_true (col : List Bool) (i x : Nat) (h : col.getD x false = true) :
    (col.set i true).getD x false = true := by
  rw [List.getD_eq_getElem?_getD] at h ⊢
  rw [List.getElem?_set]
  split
  · rename_i hix
    subst hix
    split
    · rfl
    · rename_i hlt
      rw [List.getElem?_eq_none (by omega)] at h
      exact absurd h (by simp)
  · exact h

theorem check_r_eq_false (hf : List Nat → Nat) (D : List data_t) (p : Nat) :
    ∀ (js : List Nat) (col : List Bool),
      (∃ j, j ∈ js ∧ is_free (D.getD (p + j) default) = false ∧
        col.getD (hf (D.getD (p + j) default).key_) false = true) →
      check_r hf D p js col = false := by
  intro js
  induction js with
  | nil => intro col h; obtain ⟨j, hj, _⟩ := h; exact absurd hj (List.not_mem_nil j)
  | cons j0 js ih =>
    intro col h
    obtain ⟨j, hj, hlive, hcol⟩ := h
    unfold check_r
    by_cases hfree : is_free (D.getD (p + j0) default) = true
    · rw [if_pos hfree]
      rcases List.mem_cons.mp hj with e | hmem
      · subst e; rw [hfree] at hlive; exact absurd hlive (by simp)
      · exact ih col ⟨j, hmem, hlive, hcol⟩
    · rw [if_neg hfree]
      by_cases hhit : col.getD (hf (D.getD (p + j0) default).key_) false = true
      · rw [if_pos hhit]
      · rw [if_neg hhit]
        rcases List.mem_cons.mp hj with e | hmem
        · subst e; exact absurd hcol hhit
        · exact ih _ ⟨j, hmem, hlive, getD_set_true_of_true _ _ _ hcol⟩

theorem getD_set_replicate (n i : Nat) (h : i < n) :
    ((List.replicate n false).set i true).getD i false = true := by
  rw [List.getD_eq_getElem?_getD, List.getElem?_set, if_pos rfl,
    if_pos (by rw [List.length_replicate]; exact h)]
  rfl

/-- A live slot of the window holding the incoming key makes the collision test fail, for
every hash with values inside the window. -/
theorem no_collisions_duplicate (hf : List Nat → Nat) (D : List data_t) (p r next_r : Nat)
    (key : List Nat) (hlt : hf key < next_r) (j : Nat) (hj : j < r)
    (hlive : is_free (D.getD (p + j) default) = false)
    (hdup : (D.getD (p + j) default).key_ = key) :
    no_collisions hf D p r next_r key = false := by
  unfold no_collisions
  apply check_r_eq_false
  refine ⟨j, List.mem_range.mpr hj, hlive, ?_⟩
  rw [hdup]
  exact getD_set_replicate _ _ hlt

theorem find_h_generate_duplicate (E : Ext) (p r : Nat) (D : data_t) (j : Nat) (hj : j < r) :
    ∀ (budget i attempts next_r : Nat) (T : Table), 0 < next_r →
      is_free (T.D_.getD (p + j) default) = false →
      (T.D_.getD (p + j) default).key_ = D.key_ →
      (find_h_generate E p r D budget i attempts next_r T).1 = { p_ := 0, i_ := 0, r_ := 0 } := by
  intro budget
  induction budget with
  | zero =>
    intro i attempts next_r T hnr hlive hdup
    obtain ⟨_, hc⟩ := try_candidate_spec E p r D i next_r T
    unfold find_h_generate
    dsimp only
    rcases hc with ⟨h1, _, _⟩ | ⟨_, m, mu, a, _, _, _, _, h6⟩
    · rw [if_neg (by rw [h1]; exact Bool.false_ne_true)]
    · rw [no_collisions_duplicate _ T.D_ p r next_r D.key_ (h_internal_lt _ _ _ _ _ hnr) j hj
        hlive hdup] at h6
      exact absurd h6 Bool.false_ne_true
  | succ b ih =>
    intro i attempts next_r T hnr hlive hdup
    obtain ⟨hf, hc⟩ := try_candidate_spec E p r D i next_r T
    unfold find_h_generate
    dsimp only
    rcases hc with ⟨h1, _, _⟩ | ⟨_, m, mu, a, _, _, _, _, h6⟩
    · rw [if_neg (by rw [h1]; exact Bool.false_ne_true)]
      have hD := hf.2.1
      split
      · exact ih _ _ _ _ (Nat.succ_pos _) (by rw [hD]; exact hlive) (by rw [hD]; exact hdup)
      · exact ih _ _ _ _ hnr (by rw [hD]; exact hlive) (by rw [hD]; exact hdup)
    · rw [no_collisions_duplicate _ T.D_ p r next_r D.key_ (h_internal_lt _ _ _ _ _ hnr) j hj
        hlive hdup] at h6
      exact absurd h6 Bool.false_ne_true

theorem find_h_duplicate (E : Ext) (T : Table) (budget p r : Nat) (D : data_t) (j : Nat)
    (hj : j < r) (hlive : is_free (T.D_.getD (p + j) default) = false)
    (hdup : (T.D_.getD (p + j) default).key_ = D.key_) :
    (find_h E T budget p r D).1 = { p_ := 0, i_ := 0, r_ := 0 } := by
  obtain ⟨_, hc⟩ := find_h_spec E T budget p r D
  rcases hc with h | ⟨i, _, _, _, _, _, h⟩ | ⟨m, mu, a, nr, hnr, _, _, _, _, h⟩
  · exact h.1
  · rw [no_collisions_duplicate _ T.D_ p r (r + 1) D.key_ (func_h_lt _ _ _ (Nat.succ_pos r)) j hj
      hlive hdup] at h
    exact absurd h Bool.false_ne_true
  · rw [no_collisions_duplicate _ T.D_ p r nr D.key_ (h_internal_lt _ _ _ _ _ (by omega)) j hj
      hlive hdup] at h
    exact absurd h Bool.false_ne_true

end Table
end pph

namespace pph
namespace Table

/-! ## Lists with default reads -/

theorem getD_set_self {α : Type} (l : List α) (i : Nat) (a d : α) (h : i < l.length) :
    (l.set i a).getD i d = a := by
  rw [List.getD_eq_getElem?_getD, List.getElem?_set_self h]
  rfl

theorem getD_set_ne {α : Type} (l : List α) (i j : Nat) (a d : α) (h : i ≠ j) :
    (l.set i a).getD j d = l.getD j d := by
  rw [List.getD_eq_getElem?_getD, List.getD_eq_getElem?_getD, List.getElem?_set_ne h]

theorem getD_of_length_le {α : Type} (l : List α) (i : Nat) (d : α) (h : l.length ≤ i) :
    l.getD i d = d := by
  rw [List.getD_eq_getElem?_getD, List.getElem?_eq_none h]
  rfl

theorem getD_append_replicate {α : Type} (l : List α) (m i : Nat) (d : α) :
    (l ++ List.replicate m d).getD i d = l.getD i d := by
  rw [List.getD_eq_getElem?_getD, List.getD_eq_getElem?_getD]
  by_cases h : i < l.length
  · rw [List.getElem?_append_left h]
  · rw [List.getElem?_append_right (by omega), List.getElem?_eq_none (l := l) (by omega),
      List.getElem?_replicate]
    split <;> rfl

theorem is_free_default : is_free (default : data_t) = true := rfl

/-- A slot that is not free lies inside the array. -/
theorem lt_length_of_live (D : List data_t) (x : Nat)
    (h : is_free (D.getD x default) = false) : x < D.length := by
  by_contra hcon
  rw [getD_of_length_le D x default (by omega), is_free_default] at h
  exact absurd h (by simp)

theorem resize_grow {α : Type} (l : List α) (m : Nat) (d : α) :
    resize l (l.length + m) d = l ++ List.replicate m d := by
  unfold resize
  rw [List.take_of_length_le (by omega)]
  congr 2
  omega

/-! ## The allocator `find_r` -/

theorem window_ok_iff (D : List data_t) (newsize bound i : Nat) (hn : 0 < newsize) :
    window_ok D newsize bound i = true ↔
      i + newsize ≤ bound ∧ ∀ x, i ≤ x → x < i + newsize → is_free (D.getD x default) = true := by
  unfold window_ok count_free
  rw [Bool.and_eq_true, beq_iff_eq]
  constructor
  · rintro ⟨_, hc⟩
    have hle := List.length_filter_le (fun j => is_free (D.getD j default))
      (List.range' i (min (i + newsize) bound - i))
    rw [List.length_range'] at hle
    have hb : i + newsize ≤ bound := by
      by_contra hcon
      rw [hc] at hle
      omega
    have hlen : min (i + newsize) bound - i = newsize := by omega
    rw [hlen] at hc
    refine ⟨hb, ?_⟩
    have hall := (List.filter_length_eq_length (p := fun j => is_free (D.getD j default))
      (l := List.range' i newsize)).mp (by rw [hc, List.length_range'])
    intro x h1 h2
    exact hall x (List.mem_range'_1.mpr ⟨h1, h2⟩)
  · rintro ⟨hb, hall⟩
    have hlen : min (i + newsize) bound - i = newsize := by omega
    refine ⟨hall i (le_refl _) (by omega), ?_⟩
    rw [hlen]
    have := (List.filter_length_eq_length (p := fun j => is_free (D.getD j default))
      (l := List.range' i newsize)).mpr (by
        intro x hx
        rw [List.mem_range'_1] at hx
        exact hall x hx.1 hx.2)
    rw [this, List.length_range']

/-- The allocator: with `newsize ≥ 1` and the old window inside `D`, the returned window is
inside the (possibly grown) array, holds free slots only, and does not meet the old window;
`D` only grows by free slots and nothing else changes. -/
theorem find_r_spec (T : Table) (src size newsize : Nat) (hn : 0 < newsize)
    (hsz : src + size ≤ T.D_.length) :
    (∃ m, (T.find_r src size newsize).2 =
        { T with D_ := T.D_ ++ List.replicate m default }) ∧
    (T.find_r src size newsize).1 + newsize ≤ (T.find_r src size newsize).2.D_.length ∧
    (∀ x, (T.find_r src size newsize).1 ≤ x → x < (T.find_r src size newsize).1 + newsize →
      is_free ((T.find_r src size newsize).2.D_.getD x default) = true) ∧
    ((T.find_r src size newsize).1 + newsize ≤ src ∨
      src + size ≤ (T.find_r src size newsize).1) := by
  unfold find_r
  dsimp only
  split
  · rename_i i hfind
    have hsrc : src > newsize := by
      by_contra hcon
      rw [if_neg hcon] at hfind
      exact absurd hfind (by simp)
    rw [if_pos hsrc] at hfind
    have hp := (window_ok_iff T.D_ newsize src i hn).mp (List.find?_some hfind)
    have hlen : i + newsize ≤ T.D_.length := by omega
    refine ⟨⟨0, by simp⟩, hlen, hp.2, Or.inl hp.1⟩
  · rw [resize_grow]
    have hex : ∃ i, (List.range' (src + size)
        ((T.D_ ++ List.replicate newsize (default : data_t)).length - (src + size))).find?
        (window_ok (T.D_ ++ List.replicate newsize default) newsize
          (T.D_ ++ List.replicate newsize (default : data_t)).length) = some i := by
      rw [← Option.isSome_iff_exists, List.find?_isSome]
      refine ⟨T.D_.length, ?_, ?_⟩
      · rw [List.mem_range'_1, List.length_append, List.length_replicate]
        omega
      · rw [window_ok_iff _ _ _ _ hn]
        refine ⟨by rw [List.length_append, List.length_replicate], ?_⟩
        intro x h1 _
        rw [getD_append_replicate, getD_of_length_le _ _ _ h1]
        rfl
    obtain ⟨i, hi⟩ := hex
    rw [hi]
    dsimp only
    have hp := (window_ok_iff _ newsize _ i hn).mp (List.find?_some hi)
    have hm := List.mem_of_find?_eq_some hi
    rw [List.mem_range'_1] at hm
    exact ⟨⟨newsize, rfl⟩, hp.1, hp.2, Or.inr hm.1⟩

/-! ## What a passed collision test says -/

theorem check_r_true (hf : List Nat → Nat) (D : List data_t) (p : Nat) :
    ∀ (js : List Nat) (col : List Bool), js.Nodup → (∀ k, hf k < col.length) →
      check_r hf D p js col = true →
      (∀ j, j ∈ js → is_free (D.getD (p + j) default) = false →
        col.getD (hf (D.getD (p + j) default).key_) false = false) ∧
      (∀ j1 j2, j1 ∈ js → j2 ∈ js → j1 ≠ j2 →
        is_free (D.getD (p + j1) default) = false →
        is_free (D.getD (p + j2) default) = false →
        hf (D.getD (p + j1) default).key_ ≠ hf (D.getD (p + j2) default).key_) := by
  intro js
  induction js with
  | nil =>
    intro col _ _ _
    exact ⟨fun j hj => absurd hj (List.not_mem_nil j),
      fun j1 _ hj => absurd hj (List.not_mem_nil j1)⟩
  | cons j0 js ih =>
    intro col hnd hb hc
    rw [List.nodup_cons] at hnd
    unfold check_r at hc
    by_cases hfree : is_free (D.getD (p + j0) default) = true
    · rw [if_pos hfree] at hc
      obtain ⟨h1, h2⟩ := ih col hnd.2 hb hc
      constructor
      · intro j hj hl
        rcases List.mem_cons.mp hj with e | hm
        · subst e; rw [hfree] at hl; exact absurd hl (by simp)
        · exact h1 j hm hl
      · intro j1 j2 hj1 hj2 hne hl1 hl2
        rcases List.mem_cons.mp hj1 with e1 | hm1
        · subst e1; rw [hfree] at hl1; exact absurd hl1 (by simp)
        · rcases List.mem_cons.mp hj2 with e2 | hm2
          · subst e2; rw [hfree] at hl2; exact absurd hl2 (by simp)
          · exact h2 j1 j2 hm1 hm2 hne hl1 hl2
    · rw [if_neg hfree] at hc
      by_cases hhit : col.getD (hf (D.getD (p + j0) default).key_) false = true
      · rw [if_pos hhit] at hc
        exact absurd hc Bool.false_ne_true
      · rw [if_neg hhit] at hc
        obtain ⟨h1, h2⟩ := ih _ hnd.2 (by intro k; rw [List.length_set]; exact hb k) hc
        have hne0 : ∀ j, j ∈ js → is_free (D.getD (p + j) default) = false →
            hf (D.getD (p + j) default).key_ ≠ hf (D.getD (p + j0) default).key_ := by
          intro j hm hl hcon
          have := h1 j hm hl
          rw [hcon, getD_set_self _ _ _ _ (hb _)] at this
          exact absurd this (by simp)
        constructor
        · intro j hj hl
          rcases List.mem_cons.mp hj with e | hm
          · subst e; simpa using hhit
          · have := h1 j hm hl
            rw [getD_set_ne _ _ _ _ _ (Ne.symm (hne0 j hm hl))] at this
            exact this
        · intro j1 j2 hj1 hj2 hne hl1 hl2
          rcases List.mem_cons.mp hj1 with e1 | hm1
          · rcases List.mem_cons.mp hj2 with e2 | hm2
            · exact absurd (e1.trans e2.symm) hne
            · rw [e1]; exact Ne.symm (hne0 j2 hm2 hl2)
          · rcases List.mem_cons.mp hj2 with e2 | hm2
            · rw [e2]; exact hne0 j1 hm1 hl1
            · exact h2 j1 j2 hm1 hm2 hne hl1 hl2

/-- A passed test: the occupied slots of the window and the new key have pairwise distinct
hash values. -/
theorem no_collisions_true (hf : List Nat → Nat) (D : List data_t) (p r next_r : Nat)
    (key : List Nat) (hb : ∀ k, hf k < next_r)
    (h : no_collisions hf D p r next_r key = true) :
    (∀ j, j < r → is_free (D.getD (p + j) default) = false →
      hf (D.getD (p + j) default).key_ ≠ hf key) ∧
    (∀ j1 j2, j1 < r → j2 < r → j1 ≠ j2 →
      is_free (D.getD (p + j1) default) = false →
      is_free (D.getD (p + j2) default) = false →
      hf (D.getD (p + j1) default).key_ ≠ hf (D.getD (p + j2) default).key_) := by
  unfold no_collisions at h
  obtain ⟨h1, h2⟩ := check_r_true hf D p (List.range r) _ (List.nodup_range r)
    (by intro k; rw [List.length_set, List.length_replicate]; exact hb k) h
  constructor
  · intro j hj hl hcon
    have := h1 j (List.mem_range.mpr hj) hl
    rw [hcon, getD_set_replicate _ _ (hb key)] at this
    exact absurd this (by simp)
  · intro j1 j2 hj1 hj2
    exact h2 j1 j2 (List.mem_range.mpr hj1) (List.mem_range.mpr hj2)

end Table
end pph

namespace pph
namespace Table

/-! ## `move_nonoverlap` -/

theorem move_step_skip (F : func_t) (hidx src dst m r : Nat) (D : List data_t) (j : Nat)
    (h : ¬ (is_free (D.getD (src + j) default) = false ∧ (D.getD (src + j) default).idx_ = hidx)) :
    move_step F hidx src dst m r D j = D := by
  unfold move_step
  dsimp only
  by_cases hf : is_free (D.getD (src + j) default) = true
  · rw [if_pos hf]
  · rw [if_neg hf]
    have hf' : is_free (D.getD (src + j) default) = false := by simpa using hf
    rw [if_pos (fun hc => h ⟨hf', hc⟩)]

theorem move_step_owned (F : func_t) (hidx src dst m r : Nat) (D : List data_t) (j : Nat)
    (h1 : is_free (D.getD (src + j) default) = false)
    (h2 : (D.getD (src + j) default).idx_ = hidx)
    (hne : dst + F.h m (D.getD (src + j) default).key_ r ≠ src + j) :
    move_step F hidx src dst m r D j =
      (D.set (dst + F.h m (D.getD (src + j) default).key_ r) (D.getD (src + j) default)).set
        (src + j) { (D.getD (src + j) default) with key_ := [], val_ := 0 } := by
  unfold move_step
  dsimp only
  rw [if_neg (by rw [h1]; exact Bool.false_ne_true), if_neg (by simpa using h2),
    getD_set_ne _ _ _ _ _ hne]

/-- The loop of `move_nonoverlap` over the offsets `js`, source and destination windows apart,
the hash injective on the occupied source slots owned by the bucket: such a slot is copied to
its hashed place in the destination and cleared; everything else keeps its content. -/
theorem move_fold_spec (F : func_t) (hidx src dst m r size : Nat) (hr : 0 < r)
    (hdis : dst + r ≤ src ∨ src + size ≤ dst) :
    ∀ (js : List Nat) (D : List data_t), js.Nodup → (∀ j, j ∈ js → j < size) →
      dst + r ≤ D.length →
      (∀ j1 j2, j1 ∈ js → j2 ∈ js → j1 ≠ j2 →
        is_free (D.getD (src + j1) default) = false → (D.getD (src + j1) default).idx_ = hidx →
        is_free (D.getD (src + j2) default) = false → (D.getD (src + j2) default).idx_ = hidx →
        F.h m (D.getD (src + j1) default).key_ r ≠ F.h m (D.getD (src + j2) default).key_ r) →
      (js.foldl (move_step F hidx src dst m r) D).length = D.length ∧
      (∀ x, (x < dst ∨ dst + r ≤ x) →
        (∀ j, j ∈ js → is_free (D.getD (src + j) default) = false →
          (D.getD (src + j) default).idx_ = hidx → x ≠ src + j) →
        (js.foldl (move_step F hidx src dst m r) D).getD x default = D.getD x default) ∧
      (∀ j, j ∈ js → is_free (D.getD (src + j) default) = false →
        (D.getD (src + j) default).idx_ = hidx →
        (js.foldl (move_step F hidx src dst m r) D).getD (src + j) default =
          { (D.getD (src + j) default) with key_ := [], val_ := 0 } ∧
        (js.foldl (move_step F hidx src dst m r) D).getD
          (dst + F.h m (D.getD (src + j) default).key_ r) default = D.getD (src + j) default) ∧
      (∀ x, dst ≤ x → x < dst + r →
        (∀ j, j ∈ js → is_free (D.getD (src + j) default) = false →
          (D.getD (src + j) default).idx_ = hidx →
          dst + F.h m (D.getD (src + j) default).key_ r ≠ x) →
        (js.foldl (move_step F hidx src dst m r) D).getD x default = D.getD x default) := by
  intro js
  induction js with
  | nil =>
    intro D _ _ _ _
    exact ⟨rfl, fun _ _ _ => rfl, fun j hj => absurd hj (List.not_mem_nil j), fun _ _ _ _ => rfl⟩
  | cons j0 js ih =>
    intro D hnd hjs hlen hinj
    rw [List.nodup_cons] at hnd
    rw [List.foldl_cons]
    have hj0 : j0 < size := hjs j0 (List.mem_cons_self _ _)
    have hjs' : ∀ j, j ∈ js → j < size := fun j hj => hjs j (List.mem_cons_of_mem _ hj)
    by_cases hown : is_free (D.getD (src + j0) default) = false ∧
        (D.getD (src + j0) default).idx_ = hidx
    · -- the slot is moved
      have ho : F.h m (D.getD (src + j0) default).key_ r < r := func_h_lt _ _ _ hr
      have hne : dst + F.h m (D.getD (src + j0) default).key_ r ≠ src + j0 := by omega
      have hsl : src + j0 < D.length := lt_length_of_live D _ hown.1
      rw [move_step_owned F hidx src dst m r D j0 hown.1 hown.2 hne]
      generalize hD1 : (D.set (dst + F.h m (D.getD (src + j0) default).key_ r)
        (D.getD (src + j0) default)).set (src + j0)
        { (D.getD (src + j0) default) with key_ := [], val_ := 0 } = D1
      have hlen1 : D1.length = D.length := by
        rw [← hD1, List.length_set, List.length_set]
      have hget : ∀ x, x ≠ src + j0 → x ≠ dst + F.h m (D.getD (src + j0) default).key_ r →
          D1.getD x default = D.getD x default := by
        intro x hx1 hx2
        rw [← hD1, getD_set_ne _ _ _ _ _ (Ne.symm hx1), getD_set_ne _ _ _ _ _ (Ne.symm hx2)]
      have hsrc1 : D1.getD (src + j0) default =
          { (D.getD (src + j0) default) with key_ := [], val_ := 0 } := by
        rw [← hD1, getD_set_self _ _ _ _ (by rw [List.length_set]; omega)]
      have hdst1 : D1.getD (dst + F.h m (D.getD (src + j0) default).key_ r) default =
          D.getD (src + j0) default := by
        rw [← hD1, getD_set_ne _ _ _ _ _ (Ne.symm hne), getD_set_self _ _ _ _ (by omega)]
      have hsame : ∀ j, j ∈ js → D1.getD (src + j) default = D.getD (src + j) default := by
        intro j hj
        have hjlt := hjs' j hj
        have hjne : j ≠ j0 := fun e => hnd.1 (e ▸ hj)
        exact hget _ (by omega) (by omega)
      obtain ⟨iA, iB, iC, iD⟩ := ih D1 hnd.2 hjs' (by rw [hlen1]; exact hlen) (by
        intro j1 j2 h1 h2 hne12 a1 a2 a3 a4
        rw [hsame j1 h1] at a1 a2 ⊢
        rw [hsame j2 h2] at a3 a4 ⊢
        exact hinj j1 j2 (List.mem_cons_of_mem _ h1) (List.mem_cons_of_mem _ h2) hne12 a1 a2 a3 a4)
      refine ⟨by rw [iA, hlen1], ?_, ?_, ?_⟩
      · intro x hx hpos
        rw [iB x hx (by
          intro j hj a1 a2
          rw [hsame j hj] at a1 a2
          exact hpos j (List.mem_cons_of_mem _ hj) a1 a2)]
        exact hget x (hpos j0 (List.mem_cons_self _ _) hown.1 hown.2) (by omega)
      · intro j hj a1 a2
        rcases List.mem_cons.mp hj with e | hm
        · subst e
          constructor
          · rw [iB (src + j) (by omega) (by
              intro j' hj' _ _
              have : j' ≠ j := fun e => hnd.1 (e ▸ hj')
              omega)]
            exact hsrc1
          · rw [iD _ (by omega) (by omega) (by
              intro j' hj' b1 b2
              rw [hsame j' hj'] at b1 b2 ⊢
              have hne' : j' ≠ j := fun e => hnd.1 (e ▸ hj')
              have := hinj j' j (List.mem_cons_of_mem _ hj') (List.mem_cons_self _ _) hne'
                b1 b2 a1 a2
              omega)]
            exact hdst1
        · have b := iC j hm (by rw [hsame j hm]; exact a1) (by rw [hsame j hm]; exact a2)
          rw [hsame j hm] at b
          exact b
      · intro x hx1 hx2 hpos
        rw [iD x hx1 hx2 (by
          intro j hj b1 b2
          rw [hsame j hj] at b1 b2 ⊢
          exact hpos j (List.mem_cons_of_mem _ hj) b1 b2)]
        exact hget x (by omega) (Ne.symm (hpos j0 (List.mem_cons_self _ _) hown.1 hown.2))
    · -- the slot is skipped
      rw [move_step_skip F hidx src dst m r D j0 hown]
      obtain ⟨iA, iB, iC, iD⟩ := ih D hnd.2 hjs' hlen (by
        intro j1 j2 h1 h2
        exact hinj j1 j2 (List.mem_cons_of_mem _ h1) (List.mem_cons_of_mem _ h2))
      refine ⟨iA, ?_, ?_, ?_⟩
      · intro x hx hpos
        exact iB x hx (fun j hj => hpos j (List.mem_cons_of_mem _ hj))
      · intro j hj a1 a2
        rcases List.mem_cons.mp hj with e | hm
        · subst e; exact absurd ⟨a1, a2⟩ hown
        · exact iC j hm a1 a2
      · intro x hx1 hx2 hpos
        exact iD x hx1 hx2 (fun j hj => hpos j (List.mem_cons_of_mem _ hj))

end Table
end pph

namespace pph
namespace Table

/-! ## The invariant of construction -/

/-- A stored pair is found by the lookup. -/
theorem find_val_of_holds {T : Table} (hwf : WF T) {k : List Nat} {v : Nat}
    (h : Holds T k v) : T.find_val k = v := by
  obtain ⟨x, hl, hk, hv⟩ := h
  obtain ⟨c1, c2, c3⟩ := hwf.2.2.2.2.2.2.2 x hl
  rw [hk] at c1 c3
  rw [c1] at c2 c3
  rw [find_val_eq, if_pos ⟨c2, by rw [← c3]; exact hk⟩, ← c3]
  exact hv

/-- A lookup that does not give `EMPTY_VAL` read a slot holding the key, and gives the value of
that slot. -/
theorem find_val_ne_empty {T : Table} {k : List Nat} (h : T.find_val k ≠ EMPTY_VAL) :
    ∃ x, (T.D_.getD x default).key_ = k ∧ (T.D_.getD x default).val_ = T.find_val k := by
  have e := find_val_eq T k
  by_cases hc : (T.H_.getD (T.h k) default).r_ ≠ 0 ∧
      (T.D_.getD ((T.H_.getD (T.h k) default).p_ +
        T.func_.h (T.H_.getD (T.h k) default).i_ k (T.H_.getD (T.h k) default).r_)
        default).key_ = k
  · rw [if_pos hc] at e
    exact ⟨_, hc.2, e.symm⟩
  · rw [if_neg hc] at e
    exact absurd e h

theorem is_free_of_key_nil {d : data_t} (h : d.key_ = []) : is_free d = true := by
  unfold is_free
  rw [h]
  rfl

theorem func_h_one (F : func_t) (i : Nat) (k : List Nat) : F.h i k 1 = 0 :=
  Nat.lt_one_iff.mp (func_h_lt F i k Nat.one_pos)

/-- Writing a key into a free slot `y` and pointing its empty bucket at it keeps the invariant
and the stored pairs. -/
theorem fresh_components (s : Nat) (H : List hdr_t) (D : List data_t) (F : func_t)
    (hp : List Nat → Nat) (hwf : WFc s H D F hp) (k : List Nat) (v y m : Nat)
    (hylt : y < (D ++ List.replicate m (default : data_t)).length)
    (hyfree : is_free (D.getD y default) = true)
    (hr : (H.getD (hp k) default).r_ = 0) :
    WFc s (H.set (hp k) { p_ := y, i_ := 0, r_ := 1 })
      ((D ++ List.replicate m default).set y { key_ := k, val_ := v, idx_ := hp k }) F hp ∧
    (is_free { key_ := k, val_ := v, idx_ := hp k } = false →
      HoldsD ((D ++ List.replicate m default).set y { key_ := k, val_ := v, idx_ := hp k }) k v) ∧
    (∀ k' v', HoldsD D k' v' →
      HoldsD ((D ++ List.replicate m default).set y { key_ := k, val_ := v, idx_ := hp k })
        k' v') ∧
    FromD D ((D ++ List.replicate m default).set y { key_ := k, val_ := v, idx_ := hp k }) k v := by
  obtain ⟨w1, w2, w3, w4, w5, w6, w7, w8⟩ := hwf
  have hidx : hp k < H.length := by rw [w1]; exact w2 k
  have hDget : ∀ x, x ≠ y →
      ((D ++ List.replicate m (default : data_t)).set y
        { key_ := k, val_ := v, idx_ := hp k }).getD x default = D.getD x default := by
    intro x hx
    rw [getD_set_ne _ _ _ _ _ (Ne.symm hx), getD_append_replicate]
  have hDy : ((D ++ List.replicate m (default : data_t)).set y
        { key_ := k, val_ := v, idx_ := hp k }).getD y default =
      { key_ := k, val_ := v, idx_ := hp k } := getD_set_self _ _ _ _ hylt
  have hlen : ((D ++ List.replicate m (default : data_t)).set y
        { key_ := k, val_ := v, idx_ := hp k }).length = D.length + m := by
    rw [List.length_set, List.length_append, List.length_replicate]
  rw [List.length_append, List.length_replicate] at hylt
  refine ⟨⟨?_, w2, w3, w4, w5, ?_, ?_, ?_⟩, ?_, ?_, ?_⟩
  · rw [List.length_set]; exact w1
  · intro b
    by_cases hb : hp k = b
    · subst hb; rw [getD_set_self _ _ _ _ hidx]; exact w5
    · rw [getD_set_ne _ _ _ _ _ hb]; exact w6 b
  · intro b
    rw [hlen]
    by_cases hb : hp k = b
    · subst hb
      rw [getD_set_self _ _ _ _ hidx]
      intro _
      show y + 1 ≤ _
      omega
    · rw [getD_set_ne _ _ _ _ _ hb]
      intro h
      have := w7 b h
      omega
  · intro x
    by_cases hx : x = y
    · subst hx
      intro _
      rw [hDy]
      dsimp only
      rw [getD_set_self _ _ _ _ hidx]
      dsimp only
      refine ⟨rfl, Nat.one_ne_zero, ?_⟩
      rw [func_h_one]
      rfl
    · intro hl
      rw [hDget x hx] at hl ⊢
      obtain ⟨c1, c2, c3⟩ := w8 x hl
      have hne : hp k ≠ (D.getD x default).idx_ := by
        intro e; rw [← e] at c2; exact c2 hr
      rw [getD_set_ne _ _ _ _ _ hne]
      exact ⟨c1, c2, c3⟩
  · intro hl
    exact ⟨y, by rw [hDy]; exact hl, by rw [hDy], by rw [hDy]⟩
  · rintro k' v' ⟨x, hl, hk, hv⟩
    have hx : x ≠ y := by
      intro e; subst e; rw [hyfree] at hl; exact absurd hl (by simp)
    exact ⟨x, by rw [hDget x hx]; exact hl, by rw [hDget x hx]; exact hk,
      by rw [hDget x hx]; exact hv⟩
  · intro x
    by_cases hx : x = y
    · subst hx; rw [hDy]; exact Or.inl ⟨rfl, rfl⟩
    · exact Or.inr (Or.inr ⟨x, hDget x hx⟩)

end Table
end pph

namespace pph
namespace Table

/-- Where the content of a slot comes from after a bucket has been rebuilt: the new datum at
its hashed place, a moved member of the bucket at its hashed place, a cleared or free slot, or
an untouched slot outside the new window that is not an occupied slot of the bucket. -/
theorem rebuild_slots (D : List data_t) (F1 : func_t) (k : List Nat) (v b p r i1 r1 y m : Nat)
    (hr1 : 0 < r1)
    (hcol : no_collisions (fun k => F1.h i1 k r1) D p r r1 k = true)
    (hylen : y + r1 ≤ (D ++ List.replicate m (default : data_t)).length)
    (hyfree : ∀ x, y ≤ x → x < y + r1 →
      is_free ((D ++ List.replicate m (default : data_t)).getD x default) = true)
    (hdis : y + r1 ≤ p ∨ p + r ≤ y) (x : Nat) :
    (x = y + F1.h i1 k r1 ∧
      (rebuild_D F1 D k v b p r i1 r1 y m).getD x default = { key_ := k, val_ := v, idx_ := b }) ∨
    (∃ j, j < r ∧ is_free (D.getD (p + j) default) = false ∧ (D.getD (p + j) default).idx_ = b ∧
      x = y + F1.h i1 (D.getD (p + j) default).key_ r1 ∧
      (rebuild_D F1 D k v b p r i1 r1 y m).getD x default = D.getD (p + j) default) ∨
    (((rebuild_D F1 D k v b p r i1 r1 y m).getD x default).key_ = [] ∧
      ((rebuild_D F1 D k v b p r i1 r1 y m).getD x default).val_ = 0) ∨
    ((rebuild_D F1 D k v b p r i1 r1 y m).getD x default = D.getD x default ∧
      is_free (D.getD x default) = true) ∨
    ((rebuild_D F1 D k v b p r i1 r1 y m).getD x default = D.getD x default ∧
      (x < y ∨ y + r1 ≤ x) ∧
      ¬ (∃ j, j < r ∧ x = p + j ∧ is_free (D.getD (p + j) default) = false ∧
        (D.getD (p + j) default).idx_ = b)) := by
  unfold rebuild_D
  have hlt : ∀ k', F1.h i1 k' r1 < r1 := fun k' => func_h_lt F1 i1 k' hr1
  obtain ⟨c1, c2⟩ := no_collisions_true (fun k => F1.h i1 k r1) D p r r1 k hlt hcol
  have hD2 : ∀ z, (D ++ List.replicate m (default : data_t)).getD z default = D.getD z default :=
    fun z => getD_append_replicate D m z default
  obtain ⟨mA, mB, mC, mD⟩ := move_fold_spec F1 b p y i1 r1 r hr1 hdis (List.range r)
    (D ++ List.replicate m default) (List.nodup_range r)
    (fun j hj => List.mem_range.mp hj) hylen (by
      intro j1 j2 h1 h2 hne a1 _ a3 _
      rw [hD2] at a1 a3 ⊢
      rw [hD2]
      exact c2 j1 j2 (List.mem_range.mp h1) (List.mem_range.mp h2) hne a1 a3)
  generalize hD3 : (List.range r).foldl (move_step F1 b p y i1 r1)
    (D ++ List.replicate m default) = D3 at mA mB mC mD ⊢
  have ho := hlt k
  have hset_ne : ∀ z, z ≠ y + F1.h i1 k r1 →
      (D3.set (y + F1.h i1 k r1) { key_ := k, val_ := v, idx_ := b }).getD z default =
        D3.getD z default :=
    fun z hz => getD_set_ne _ _ _ _ _ (Ne.symm hz)
  by_cases hx0 : x = y + F1.h i1 k r1
  · left
    refine ⟨hx0, ?_⟩
    rw [hx0]
    exact getD_set_self _ _ _ _ (by rw [mA]; omega)
  · right
    rw [hset_ne x hx0]
    by_cases hwin : y ≤ x ∧ x < y + r1
    · by_cases hex : ∃ j, j < r ∧ is_free (D.getD (p + j) default) = false ∧
          (D.getD (p + j) default).idx_ = b ∧ x = y + F1.h i1 (D.getD (p + j) default).key_ r1
      · obtain ⟨j, hj, a1, a2, a3⟩ := hex
        left
        refine ⟨j, hj, a1, a2, a3, ?_⟩
        have := (mC j (List.mem_range.mpr hj) (by rw [hD2]; exact a1) (by rw [hD2]; exact a2)).2
        rw [hD2] at this
        rw [a3]
        exact this
      · right; right; left
        have := mD x hwin.1 hwin.2 (by
          intro j hj a1 a2 hcon
          rw [hD2] at a1 a2 hcon
          exact hex ⟨j, List.mem_range.mp hj, a1, a2, hcon.symm⟩)
        rw [hD2] at this
        refine ⟨this, ?_⟩
        rw [← hD2 x]
        exact hyfree x hwin.1 hwin.2
    · have hout : x < y ∨ y + r1 ≤ x := by omega
      by_cases hown : ∃ j, j < r ∧ x = p + j ∧ is_free (D.getD (p + j) default) = false ∧
          (D.getD (p + j) default).idx_ = b
      · obtain ⟨j, hj, a0, a1, a2⟩ := hown
        right; left
        have := (mC j (List.mem_range.mpr hj) (by rw [hD2]; exact a1) (by rw [hD2]; exact a2)).1
        rw [a0, this]
        exact ⟨rfl, rfl⟩
      · right; right; right
        have := mB x hout (by
          intro j hj a1 a2 hcon
          rw [hD2] at a1 a2
          exact hown ⟨j, List.mem_range.mp hj, hcon, a1, a2⟩)
        rw [hD2] at this
        exact ⟨this, hout, hown⟩

end Table
end pph

namespace pph
namespace Table

theorem move_step_length (F : func_t) (hidx src dst m r : Nat) (D : List data_t) (j : Nat) :
    (move_step F hidx src dst m r D j).length = D.length := by
  unfold move_step
  dsimp only
  split
  · rfl
  · split
    · rfl
    · rw [List.length_set, List.length_set]

theorem move_fold_length (F : func_t) (hidx src dst m r : Nat) :
    ∀ (js : List Nat) (D : List data_t),
      (js.foldl (move_step F hidx src dst m r) D).length = D.length := by
  intro js
  induction js with
  | nil => intro D; rfl
  | cons j js ih =>
    intro D
    rw [List.foldl_cons, ih, move_step_length]

theorem rebuild_D_length (F1 : func_t) (D : List data_t) (k : List Nat)
    (v b p r i1 r1 y m : Nat) :
    (rebuild_D F1 D k v b p r i1 r1 y m).length = D.length + m := by
  unfold rebuild_D
  rw [List.length_set, move_fold_length, List.length_append, List.length_replicate]

/-- After a rebuild the new datum is at its hashed place, every moved member of the bucket is
at its hashed place, and a slot outside the new window that is not an occupied slot of the
bucket is untouched. -/
theorem rebuild_direct (D : List data_t) (F1 : func_t) (k : List Nat) (v b p r i1 r1 y m : Nat)
    (hr1 : 0 < r1)
    (hcol : no_collisions (fun k => F1.h i1 k r1) D p r r1 k = true)
    (hylen : y + r1 ≤ (D ++ List.replicate m (default : data_t)).length)
    (hdis : y + r1 ≤ p ∨ p + r ≤ y) :
    (rebuild_D F1 D k v b p r i1 r1 y m).getD (y + F1.h i1 k r1) default =
      { key_ := k, val_ := v, idx_ := b } ∧
    (∀ j, j < r → is_free (D.getD (p + j) default) = false → (D.getD (p + j) default).idx_ = b →
      (rebuild_D F1 D k v b p r i1 r1 y m).getD
        (y + F1.h i1 (D.getD (p + j) default).key_ r1) default = D.getD (p + j) default) ∧
    (∀ x, (x < y ∨ y + r1 ≤ x) →
      ¬ (∃ j, j < r ∧ x = p + j ∧ is_free (D.getD (p + j) default) = false ∧
        (D.getD (p + j) default).idx_ = b) →
      (rebuild_D F1 D k v b p r i1 r1 y m).getD x default = D.getD x default) := by
  have hlt : ∀ k', F1.h i1 k' r1 < r1 := fun k' => func_h_lt F1 i1 k' hr1
  obtain ⟨c1, c2⟩ := no_collisions_true (fun k => F1.h i1 k r1) D p r r1 k hlt hcol
  have hD2 : ∀ z, (D ++ List.replicate m (default : data_t)).getD z default = D.getD z default :=
    fun z => getD_append_replicate D m z default
  obtain ⟨mA, mB, mC, _⟩ := move_fold_spec F1 b p y i1 r1 r hr1 hdis (List.range r)
    (D ++ List.replicate m default) (List.nodup_range r)
    (fun j hj => List.mem_range.mp hj) hylen (by
      intro j1 j2 h1 h2 hne a1 _ a3 _
      rw [hD2] at a1 a3 ⊢
      rw [hD2]
      exact c2 j1 j2 (List.mem_range.mp h1) (List.mem_range.mp h2) hne a1 a3)
  unfold rebuild_D
  generalize hD3 : (List.range r).foldl (move_step F1 b p y i1 r1)
    (D ++ List.replicate m default) = D3 at mA mB mC ⊢
  have ho := hlt k
  refine ⟨getD_set_self _ _ _ _ (by rw [mA]; omega), ?_, ?_⟩
  · intro j hj a1 a2
    have hne : y + F1.h i1 k r1 ≠ y + F1.h i1 (D.getD (p + j) default).key_ r1 := by
      have := c1 j hj a1
      intro e
      exact this (by omega)
    rw [getD_set_ne _ _ _ _ _ hne]
    have := (mC j (List.mem_range.mpr hj) (by rw [hD2]; exact a1) (by rw [hD2]; exact a2)).2
    rw [hD2] at this
    exact this
  · intro x hout hown
    rw [getD_set_ne _ _ _ _ _ (by omega)]
    have := mB x hout (by
      intro j hj a1 a2 hcon
      rw [hD2] at a1 a2
      exact hown ⟨j, List.mem_range.mp hj, hcon, a1, a2⟩)
    rw [hD2] at this
    exact this

/-- Rebuilding a bucket around a new key (new family `F1` extending `F`, a hash `(i1, r1)` that
passes the collision test, a free window at `y` away from the old one) keeps the invariant
and the stored pairs. -/
theorem rebuild_components (s : Nat) (H : List hdr_t) (D : List data_t) (F : func_t)
    (hp : List Nat → Nat) (hwf : WFc s H D F hp) (F1 : func_t) (k : List Nat)
    (v p r i1 r1 y m : Nat)
    (hp_eq : (H.getD (hp k) default).p_ = p)
    (hr_eq : (H.getD (hp k) default).r_ = r)
    (hr : r ≠ 0)
    (hF1a : F1.multiplier_.length = F1.h_.length) (hF1b : F1.adjustment_.length = F1.h_.length)
    (hF1ext : F.h_.length ≤ F1.h_.length)
    (hF1same : ∀ j, j < F.h_.length → ∀ k r, F1.h j k r = F.h j k r)
    (hi1 : i1 < F1.h_.length) (hr1 : 0 < r1)
    (hcol : no_collisions (fun k => F1.h i1 k r1) D p r r1 k = true)
    (hylen : y + r1 ≤ (D ++ List.replicate m (default : data_t)).length)
    (hyfree : ∀ x, y ≤ x → x < y + r1 →
      is_free ((D ++ List.replicate m (default : data_t)).getD x default) = true)
    (hdis : y + r1 ≤ p ∨ p + r ≤ y) :
    WFc s (H.set (hp k) { p_ := y, i_ := i1, r_ := r1 })
      (rebuild_D F1 D k v (hp k) p r i1 r1 y m) F1 hp ∧
    (is_free { key_ := k, val_ := v, idx_ := hp k } = false →
      HoldsD (rebuild_D F1 D k v (hp k) p r i1 r1 y m) k v) ∧
    (∀ k' v', HoldsD D k' v' → HoldsD (rebuild_D F1 D k v (hp k) p r i1 r1 y m) k' v') ∧
    FromD D (rebuild_D F1 D k v (hp k) p r i1 r1 y m) k v := by
  obtain ⟨w1, w2, w3, w4, w5, w6, w7, w8⟩ := hwf
  have hidx : hp k < H.length := by rw [w1]; exact w2 k
  have hlt : ∀ k', F1.h i1 k' r1 < r1 := fun k' => func_h_lt F1 i1 k' hr1
  obtain ⟨c1, c2⟩ := no_collisions_true (fun k => F1.h i1 k r1) D p r r1 k hlt hcol
  obtain ⟨t1, t2, t5⟩ := rebuild_direct D F1 k v (hp k) p r i1 r1 y m hr1 hcol hylen hdis
  have hcls := rebuild_slots D F1 k v (hp k) p r i1 r1 y m hr1 hcol hylen hyfree hdis
  have hlen := rebuild_D_length F1 D k v (hp k) p r i1 r1 y m
  have hD2 : ∀ z, (D ++ List.replicate m (default : data_t)).getD z default = D.getD z default :=
    fun z => getD_append_replicate D m z default
  rw [List.length_append, List.length_replicate] at hylen
  generalize rebuild_D F1 D k v (hp k) p r i1 r1 y m = D4 at t1 t2 t5 hcls hlen ⊢
  have hHk : (H.set (hp k) { p_ := y, i_ := i1, r_ := r1 }).getD (hp k) default =
      { p_ := y, i_ := i1, r_ := r1 } := getD_set_self _ _ _ _ hidx
  -- an occupied slot of the bucket lies in its window
  have hinwin : ∀ x, is_free (D.getD x default) = false → (D.getD x default).idx_ = hp k →
      ∃ j, j < r ∧ x = p + j := by
    intro x hl he
    obtain ⟨_, _, a3⟩ := w8 x hl
    rw [he, hp_eq, hr_eq] at a3
    exact ⟨_, func_h_lt _ _ _ (Nat.pos_of_ne_zero hr), a3⟩
  refine ⟨⟨?_, w2, hF1a, hF1b, by omega, ?_, ?_, ?_⟩, ?_, ?_, ?_⟩
  · rw [List.length_set]; exact w1
  · intro b
    by_cases hb : hp k = b
    · subst hb; rw [hHk]; exact hi1
    · rw [getD_set_ne _ _ _ _ _ hb]; exact lt_of_lt_of_le (w6 b) hF1ext
  · intro b
    rw [hlen]
    by_cases hb : hp k = b
    · subst hb
      rw [hHk]
      intro _
      show y + r1 ≤ _
      omega
    · rw [getD_set_ne _ _ _ _ _ hb]
      intro h
      have := w7 b h
      omega
  · intro x hl
    rcases hcls x with ⟨hx, hd⟩ | ⟨j, hj, a1, a2, a3, hd⟩ | ⟨hk0, _⟩ | ⟨hd, hfr⟩ | ⟨hd, hout, hown⟩
    · rw [hd]
      dsimp only
      rw [hHk]
      exact ⟨rfl, Nat.pos_iff_ne_zero.mp hr1, hx⟩
    · rw [hd, a2, hHk]
      dsimp only
      obtain ⟨b1, _, _⟩ := w8 (p + j) a1
      rw [a2] at b1
      exact ⟨b1, Nat.pos_iff_ne_zero.mp hr1, a3⟩
    · rw [is_free_of_key_nil hk0] at hl
      exact absurd hl (by simp)
    · rw [hd, hfr] at hl
      exact absurd hl (by simp)
    · rw [hd] at hl ⊢
      obtain ⟨b1, b2, b3⟩ := w8 x hl
      have hne : hp k ≠ (D.getD x default).idx_ := by
        intro e
        obtain ⟨j, hj, hxj⟩ := hinwin x hl e.symm
        exact hown ⟨j, hj, hxj, by rw [← hxj]; exact hl, by rw [← hxj]; exact e.symm⟩
      rw [getD_set_ne _ _ _ _ _ hne, hF1same _ (w6 _)]
      exact ⟨b1, b2, b3⟩
  · intro hl
    exact ⟨_, by rw [t1]; exact hl, by rw [t1], by rw [t1]⟩
  · rintro k' v' ⟨x, hl, hk, hv⟩
    by_cases he : (D.getD x default).idx_ = hp k
    · obtain ⟨j, hj, hxj⟩ := hinwin x hl he
      rw [hxj] at hl hk hv he
      have := t2 j hj hl he
      exact ⟨_, by rw [this]; exact hl, by rw [this]; exact hk, by rw [this]; exact hv⟩
    · have hout : x < y ∨ y + r1 ≤ x := by
        by_contra hcon
        have := hyfree x (by omega) (by omega)
        rw [hD2, hl] at this
        exact absurd this (by simp)
      have := t5 x hout (by
        rintro ⟨j, _, hxj, _, a2⟩
        rw [← hxj] at a2
        exact he a2)
      exact ⟨x, by rw [this]; exact hl, by rw [this]; exact hk, by rw [this]; exact hv⟩
  · intro x
    rcases hcls x with ⟨_, hd⟩ | ⟨j, _, _, _, _, hd⟩ | hb | ⟨hd, _⟩ | ⟨hd, _, _⟩
    · rw [hd]; exact Or.inl ⟨rfl, rfl⟩
    · exact Or.inr (Or.inr ⟨_, hd⟩)
    · exact Or.inr (Or.inl hb)
    · exact Or.inr (Or.inr ⟨_, hd⟩)
    · exact Or.inr (Or.inr ⟨_, hd⟩)

end Table
end pph

namespace pph
namespace Table

/-! ## `insert` keeps the invariant -/

theorem find_r_fields (T : Table) (src size newsize : Nat) :
    (T.find_r src size newsize).2.H_ = T.H_ ∧
    (T.find_r src size newsize).2.func_ = T.func_ ∧
    (T.find_r src size newsize).2.s_ = T.s_ ∧
    (T.find_r src size newsize).2.key_ = T.key_ ∧
    (T.find_r src size newsize).2.multiplier_ = T.multiplier_ ∧
    (T.find_r src size newsize).2.adjustment_ = T.adjustment_ := by
  unfold find_r
  dsimp only
  split
  · exact ⟨rfl, rfl, rfl, rfl, rfl, rfl⟩
  · split
    · exact ⟨rfl, rfl, rfl, rfl, rfl, rfl⟩
    · exact ⟨rfl, rfl, rfl, rfl, rfl, rfl⟩

theorem getD_append_singleton_left (l : List Nat) (a j : Nat) (h : j < l.length) :
    (l ++ [a]).getD j 0 = l.getD j 0 := by
  rw [List.getD_eq_getElem?_getD, List.getD_eq_getElem?_getD, List.getElem?_append_left h]

theorem getD_append_singleton_length (l : List Nat) (a : Nat) :
    (l ++ [a]).getD l.length 0 = a := by
  rw [List.getD_eq_getElem?_getD, List.getElem?_append_right (le_refl _), Nat.sub_self]
  rfl

/-- A successful `find_h`: the header has a size above the old one and an index inside the
(possibly extended) family, members of the old family keep their hash, and the selected hash
passes the collision test on the window. -/
theorem find_h_success (E : Ext) (T : Table) (budget p r : Nat) (D : data_t)
    (hl1 : T.func_.multiplier_.length = T.func_.h_.length)
    (hl2 : T.func_.adjustment_.length = T.func_.h_.length)
    (hok : (find_h E T budget p r D).1.r_ ≠ 0) :
    Frame T (find_h E T budget p r D).2 ∧
    r + 1 ≤ (find_h E T budget p r D).1.r_ ∧
    (find_h E T budget p r D).1.i_ < (find_h E T budget p r D).2.func_.h_.length ∧
    (find_h E T budget p r D).2.func_.multiplier_.length =
      (find_h E T budget p r D).2.func_.h_.length ∧
    (find_h E T budget p r D).2.func_.adjustment_.length =
      (find_h E T budget p r D).2.func_.h_.length ∧
    T.func_.h_.length ≤ (find_h E T budget p r D).2.func_.h_.length ∧
    (∀ j, j < T.func_.h_.length → ∀ k r',
      (find_h E T budget p r D).2.func_.h j k r' = T.func_.h j k r') ∧
    no_collisions (fun k => (find_h E T budget p r D).2.func_.h (find_h E T budget p r D).1.i_ k
      (find_h E T budget p r D).1.r_) T.D_ p r (find_h E T budget p r D).1.r_ D.key_ = true := by
  obtain ⟨hf, hc⟩ := find_h_spec E T budget p r D
  refine ⟨hf, ?_⟩
  rcases hc with ⟨h0, _⟩ | ⟨i, _, hi, h0, hs, _, hcol⟩ | ⟨m, mu, a, nr, hnr, h0, e1, e2, e3, hcol⟩
  · rw [h0] at hok
    exact absurd rfl hok
  · rw [h0]
    dsimp only
    refine ⟨le_refl _, ?_, ?_, ?_, ?_, ?_, ?_⟩
    · rw [hs.1]; exact hi
    · rw [hs.1, hs.2.1]; exact hl1
    · rw [hs.1, hs.2.2.1]; exact hl2
    · rw [hs.1]
    · intro j _ k r'
      exact func_h_congr hs j k r'
    · rw [← hcol]
      congr 1
      funext k
      exact func_h_congr hs i k (r + 1)
  · rw [h0]
    dsimp only
    have hkey := hf.2.2.2.2.2.2.1
    refine ⟨hnr, ?_, ?_, ?_, ?_, ?_, ?_⟩
    · rw [e1, List.length_append]; exact Nat.lt_succ_self _
    · rw [e1, e2, List.length_append, List.length_append, hl1]; rfl
    · rw [e1, e3, List.length_append, List.length_append, hl2]; rfl
    · rw [e1, List.length_append]; exact Nat.le_add_right _ _
    · intro j hj k r'
      unfold func_t.h
      rw [e1, e2, e3, if_neg (by rw [List.length_append]; simp only [List.length_singleton]; omega),
        if_neg (by omega),
        getD_append_singleton_left _ _ _ hj, getD_append_singleton_left _ _ _ (by omega),
        getD_append_singleton_left _ _ _ (by omega)]
      exact h_internal_congr hkey _ _ _ _ _
    · rw [← hcol]
      congr 1
      funext k
      unfold func_t.h
      rw [e1, e2, e3, if_neg (by rw [List.length_append]; simp only [List.length_singleton]; omega),
        getD_append_singleton_length]
      have x1 := getD_append_singleton_length T.func_.multiplier_ mu
      have x2 := getD_append_singleton_length T.func_.adjustment_ a
      rw [hl1] at x1
      rw [hl2] at x2
      rw [x1, x2]
      exact h_internal_congr hkey _ _ _ _ _

theorem is_free_c_str (k0 : List Nat) (v b : Nat) (h : c_str k0 ≠ []) :
    is_free { key_ := c_str k0, val_ := v, idx_ := b } = false := by
  unfold is_free c_str at *
  dsimp only
  cases hk : k0 with
  | nil => rw [hk] at h; exact absurd rfl h
  | cons c cs =>
    rw [hk] at h
    rw [List.takeWhile_cons] at h ⊢
    by_cases hc : (c != 0) = true
    · rw [if_pos hc]
      rw [List.headD_cons]
      simpa using hc
    · rw [if_neg hc] at h
      exact absurd rfl h

end Table
end pph

namespace pph
namespace Table

theorem h_eq_of_fields {T T1 : Table} (h1 : T1.s_ = T.s_) (h2 : T1.key_ = T.key_)
    (h3 : T1.multiplier_ = T.multiplier_) (h4 : T1.adjustment_ = T.adjustment_) :
    T1.h = T.h := by
  funext k
  unfold h s
  rw [h1, h2, h3, h4]

theorem insert_fresh_fields (T : Table) (k0 : List Nat) (v : Nat) :
    (T.insert_fresh k0 v).H_ =
      T.H_.set (T.h (c_str k0)) { p_ := (T.find_r 0 1 1).1, i_ := 0, r_ := 1 } ∧
    (T.insert_fresh k0 v).D_ = (T.find_r 0 1 1).2.D_.set (T.find_r 0 1 1).1
      { key_ := c_str k0, val_ := v, idx_ := T.h (c_str k0) } ∧
    (T.insert_fresh k0 v).func_ = T.func_ ∧
    (T.insert_fresh k0 v).s_ = T.s_ ∧
    (T.insert_fresh k0 v).h = T.h := by
  obtain ⟨f1, f2, f3, f4, f5, f6⟩ := find_r_fields T 0 1 1
  refine ⟨?_, rfl, f2, f3, h_eq_of_fields f3 f4 f5 f6⟩
  show (T.find_r 0 1 1).2.H_.set _ _ = _
  rw [f1]

/-- The fields of the table after `insert` has rebuilt a bucket. -/
theorem insert_rebuild_fields (E : Ext) (T : Table) (budget : Nat) (k0 : List Nat) (v : Nat)
    (fh : hdr_t × Table) (fr : Nat × Table)
    (hfh : find_h E T budget (T.H_.getD (T.h (c_str k0)) default).p_
      (T.H_.getD (T.h (c_str k0)) default).r_
      { key_ := c_str k0, val_ := v, idx_ := T.h (c_str k0) } = fh)
    (hfr : fh.2.find_r (T.H_.getD (T.h (c_str k0)) default).p_
      (T.H_.getD (T.h (c_str k0)) default).r_ fh.1.r_ = fr)
    (hr : (T.H_.getD (T.h (c_str k0)) default).r_ ≠ 0)
    (h1 : fh.1.r_ ≠ 0) (h2 : fr.1 ≠ UINT64_MAX)
    (hne : (T.H_.getD (T.h (c_str k0)) default).p_ ≠ fr.1) :
    (T.insert E budget k0 v).1 = true ∧
    (T.insert E budget k0 v).2.H_ =
      fr.2.H_.set (fr.2.h (c_str k0)) { p_ := fr.1, i_ := fh.1.i_, r_ := fh.1.r_ } ∧
    (T.insert E budget k0 v).2.D_ =
      ((List.range (T.H_.getD (T.h (c_str k0)) default).r_).foldl
        (move_step fr.2.func_ (T.h (c_str k0)) (T.H_.getD (T.h (c_str k0)) default).p_ fr.1
          fh.1.i_ fh.1.r_) fr.2.D_).set
        (fr.1 + fr.2.func_.h fh.1.i_ (c_str k0) fh.1.r_)
        { key_ := c_str k0, val_ := v, idx_ := T.h (c_str k0) } ∧
    (T.insert E budget k0 v).2.func_ = fr.2.func_ ∧
    (T.insert E budget k0 v).2.s_ = fr.2.s_ ∧
    (T.insert E budget k0 v).2.key_ = fr.2.key_ ∧
    (T.insert E budget k0 v).2.multiplier_ = fr.2.multiplier_ ∧
    (T.insert E budget k0 v).2.adjustment_ = fr.2.adjustment_ := by
  unfold insert
  dsimp only
  rw [if_neg hr, hfh, if_neg h1, hfr, if_neg h2]
  unfold move_nonoverlap
  rw [if_neg hne]
  exact ⟨rfl, rfl, rfl, rfl, rfl, rfl, rfl, rfl⟩

end Table
end pph

namespace pph
namespace Table

/-- A successful `insert` keeps the invariant of construction, does not shrink `D`, leaves the
primary hash alone, keeps every stored pair, stores the new pair when its key is not empty as a
C string, and creates no other content. -/
theorem insert_spec (E : Ext) (T : Table) (budget : Nat) (k0 : List Nat) (v : Nat)
    (hwf : WF T) (hD : 1 ≤ T.D_.length) (hok : (T.insert E budget k0 v).1 = true) :
    WF (T.insert E budget k0 v).2 ∧
    T.D_.length ≤ (T.insert E budget k0 v).2.D_.length ∧
    (T.insert E budget k0 v).2.h = T.h ∧
    (c_str k0 ≠ [] → Holds (T.insert E budget k0 v).2 (c_str k0) v) ∧
    (∀ k v', Holds T k v' → Holds (T.insert E budget k0 v).2 k v') ∧
    FromD T.D_ (T.insert E budget k0 v).2.D_ (c_str k0) v := by
  by_cases hr : (T.H_.getD (T.h (c_str k0)) default).r_ = 0
  · -- empty bucket
    rw [insert_of_empty_bucket E T budget k0 v hr]
    obtain ⟨⟨m, hT2⟩, hy, hfree, _⟩ := find_r_spec T 0 1 1 Nat.one_pos (by omega)
    obtain ⟨e1, e2, e3, e4, e5⟩ := insert_fresh_fields T k0 v
    rw [hT2] at hy hfree e2
    have hyfree := hfree _ (le_refl _) (by omega)
    dsimp only at hy hyfree e2
    rw [getD_append_replicate] at hyfree
    obtain ⟨g1, g2, g3, g4⟩ := fresh_components T.s_ T.H_ T.D_ T.func_ T.h hwf (c_str k0) v
      (T.find_r 0 1 1).1 m (by omega) hyfree hr
    unfold WF Holds
    dsimp only
    rw [e1, e2, e3, e4, e5]
    refine ⟨g1, ?_, rfl, fun h => g2 (is_free_c_str k0 v _ h), g3, g4⟩
    rw [List.length_set, List.length_append]
    omega
  · -- the bucket is rebuilt
    generalize hfh : find_h E T budget (T.H_.getD (T.h (c_str k0)) default).p_
      (T.H_.getD (T.h (c_str k0)) default).r_
      { key_ := c_str k0, val_ := v, idx_ := T.h (c_str k0) } = fh
    generalize hfr : fh.2.find_r (T.H_.getD (T.h (c_str k0)) default).p_
      (T.H_.getD (T.h (c_str k0)) default).r_ fh.1.r_ = fr
    have h1 : fh.1.r_ ≠ 0 := by
      intro hcon
      have : (T.insert E budget k0 v).1 = false := by
        unfold insert
        dsimp only
        rw [if_neg hr, hfh, if_pos hcon]
      rw [this] at hok
      exact absurd hok (by simp)
    have h2 : fr.1 ≠ UINT64_MAX := by
      intro hcon
      have : (T.insert E budget k0 v).1 = false := by
        unfold insert
        dsimp only
        rw [if_neg hr, hfh, if_neg h1, hfr, if_pos hcon]
      rw [this] at hok
      exact absurd hok (by simp)
    obtain ⟨w1, w2, w3, w4, w5, w6, w7, w8⟩ := hwf
    obtain ⟨s1, s2, s3, s4, s5, s6, s7, s8⟩ := find_h_success E T budget
      (T.H_.getD (T.h (c_str k0)) default).p_ (T.H_.getD (T.h (c_str k0)) default).r_
      { key_ := c_str k0, val_ := v, idx_ := T.h (c_str k0) } w3 w4 (by rw [hfh]; exact h1)
    rw [hfh] at s1 s2 s3 s4 s5 s6 s7 s8
    obtain ⟨fH, fD, fs, fk, fm, fa, _⟩ := s1
    have hr1 : 0 < fh.1.r_ := Nat.pos_of_ne_zero h1
    have hwin := w7 _ hr
    obtain ⟨⟨m, hT2⟩, hy, hfree, hdis⟩ := find_r_spec fh.2
      (T.H_.getD (T.h (c_str k0)) default).p_ (T.H_.getD (T.h (c_str k0)) default).r_ fh.1.r_
      hr1 (by rw [fD]; exact hwin)
    obtain ⟨q1, q2, q3, q4, q5, q6⟩ := find_r_fields fh.2
      (T.H_.getD (T.h (c_str k0)) default).p_ (T.H_.getD (T.h (c_str k0)) default).r_ fh.1.r_
    rw [hfr] at hT2 hy hfree hdis q1 q2 q3 q4 q5 q6
    have hDfr : fr.2.D_ = T.D_ ++ List.replicate m default := by
      rw [hT2]
      show fh.2.D_ ++ _ = _
      rw [fD]
    have hne : (T.H_.getD (T.h (c_str k0)) default).p_ ≠ fr.1 := by
      have := Nat.pos_of_ne_zero hr
      omega
    obtain ⟨i1, i2, i3, i4, i5, i6, i7, i8⟩ := insert_rebuild_fields E T budget k0 v fh fr hfh hfr
      hr h1 h2 hne
    have hhfr : fr.2.h = T.h :=
      h_eq_of_fields (q3.trans fs) (q4.trans fk) (q5.trans fm) (q6.trans fa)
    have hh : (T.insert E budget k0 v).2.h = T.h :=
      h_eq_of_fields (i5.trans (q3.trans fs)) (i6.trans (q4.trans fk)) (i7.trans (q5.trans fm))
        (i8.trans (q6.trans fa))
    rw [hDfr] at hy hfree
    obtain ⟨g1, g2, g3, g4⟩ := rebuild_components T.s_ T.H_ T.D_ T.func_ T.h
      ⟨w1, w2, w3, w4, w5, w6, w7, w8⟩ fh.2.func_ (c_str k0) v
      (T.H_.getD (T.h (c_str k0)) default).p_ (T.H_.getD (T.h (c_str k0)) default).r_
      fh.1.i_ fh.1.r_ fr.1 m rfl rfl hr s4 s5 s6 s7 s3 hr1 s8 hy hfree hdis
    have hDD : (T.insert E budget k0 v).2.D_ = rebuild_D fh.2.func_ T.D_ (c_str k0) v
        (T.h (c_str k0)) (T.H_.getD (T.h (c_str k0)) default).p_
        (T.H_.getD (T.h (c_str k0)) default).r_ fh.1.i_ fh.1.r_ fr.1 m := by
      rw [i3, q2, hDfr]
      rfl
    have hHH : (T.insert E budget k0 v).2.H_ =
        T.H_.set (T.h (c_str k0)) { p_ := fr.1, i_ := fh.1.i_, r_ := fh.1.r_ } := by
      rw [i2, q1, fH, hhfr]
    unfold WF Holds
    rw [hh, hDD, hHH, i4, q2, i5, q3, fs]
    refine ⟨g1, ?_, rfl, fun h => g2 (is_free_c_str k0 v _ h), g3, g4⟩
    rw [rebuild_D_length]
    omega

end Table
end pph

namespace pph
namespace Table

/-! ## `load` -/

theorem getD_succ_eq_tail_getD (l : List Nat) (i : Nat) :
    l.getD (i + 1) 0 = l.tail.getD i 0 := by
  cases l with
  | nil => rfl
  | cons a t => rfl

theorem getD_zero_eq_headD (l : List Nat) : l.getD 0 0 = l.headD 0 := by
  cases l with
  | nil => rfl
  | cons a t => rfl

/-- A successful run of the insertion loop of `load` keeps the invariant and the stored pairs,
stores every pair whose key is not empty as a C string, and creates no other content. -/
theorem load_loop_spec (E : Ext) (clock : Nat → Nat) :
    ∀ (keys : List (List Nat)) (values : List Nat) (j : Nat) (T : Table),
      WF T → (keys ≠ [] → 1 ≤ T.D_.length) →
      (load_loop E clock keys values j T).1 = true →
      WF (load_loop E clock keys values j T).2 ∧
      T.D_.length ≤ (load_loop E clock keys values j T).2.D_.length ∧
      (load_loop E clock keys values j T).2.h = T.h ∧
      (∀ k v, Holds T k v → Holds (load_loop E clock keys values j T).2 k v) ∧
      (∀ i, i < keys.length → c_str (keys.getD i []) ≠ [] →
        Holds (load_loop E clock keys values j T).2 (c_str (keys.getD i [])) (values.getD i 0)) ∧
      (∀ x, (((load_loop E clock keys values j T).2.D_.getD x default).key_ = [] ∧
          ((load_loop E clock keys values j T).2.D_.getD x default).val_ = 0) ∨
        (∃ x0, (load_loop E clock keys values j T).2.D_.getD x default = T.D_.getD x0 default) ∨
        (∃ i, i < keys.length ∧
          ((load_loop E clock keys values j T).2.D_.getD x default).key_ = c_str (keys.getD i []) ∧
          ((load_loop E clock keys values j T).2.D_.getD x default).val_ = values.getD i 0)) := by
  intro keys
  induction keys with
  | nil =>
    intro values j T hwf _ _
    exact ⟨hwf, le_refl _, rfl, fun _ _ h => h, fun i hi => absurd hi (Nat.not_lt_zero i),
      fun x => Or.inr (Or.inl ⟨x, rfl⟩)⟩
  | cons k ks ih =>
    intro values j T hwf hD hok
    have hD1 : 1 ≤ T.D_.length := hD (List.cons_ne_nil k ks)
    unfold load_loop at hok ⊢
    dsimp only at hok ⊢
    by_cases hins : (T.insert E (clock j) k (values.headD 0)).1 = false
    · rw [if_pos hins] at hok
      exact absurd hok (by simp)
    · rw [if_neg hins] at hok ⊢
      have hins' : (T.insert E (clock j) k (values.headD 0)).1 = true := by simpa using hins
      obtain ⟨a1, a2, a3, a4, a5, a6⟩ := insert_spec E T (clock j) k (values.headD 0) hwf hD1 hins'
      obtain ⟨b1, b2, b3, b4, b5, b6⟩ := ih values.tail (j + 1)
        (T.insert E (clock j) k (values.headD 0)).2 a1 (fun _ => le_trans hD1 a2) hok
      refine ⟨b1, le_trans a2 b2, b3.trans a3, fun k' v' h => b4 k' v' (a5 k' v' h), ?_, ?_⟩
      · intro i hi hne
        cases i with
        | zero =>
          rw [List.getD_cons_zero] at hne ⊢
          rw [getD_zero_eq_headD]
          exact b4 _ _ (a4 hne)
        | succ i =>
          rw [List.getD_cons_succ] at hne ⊢
          rw [getD_succ_eq_tail_getD]
          exact b5 i (by rw [List.length_cons] at hi; omega) hne
      · intro x
        rcases b6 x with hb | ⟨x1, hx1⟩ | ⟨i, hi, hk, hv⟩
        · exact Or.inl hb
        · rw [hx1]
          rcases a6 x1 with ⟨hk, hv⟩ | hb | ⟨x0, hx0⟩
          · refine Or.inr (Or.inr ⟨0, by rw [List.length_cons]; omega, ?_, ?_⟩)
            · rw [List.getD_cons_zero]; exact hk
            · rw [getD_zero_eq_headD]; exact hv
          · exact Or.inl hb
          · exact Or.inr (Or.inl ⟨x0, hx0⟩)
        · refine Or.inr (Or.inr ⟨i + 1, by rw [List.length_cons]; omega, ?_, ?_⟩)
          · rw [List.getD_cons_succ]; exact hk
          · rw [getD_succ_eq_tail_getD]; exact hv

theorem getD_resize_nil {α : Type} (n i : Nat) (d : α) : (resize ([] : List α) n d).getD i d = d := by
  unfold resize
  rw [List.take_nil, List.nil_append, List.getD_eq_getElem?_getD, List.getElem?_replicate]
  split <;> rfl

theorem setup_fields (T : Table) (n : Nat) (use_p : Bool) (p : ℚ)
    (timeout seed multiplier adjustment : Nat) (key : keyfunc_t) :
    (T.setup n use_p p timeout seed multiplier adjustment key).D_ = resize T.D_ n default ∧
    (T.setup n use_p p timeout seed multiplier adjustment key).func_ = T.func_.setup key ∧
    (T.setup n use_p p timeout seed multiplier adjustment key).key_ = T.key_ ∧
    (T.setup n use_p p timeout seed multiplier adjustment key).uuid_ = T.uuid_ ∧
    (T.setup n use_p p timeout seed multiplier adjustment key).adjustment_ = adjustment ∧
    (T.setup n use_p p timeout seed multiplier adjustment key).n_ = n :=
  ⟨rfl, rfl, rfl, rfl, rfl, rfl⟩

/-- A fresh table after `setup` satisfies the invariant of construction as soon as its header
array is not empty. -/
theorem WF_setup (n : Nat) (use_p : Bool) (p : ℚ) (timeout seed multiplier adjustment : Nat)
    (key : keyfunc_t)
    (hs : 0 < (({} : Table).setup n use_p p timeout seed multiplier adjustment key).s_) :
    WF (({} : Table).setup n use_p p timeout seed multiplier adjustment key) := by
  have hH := setup_H ({} : Table) n use_p p timeout seed multiplier adjustment key
  have hHl := setup_H_length ({} : Table) n use_p p timeout seed multiplier adjustment key
  obtain ⟨hD, hF, _⟩ := setup_fields ({} : Table) n use_p p timeout seed multiplier adjustment key
  generalize ({} : Table).setup n use_p p timeout seed multiplier adjustment key = T0 at *
  have hHget : ∀ b, T0.H_.getD b default = default := by
    intro b
    rw [hH]
    exact getD_resize_nil _ _ _
  have hDget : ∀ x, T0.D_.getD x default = default := by
    intro x
    rw [hD]
    exact getD_resize_nil _ _ _
  refine ⟨hHl, fun k => h_lt T0 k hs, by rw [hF]; rfl, by rw [hF]; rfl, by rw [hF]; exact Nat.one_pos,
    ?_, ?_, ?_⟩
  · intro b
    rw [hHget, hF]
    exact Nat.one_pos
  · intro b h
    rw [hHget] at h
    exact absurd rfl h
  · intro x h
    rw [hDget] at h
    exact absurd h (by simp [is_free_default])

theorem c_str_eq_self {k : List Nat} (h : 0 ∉ k) : c_str k = k := by
  unfold c_str
  rw [List.takeWhile_eq_self_iff]
  intro x hx
  have : x ≠ 0 := fun e => h (e ▸ hx)
  simpa using this

/-- The insertion loop of `load`, returning true, on a fresh table after `setup`, the header
array not empty and `N ≥ 1` slots allocated: the invariant holds, every key that is not empty
as a C string is stored with its value, and every slot is blank or stores such a pair. -/
theorem load_spec (E : Ext) (clock : Nat → Nat) (n : Nat) (use_p : Bool) (p : ℚ)
    (timeout seed multiplier adjustment : Nat) (key : keyfunc_t)
    (keys : List (List Nat)) (values : List Nat)
    (hs : 0 < (({} : Table).setup n use_p p timeout seed multiplier adjustment key).s_)
    (hn : keys.length = n)
    (hload : (load_loop E clock keys values 0
      (({} : Table).setup n use_p p timeout seed multiplier adjustment key)).1 = true) :
    WF (load_loop E clock keys values 0
      (({} : Table).setup n use_p p timeout seed multiplier adjustment key)).2 ∧
    (∀ i, i < keys.length → c_str (keys.getD i []) ≠ [] →
      Holds (load_loop E clock keys values 0
        (({} : Table).setup n use_p p timeout seed multiplier adjustment key)).2
        (c_str (keys.getD i [])) (values.getD i 0)) ∧
    (∀ x, (((load_loop E clock keys values 0
          (({} : Table).setup n use_p p timeout seed multiplier adjustment key)).2.D_.getD x
            default).key_ = [] ∧
        ((load_loop E clock keys values 0
          (({} : Table).setup n use_p p timeout seed multiplier adjustment key)).2.D_.getD x
            default).val_ = 0) ∨
      (∃ i, i < keys.length ∧
        ((load_loop E clock keys values 0
          (({} : Table).setup n use_p p timeout seed multiplier adjustment key)).2.D_.getD x
            default).key_ = c_str (keys.getD i []) ∧
        ((load_loop E clock keys values 0
          (({} : Table).setup n use_p p timeout seed multiplier adjustment key)).2.D_.getD x
            default).val_ = values.getD i 0)) := by
  have hwf := WF_setup n use_p p timeout seed multiplier adjustment key hs
  obtain ⟨hD, _⟩ := setup_fields ({} : Table) n use_p p timeout seed multiplier adjustment key
  generalize ({} : Table).setup n use_p p timeout seed multiplier adjustment key = T0 at *
  have hDget : ∀ x, T0.D_.getD x default = default := by
    intro x
    rw [hD]
    exact getD_resize_nil _ _ _
  have hDlen : T0.D_.length = n := by rw [hD]; exact length_resize _ _ _
  obtain ⟨b1, _, _, _, b5, b6⟩ := load_loop_spec E clock keys values 0 T0 hwf (by
      intro hne
      rw [hDlen, ← hn]
      exact Nat.pos_of_ne_zero (fun e => hne (List.length_eq_zero.mp e))) hload
  refine ⟨b1, b5, ?_⟩
  intro x
  rcases b6 x with hb | ⟨x0, hx0⟩ | hi
  · exact Or.inl hb
  · rw [hx0, hDget]
    exact Or.inl ⟨rfl, rfl⟩
  · exact Or.inr hi

end Table
end pph

namespace pph
namespace Table

/-- C1, as the code has it: on a fresh table after `setup(N, ...)` with a non-empty header
array, for `N` keys that are not empty and hold no NUL byte, and `N` values: if the insertion
loop of `load` (`insert(keys[j], values[j])` for `j = 0, 1, ...`, left at the first failure)
returns true then `find_val(keys[j]) = values[j]` for every `j`. -/
theorem C1_total_recall (E : Ext) (clock : Nat → Nat) (n : Nat) (use_p : Bool) (p : ℚ)
    (timeout seed multiplier adjustment : Nat) (key : keyfunc_t)
    (keys : List (List Nat)) (values : List Nat)
    (hs : 0 < (({} : Table).setup n use_p p timeout seed multiplier adjustment key).s_)
    (hn : keys.length = n) (hv : values.length = n)
    (hkeys : ∀ k, k ∈ keys → k ≠ [] ∧ 0 ∉ k)
    (hload : (load_loop E clock keys values 0
      (({} : Table).setup n use_p p timeout seed multiplier adjustment key)).1 = true)
    (j : Nat) (hj : j < n) :
    (load_loop E clock keys values 0
      (({} : Table).setup n use_p p timeout seed multiplier adjustment key)).2.find_val (keys.getD j []) = values.getD j 0 := by
  have _ := hv
  obtain ⟨hwf, hh, _⟩ := load_spec E clock n use_p p timeout seed multiplier adjustment key keys
    values hs hn hload
  have hjl : j < keys.length := by rw [hn]; exact hj
  have hmem : keys.getD j [] ∈ keys := by
    rw [List.getD_eq_getElem _ _ hjl]
    exact List.getElem_mem hjl
  obtain ⟨hne, hnul⟩ := hkeys _ hmem
  have hc := c_str_eq_self hnul
  have := hh j hjl (by rw [hc]; exact hne)
  rw [hc] at this
  exact find_val_of_holds hwf this

/-- C1 on scenario 1: the key `"beta"` of `["alpha", "beta", "gamma"]`. -/
theorem C1_total_recall_witness :
    (0 < (({} : Table).setup 3 false (97 / 100) 60000 1 65 0 djb_hash).s_ ∧
     (∀ k, k ∈ [bytes "alpha", bytes "beta", bytes "gamma"] → k ≠ [] ∧ 0 ∉ k) ∧
     (load_loop Ext.simple (fun _ => 0) [bytes "alpha", bytes "beta", bytes "gamma"] [0, 1, 2] 0
      (({} : Table).setup 3 false (97 / 100) 60000 1 65 0 djb_hash)).1 = true) ∧
    (load_loop Ext.simple (fun _ => 0) [bytes "alpha", bytes "beta", bytes "gamma"] [0, 1, 2] 0
      (({} : Table).setup 3 false (97 / 100) 60000 1 65 0 djb_hash)).2.find_val
        ([bytes "alpha", bytes "beta", bytes "gamma"].getD 1 []) = [0, 1, 2].getD 1 0 :=
  ⟨⟨by decide!, by decide!, by decide!⟩,
   C1_total_recall Ext.simple (fun _ => 0) 3 false (97 / 100) 60000 1 65 0 djb_hash
     [bytes "alpha", bytes "beta", bytes "gamma"] [0, 1, 2] (by decide!) rfl rfl (by decide!)
     (by decide!) 1 (by decide)⟩

/-- C1 fails as stated: the distinct keys `""` and `"b"` are inserted with success (`N = 2`,
the DJB parameters, the two calls of `insert` that `load` makes), but the slot of `""` counts
as free and is given to `"b"`, so `find_val("")` is `EMPTY_VAL`, not `7`. -/
theorem C1_counterexample :
    ([[], bytes "b"] : List (List Nat)).Nodup ∧
    (load_loop Ext.simple (fun _ => 0) [[], bytes "b"] [7, 8] 0
      (({} : Table).setup 2 false (97 / 100) 60000 1 65 0 djb_hash)).1 = true ∧
    (load_loop Ext.simple (fun _ => 0) [[], bytes "b"] [7, 8] 0
      (({} : Table).setup 2 false (97 / 100) 60000 1 65 0 djb_hash)).2.find_val [] = EMPTY_VAL ∧
    (load_loop Ext.simple (fun _ => 0) [[], bytes "b"] [7, 8] 0
      (({} : Table).setup 2 false (97 / 100) 60000 1 65 0 djb_hash)).2.find_val [] ≠ 7 := by
  decide!

/-- C2, as the code has it: after the insertion loop of `load` has returned true (fresh table,
`setup(N, ...)` with a non-empty header array, `N` keys and `N` values), every byte string that is not empty
and is not the C string (the bytes before the first NUL) of an input key is looked up as
`EMPTY_VAL`. -/
theorem C2_sentinel_on_miss (E : Ext) (clock : Nat → Nat) (n : Nat) (use_p : Bool) (p : ℚ)
    (timeout seed multiplier adjustment : Nat) (key : keyfunc_t)
    (keys : List (List Nat)) (values : List Nat)
    (hs : 0 < (({} : Table).setup n use_p p timeout seed multiplier adjustment key).s_)
    (hn : keys.length = n) (hv : values.length = n)
    (hload : (load_loop E clock keys values 0
      (({} : Table).setup n use_p p timeout seed multiplier adjustment key)).1 = true)
    (k : List Nat) (hk : k ≠ []) (hnot : k ∉ keys.map c_str) :
    (load_loop E clock keys values 0
      (({} : Table).setup n use_p p timeout seed multiplier adjustment key)).2.find_val k = EMPTY_VAL ∧
    (load_loop E clock keys values 0
      (({} : Table).setup n use_p p timeout seed multiplier adjustment key)).2.notfound_val
      ((load_loop E clock keys values 0
      (({} : Table).setup n use_p p timeout seed multiplier adjustment key)).2.find_val k) = true := by
  have _ := hv
  obtain ⟨_, _, hst⟩ := load_spec E clock n use_p p timeout seed multiplier adjustment key keys
    values hs hn hload
  have key : (load_loop E clock keys values 0
      (({} : Table).setup n use_p p timeout seed multiplier adjustment key)).2.find_val k = EMPTY_VAL := by
    by_contra hcon
    obtain ⟨x, hx, _⟩ := find_val_ne_empty hcon
    rcases hst x with ⟨hb, _⟩ | ⟨i, hi, hki, _⟩
    · rw [hx] at hb
      exact hk hb
    · apply hnot
      rw [List.mem_map]
      refine ⟨keys.getD i [], ?_, ?_⟩
      · rw [List.getD_eq_getElem _ _ hi]
        exact List.getElem_mem hi
      · rw [← hki, hx]
  refine ⟨key, ?_⟩
  unfold notfound_val
  rw [key]
  exact beq_self_eq_true _

/-- C2 on scenario 1: the key `"delta"`. -/
theorem C2_sentinel_on_miss_witness :
    (0 < (({} : Table).setup 3 false (97 / 100) 60000 1 65 0 djb_hash).s_ ∧
     (load_loop Ext.simple (fun _ => 0) [bytes "alpha", bytes "beta", bytes "gamma"] [0, 1, 2] 0
      (({} : Table).setup 3 false (97 / 100) 60000 1 65 0 djb_hash)).1 = true ∧
     bytes "delta" ≠ [] ∧
     bytes "delta" ∉ [bytes "alpha", bytes "beta", bytes "gamma"].map c_str) ∧
    (load_loop Ext.simple (fun _ => 0) [bytes "alpha", bytes "beta", bytes "gamma"] [0, 1, 2] 0
      (({} : Table).setup 3 false (97 / 100) 60000 1 65 0 djb_hash)).2.find_val (bytes "delta")
      = EMPTY_VAL :=
  ⟨⟨by decide!, by decide!, by decide!, by decide!⟩,
   (C2_sentinel_on_miss Ext.simple (fun _ => 0) 3 false (97 / 100) 60000 1 65 0 djb_hash
     [bytes "alpha", bytes "beta", bytes "gamma"] [0, 1, 2] (by decide!) rfl rfl (by decide!)
     (bytes "delta") (by decide!) (by decide!)).1⟩

/-- C2 fails as stated: the input key `"a\0b"` reaches `insert` as the C string `"a"` and is
stored as such, so the byte string `"a"`, which is not an input key, is looked up as `5`. -/
theorem C2_counterexample :
    (load_loop Ext.simple (fun _ => 0) [[97, 0, 98]] [5] 0
      (({} : Table).setup 1 false (97 / 100) 60000 1 65 0 djb_hash)).1 = true ∧
    ([97] : List Nat) ∉ ([[97, 0, 98]] : List (List Nat)) ∧
    (load_loop Ext.simple (fun _ => 0) [[97, 0, 98]] [5] 0
      (({} : Table).setup 1 false (97 / 100) 60000 1 65 0 djb_hash)).2.find_val [97] = 5 ∧
    (load_loop Ext.simple (fun _ => 0) [[97, 0, 98]] [5] 0
      (({} : Table).setup 1 false (97 / 100) 60000 1 65 0 djb_hash)).2.find_val [97] ≠ EMPTY_VAL := by
  decide!

end Table
end pph

namespace pph

/-! ## Text: lines, fields, numbers, escapes -/

end pph

namespace pph

/-! ### Escaped strings -/

theorem escape_string_cons (c : Nat) (s : List Nat) :
    escape_string (c :: s) = escape_char c ++ escape_string s := by
  unfold escape_string escape_char
  rw [List.flatMap_cons]

theorem escape_char_facts : ∀ c, c < 128 →
    ((isalnum c = true ∧ c ≠ 92) ∨
      (isalnum c = false ∧ (put_hex4 (char_to_u32 c)).length = 4 ∧
        (put_hex4 (char_to_u32 c)).dropWhile isspace ≠ [] ∧
        hex_extract (put_hex4 (char_to_u32 c)) 0 % 256 = c)) ∧
    (∀ x, x ∈ escape_char c → is_delim x = false ∧ x ≠ 0) := by
  decide!

/-- The value extracted from a string that holds more than white space does not depend on the
value the variable had. -/
theorem hex_extract_indep (s : List Nat) (p q : Nat) (h : s.dropWhile isspace ≠ []) :
    hex_extract s p = hex_extract s q := by
  unfold hex_extract
  split
  · rename_i e
    exact absurd e h
  · rfl
  · rfl
  · rfl

theorem unescape_aux_escape : ∀ (s : List Nat) (fuel c0 : Nat), (∀ c, c ∈ s → c < 128) →
    (escape_string s).length ≤ fuel → unescape_aux fuel c0 (escape_string s) = s := by
  intro s
  induction s with
  | nil =>
    intro fuel c0 _ _
    cases fuel <;> rfl
  | cons c s ih =>
    intro fuel c0 hs hlen
    have hc := (escape_char_facts c (hs c (List.mem_cons_self _ _))).1
    have hs' : ∀ c', c' ∈ s → c' < 128 := fun c' h => hs c' (List.mem_cons_of_mem _ h)
    rw [escape_string_cons] at hlen ⊢
    rcases hc with ⟨ha, h92⟩ | ⟨ha, h4, hne, hv⟩
    · have he : escape_char c = [c] := by unfold escape_char; rw [if_pos ha]
      rw [he] at hlen ⊢
      rw [List.singleton_append] at hlen ⊢
      rw [List.length_cons] at hlen
      obtain ⟨f, rfl⟩ : ∃ f, fuel = f + 1 := ⟨fuel - 1, by omega⟩
      unfold unescape_aux
      rw [if_neg (fun h => h92 h.1), ih f c0 hs' (by omega)]
    · have he : escape_char c = 92 :: 120 :: put_hex4 (char_to_u32 c) := by
        unfold escape_char; rw [if_neg (by rw [ha]; simp)]; rfl
      rw [he] at hlen ⊢
      rw [List.cons_append, List.cons_append] at hlen ⊢
      rw [List.length_cons, List.length_cons, List.length_append, h4] at hlen
      obtain ⟨f, rfl⟩ : ∃ f, fuel = f + 1 := ⟨fuel - 1, by omega⟩
      unfold unescape_aux
      rw [if_pos ⟨rfl, rfl⟩]
      have hd1 : (120 :: (put_hex4 (char_to_u32 c) ++ escape_string s)).drop 1 =
          put_hex4 (char_to_u32 c) ++ escape_string s := rfl
      have ht : (put_hex4 (char_to_u32 c) ++ escape_string s).take 4 = put_hex4 (char_to_u32 c) := by
        rw [List.take_append_of_le_length (by omega), List.take_of_length_le (by omega)]
      have hd5 : (120 :: (put_hex4 (char_to_u32 c) ++ escape_string s)).drop 5 = escape_string s := by
        rw [List.drop_succ_cons, List.drop_append_of_le_length (by omega),
          List.drop_of_length_le (by omega), List.nil_append]
      rw [hd1, ht, hd5, hex_extract_indep _ c0 0 hne, hv, ih f _ hs' (by omega)]

/-- Unescaping an escaped string of 7-bit bytes gives it back. -/
theorem unescape_escape (s : List Nat) (h : ∀ c, c ∈ s → c < 128) :
    unescape_string (escape_string s) = s :=
  unescape_aux_escape s _ 0 h (le_refl _)

end pph

namespace pph
namespace Table

/-! ### The row loops of `unserialize` -/

end Table
end pph

namespace pph
namespace Table

/-! ### The bodies of the row loops on the rows `serialize` writes -/

end Table
end pph

namespace pph
namespace Table

/-! ### The steps of `unserialize` -/

end Table
end pph

namespace pph
namespace Table

/-! ### `unserialize` on the text of `serialize` -/

end Table
end pph

namespace pph
namespace Table

/-! ### The round trip through `serialize` and `unserialize` -/

end Table
end pph

namespace pph
namespace Table

end Table
end pph

namespace pph
namespace Table

end Table
end pph

namespace pph
namespace Table

end Table
end pph

namespace pph

/-! ## The helper `modulo` -/

theorem pow_two_and_pred (k : Nat) : 2 ^ k &&& (2 ^ k - 1) = 0 := by
  rw [Nat.and_pow_two_sub_one_eq_mod, Nat.mod_self]

/-- C14: for 64-bit `x` and `y` with `y ≥ 1`, `modulo(x, y)` is `x mod y`, which is below `y`,
and the test `(y & (y-1)) == 0` that selects the bit mask holds exactly when `y` is a power of
two. -/
theorem C14_modulo_is_mod (x y : Nat) (hx : x < 2 ^ 64) (hy : y < 2 ^ 64) (hy1 : 1 ≤ y) :
    modulo x y = x % y ∧ modulo x y < y ∧
    (y &&& ((y + (2 ^ 64 - 1)) % 2 ^ 64) = 0 ↔ ∃ k, y = 2 ^ k) := by
  refine ⟨modulo_eq_mod hx hy, modulo_lt x hy1, ?_⟩
  have e : (y + (2 ^ 64 - 1)) % 2 ^ 64 = y - 1 := by omega
  rw [e]
  constructor
  · intro h
    exact and_pred_eq_zero 64 y hy hy1 h
  · rintro ⟨k, rfl⟩
    exact pow_two_and_pred k

/-- C14 at `x = 1000`, `y = 8` (a power of two) . -/
theorem C14_modulo_is_mod_witness :
    modulo 1000 8 = 1000 % 8 ∧ modulo 1000 8 < 8 ∧
    (8 &&& ((8 + (2 ^ 64 - 1)) % 2 ^ 64) = 0 ↔ ∃ k, 8 = 2 ^ k) :=
  C14_modulo_is_mod 1000 8 (by norm_num) (by norm_num) (by norm_num)

namespace Table

/-! ## The allocator on every slot array -/

/-- C11 fails on the code: after `setup(1, false, 0.97, ...)` on a fresh table the header size
is 2 and the header array has 2 entries, but the vector `keys_` is empty, and `load([k], [v])`
assigns `keys_[0]` after a `reserve` that leaves it empty: the call has no defined result.  The
call `insert(k, v)` that follows the assignment returns true, and the header of the key's bucket
has `r = 1` and `i = 0` after it.  This holds for every key, value, key function and
parameters, and for every behaviour of the library code and of the clock. -/
theorem C11_single_key_load_undefined (E : Ext) (clock : Nat → Nat)
    (timeout seed multiplier adjustment : Nat) (key : keyfunc_t) (k : List Nat) (v : Nat) :
    (({} : Table).setup 1 false (97 / 100) timeout seed multiplier adjustment key).s_ = 2 ∧
    (({} : Table).setup 1 false (97 / 100) timeout seed multiplier adjustment key).H_.length = 2 ∧
    (({} : Table).setup 1 false (97 / 100) timeout seed multiplier adjustment key).keys_.length
      = 0 ∧
    (({} : Table).setup 1 false (97 / 100) timeout seed multiplier adjustment key).load E clock
      [k] [v] = none ∧
    ((({} : Table).setup 1 false (97 / 100) timeout seed multiplier adjustment key).insert E
      (clock 0) k v).1 = true ∧
    (((({} : Table).setup 1 false (97 / 100) timeout seed multiplier adjustment key).insert E
      (clock 0) k v).2.H_.getD
        (((({} : Table).setup 1 false (97 / 100) timeout seed multiplier adjustment key).insert E
          (clock 0) k v).2.h (c_str k)) default).r_ = 1 ∧
    (((({} : Table).setup 1 false (97 / 100) timeout seed multiplier adjustment key).insert E
      (clock 0) k v).2.H_.getD
        (((({} : Table).setup 1 false (97 / 100) timeout seed multiplier adjustment key).insert E
          (clock 0) k v).2.h (c_str k)) default).i_ = 0 := by
  have hs : (({} : Table).setup 1 false (97 / 100) timeout seed multiplier adjustment key).s_
      = 2 := by
    rw [setup_s_pow2]
    decide!
  have hH := setup_H ({} : Table) 1 false (97 / 100) timeout seed multiplier adjustment key
  have hHl := setup_H_length ({} : Table) 1 false (97 / 100) timeout seed multiplier adjustment
    key
  have hk0 : (({} : Table).setup 1 false (97 / 100) timeout seed multiplier adjustment
      key).keys_.length = 0 := rfl
  generalize ({} : Table).setup 1 false (97 / 100) timeout seed multiplier adjustment key = T0
    at hs hH hHl hk0 ⊢
  rw [hs] at hHl
  have hr : (T0.H_.getD (T0.h (c_str k)) default).r_ = 0 := by
    rw [hH]
    exact congrArg hdr_t.r_ (getD_resize_nil _ _ _)
  have hnone : T0.load E clock [k] [v] = none := by
    unfold load
    rw [if_neg]
    rw [hk0]
    exact Nat.not_succ_le_zero 0
  rw [insert_of_empty_bucket E T0 (clock 0) k v hr]
  obtain ⟨e1, _, _, e4, e5⟩ := insert_fresh_fields T0 k v
  have hlt : T0.h (c_str k) < T0.H_.length := by
    rw [hHl]
    exact lt_of_lt_of_eq (h_lt _ (c_str k) (by rw [hs]; omega)) hs
  refine ⟨hs, hHl, hk0, hnone, rfl, ?_, ?_⟩
  · show ((T0.insert_fresh k v).H_.getD ((T0.insert_fresh k v).h (c_str k)) default).r_ = 1
    rw [e5, e1]
    exact congrArg hdr_t.r_ (getD_set_self _ _ _ _ hlt)
  · show ((T0.insert_fresh k v).H_.getD ((T0.insert_fresh k v).h (c_str k)) default).i_ = 0
    rw [e5, e1]
    exact congrArg hdr_t.i_ (getD_set_self _ _ _ _ hlt)

end Table
end pph

namespace pph

/-! ## `gcd_binary` computes the greatest common divisor -/

theorem ctzAux_spec : ∀ (fuel x : Nat), 0 < x → x < 2 ^ fuel →
    x = 2 ^ ctzAux fuel x * (x >>> ctzAux fuel x) ∧ (x >>> ctzAux fuel x) % 2 = 1 := by
  intro fuel
  induction fuel with
  | zero => intro x h1 h2; omega
  | succ f ih =>
    intro x h1 h2
    unfold ctzAux
    split
    · rename_i hodd
      exact ⟨by simp, by simpa using hodd⟩
    · rename_i hev
      have hx2 : 0 < x / 2 := by omega
      have hlt : x / 2 < 2 ^ f := by
        rw [Nat.pow_succ] at h2
        omega
      obtain ⟨e1, e2⟩ := ih (x / 2) hx2 hlt
      have hs : x >>> (1 + ctzAux f (x / 2)) = (x / 2) >>> ctzAux f (x / 2) := by
        rw [Nat.shiftRight_eq_div_pow, Nat.shiftRight_eq_div_pow, Nat.div_div_eq_div_mul,
          Nat.pow_add, Nat.pow_one]
      rw [hs]
      refine ⟨?_, e2⟩
      have hx : x = 2 * (x / 2) := by omega
      rw [Nat.pow_add, Nat.pow_one, Nat.mul_assoc, ← e1]
      exact hx

theorem CTZ_spec {x : Nat} (h1 : 0 < x) (h2 : x < 2 ^ 64) :
    x = 2 ^ CTZ x * (x >>> CTZ x) ∧ (x >>> CTZ x) % 2 = 1 :=
  ctzAux_spec 64 x h1 h2

theorem ctzAux_or : ∀ (fuel u v : Nat), 0 < u → 0 < v →
    ctzAux fuel (u ||| v) = min (ctzAux fuel u) (ctzAux fuel v) := by
  intro fuel
  induction fuel with
  | zero => intro u v _ _; rfl
  | succ f ih =>
    intro u v hu hv
    unfold ctzAux
    by_cases h1 : u % 2 = 1
    · rw [if_pos (Nat.or_mod_two_eq_one.mpr (Or.inl h1)), if_pos h1, Nat.zero_min]
    · by_cases h2 : v % 2 = 1
      · rw [if_pos (Nat.or_mod_two_eq_one.mpr (Or.inr h2)), if_pos h2, Nat.min_zero]
      · rw [if_neg (fun h => (Nat.or_mod_two_eq_one.mp h).elim h1 h2), if_neg h1, if_neg h2,
          Nat.or_div_two, ih (u / 2) (v / 2) (by omega) (by omega)]
        omega

theorem gcd_odd_mul_pow {o : Nat} (ho : o % 2 = 1) (c w : Nat) :
    Nat.gcd o (2 ^ c * w) = Nat.gcd o w := by
  have hc : Nat.Coprime (2 ^ c) o :=
    Nat.Coprime.pow_left c (Nat.coprime_two_left.mpr (Nat.odd_iff.mpr ho))
  exact Nat.Coprime.gcd_mul_left_cancel_right w hc

/-- The loop of `gcd_binary`, entered with `u` odd and `v ≠ 0`, returns `gcd(u, v)`. -/
theorem gcd_loop_eq_gcd : ∀ (fuel u v : Nat), u % 2 = 1 → 0 < v → v < 2 ^ 64 → u < 2 ^ 64 →
    u + v ≤ fuel → gcd_loop fuel u v = Nat.gcd u v := by
  intro fuel
  induction fuel with
  | zero => intro u v _ hv _ _ hf; omega
  | succ f ih =>
    intro u v hu hv hv64 hu64 hf
    obtain ⟨e1, e2⟩ := CTZ_spec hv hv64
    have hov : v >>> CTZ v ≤ v := by
      rw [Nat.shiftRight_eq_div_pow]
      exact Nat.div_le_self _ _
    have hg : Nat.gcd u v = Nat.gcd u (v >>> CTZ v) := by
      conv_lhs => rw [e1]
      exact gcd_odd_mul_pow hu _ _
    clear e1
    unfold gcd_loop
    dsimp only
    generalize v >>> CTZ v = o at e2 hov hg ⊢
    by_cases hgt : u > o
    · rw [if_pos hgt, if_pos hgt, if_pos (by omega)]
      rw [ih o (u - o) e2 (by omega) (by omega) (by omega) (by omega),
        Nat.gcd_sub_self_right (le_of_lt hgt), hg, Nat.gcd_comm]
    · rw [if_neg hgt, if_neg hgt]
      by_cases hz : o - u ≠ 0
      · rw [if_pos hz, ih u (o - u) hu (by omega) (by omega) hu64 (by omega),
          Nat.gcd_sub_self_right (by omega), hg]
      · rw [if_neg hz, hg]
        have : o = u := by omega
        rw [this, Nat.gcd_self]

/-- The function `gcd_binary` on 64-bit words is the greatest common divisor. -/
theorem gcd_binary_eq_gcd (u v : Nat) (hu : u < 2 ^ 64) (hv : v < 2 ^ 64) :
    gcd_binary u v = Nat.gcd u v := by
  unfold gcd_binary
  by_cases hu0 : u = 0
  · rw [if_pos hu0, hu0, Nat.gcd_zero_left]
  rw [if_neg hu0]
  by_cases hv0 : v = 0
  · rw [if_pos hv0, hv0, Nat.gcd_zero_right]
  rw [if_neg hv0]
  dsimp only
  have hup : 0 < u := Nat.pos_of_ne_zero hu0
  have hvp : 0 < v := Nat.pos_of_ne_zero hv0
  obtain ⟨a1, a2⟩ := CTZ_spec hup hu
  obtain ⟨b1, b2⟩ := CTZ_spec hvp hv
  have hou : u >>> CTZ u ≤ u := by
    rw [Nat.shiftRight_eq_div_pow]
    exact Nat.div_le_self _ _
  have hshift : CTZ (u ||| v) = min (CTZ u) (CTZ v) := ctzAux_or 64 u v hup hvp
  rw [gcd_loop_eq_gcd _ _ _ a2 hvp hv (by omega) (le_refl _), hshift, Nat.shiftLeft_eq]
  -- `gcd(u', v)` is `gcd(u', v')`, and `gcd(u, v) = 2 ^ min * gcd(u', v')`
  have hg1 : Nat.gcd (u >>> CTZ u) v = Nat.gcd (u >>> CTZ u) (v >>> CTZ v) := by
    conv_lhs => rw [b1]
    exact gcd_odd_mul_pow a2 _ _
  have hg2 : Nat.gcd u v = 2 ^ min (CTZ u) (CTZ v) * Nat.gcd (u >>> CTZ u) (v >>> CTZ v) := by
    conv_lhs => rw [a1, b1]
    have ea : 2 ^ CTZ u = 2 ^ min (CTZ u) (CTZ v) * 2 ^ (CTZ u - min (CTZ u) (CTZ v)) := by
      rw [← Nat.pow_add]
      congr 1
      omega
    have eb : 2 ^ CTZ v = 2 ^ min (CTZ u) (CTZ v) * 2 ^ (CTZ v - min (CTZ u) (CTZ v)) := by
      rw [← Nat.pow_add]
      congr 1
      omega
    rw [ea, eb, Nat.mul_assoc, Nat.mul_assoc, Nat.gcd_mul_left]
    congr 1
    by_cases hle : CTZ u ≤ CTZ v
    · have : CTZ u - min (CTZ u) (CTZ v) = 0 := by omega
      rw [this, Nat.pow_zero, Nat.one_mul]
      exact gcd_odd_mul_pow a2 _ _
    · have : CTZ v - min (CTZ u) (CTZ v) = 0 := by omega
      rw [this, Nat.pow_zero, Nat.one_mul, Nat.gcd_comm, gcd_odd_mul_pow b2, Nat.gcd_comm]
  rw [hg1, Nat.mul_comm, ← hg2]
  exact Nat.mod_eq_of_lt (lt_of_le_of_lt (Nat.gcd_le_left v hup) hu)

end pph

namespace pph
namespace Table

/-! ## The top-level multiplier after `setup` -/

theorem setup_multiplier_field (T : Table) (n : Nat) (use_p : Bool) (p : ℚ)
    (timeout seed multiplier adjustment : Nat) (key : keyfunc_t) :
    (T.setup n use_p p timeout seed multiplier adjustment key).multiplier_ =
      setup_multiplier (2 ^ 64) multiplier
        (T.setup n use_p p timeout seed multiplier adjustment key).s_ := rfl

/-- The loop `while (gcd_binary(multiplier_, s_) != 1) multiplier_++` stops at the first value
of `m, m + 1, ...` (modulo `2 ^ 64`) that passes the test, if it stops within its fuel. -/
theorem setup_multiplier_spec (s : Nat) : ∀ (fuel m : Nat), m < 2 ^ 64 →
    ∃ t, t ≤ fuel ∧ setup_multiplier fuel m s = (m + t) % 2 ^ 64 ∧
      ∀ t', t' < t → gcd_binary ((m + t') % 2 ^ 64) s ≠ 1 := by
  intro fuel
  induction fuel with
  | zero =>
    intro m hm
    exact ⟨0, le_refl _, by unfold setup_multiplier; omega, fun t' h => absurd h (Nat.not_lt_zero _)⟩
  | succ f ih =>
    intro m hm
    unfold setup_multiplier
    by_cases hg : gcd_binary m s ≠ 1
    · rw [if_pos hg]
      obtain ⟨t, h1, h2, h3⟩ := ih ((m + 1) % 2 ^ 64) (Nat.mod_lt _ (by norm_num))
      refine ⟨t + 1, by omega, ?_, ?_⟩
      · rw [h2]
        omega
      · intro t' ht'
        cases t' with
        | zero =>
          rw [Nat.add_zero, Nat.mod_eq_of_lt hm]
          exact hg
        | succ k =>
          have := h3 k (by omega)
          have e : ((m + 1) % 2 ^ 64 + k) % 2 ^ 64 = (m + (k + 1)) % 2 ^ 64 := by omega
          rw [e] at this
          exact this
    · rw [if_neg hg]
      exact ⟨0, Nat.zero_le _, by omega, fun t' h => absurd h (Nat.not_lt_zero _)⟩

/-- C12, as the code has it: for a 64-bit caller multiplier `μ` and a 64-bit header size `s`
computed by `setup`, the multiplier stored is coprime to `s`, and it is `(μ + t) mod 2^64` for
the least `t ≥ 0` that makes `(μ + t) mod 2^64` coprime to `s`.  When some `μ + t₀` below `2^64`
is coprime to `s`, and in particular when `s` is a power of two, there is no wrap-around: the
multiplier stored is `μ + t`, the least such value. -/
theorem C12_setup_multiplier (T : Table) (n : Nat) (use_p : Bool) (p : ℚ)
    (timeout seed mu adjustment : Nat) (key : keyfunc_t)
    (hmu : mu < 2 ^ 64)
    (hs : (T.setup n use_p p timeout seed mu adjustment key).s_ < 2 ^ 64) :
    Nat.gcd (T.setup n use_p p timeout seed mu adjustment key).multiplier_
      (T.setup n use_p p timeout seed mu adjustment key).s_ = 1 ∧
    ∃ t, (T.setup n use_p p timeout seed mu adjustment key).multiplier_ = (mu + t) % 2 ^ 64 ∧
      (∀ t', t' < t →
        Nat.gcd ((mu + t') % 2 ^ 64) (T.setup n use_p p timeout seed mu adjustment key).s_ ≠ 1) ∧
      ((∃ t0, mu + t0 < 2 ^ 64 ∧
          Nat.gcd (mu + t0) (T.setup n use_p p timeout seed mu adjustment key).s_ = 1) →
        mu + t < 2 ^ 64 ∧
        (T.setup n use_p p timeout seed mu adjustment key).multiplier_ = mu + t) ∧
      ((∃ k, (T.setup n use_p p timeout seed mu adjustment key).s_ = 2 ^ k) →
        mu + t < 2 ^ 64 ∧
        (T.setup n use_p p timeout seed mu adjustment key).multiplier_ = mu + t) := by
  rw [setup_multiplier_field]
  generalize (T.setup n use_p p timeout seed mu adjustment key).s_ = s at hs ⊢
  have hco := setup_multiplier_coprime mu s hmu
  obtain ⟨t, _, h2, h3⟩ := setup_multiplier_spec s (2 ^ 64) mu hmu
  have hlt : setup_multiplier (2 ^ 64) mu s < 2 ^ 64 := by
    rw [h2]
    exact Nat.mod_lt _ (by norm_num)
  rw [gcd_binary_eq_gcd _ _ hlt hs] at hco
  have hleast : ∀ t', t' < t → Nat.gcd ((mu + t') % 2 ^ 64) s ≠ 1 := by
    intro t' ht'
    have := h3 t' ht'
    rw [gcd_binary_eq_gcd _ _ (Nat.mod_lt _ (by norm_num)) hs] at this
    exact this
  have hnowrap : (∃ t0, mu + t0 < 2 ^ 64 ∧ Nat.gcd (mu + t0) s = 1) →
      mu + t < 2 ^ 64 ∧ setup_multiplier (2 ^ 64) mu s = mu + t := by
    rintro ⟨t0, hb, hg⟩
    have hle : t ≤ t0 := by
      by_contra hcon
      have := hleast t0 (by omega)
      rw [Nat.mod_eq_of_lt hb] at this
      exact this hg
    have hb' : mu + t < 2 ^ 64 := by omega
    exact ⟨hb', by rw [h2, Nat.mod_eq_of_lt hb']⟩
  refine ⟨hco, t, h2, hleast, hnowrap, ?_⟩
  rintro ⟨k, rfl⟩
  apply hnowrap
  by_cases hodd : mu % 2 = 1
  · exact ⟨0, by omega, Nat.Coprime.pow_right k
      (Nat.coprime_two_right.mpr (Nat.odd_iff.mpr hodd))⟩
  · exact ⟨1, by omega, Nat.Coprime.pow_right k
      (Nat.coprime_two_right.mpr (Nat.odd_iff.mpr (by omega)))⟩

/-- C12 on the DJB parameters with `N = 3`: multiplier 65 and header size 4. -/
theorem C12_setup_multiplier_witness :
    Nat.gcd (({} : Table).setup 3 false (97 / 100) 60000 1 65 0 djb_hash).multiplier_
      (({} : Table).setup 3 false (97 / 100) 60000 1 65 0 djb_hash).s_ = 1 ∧
    ∃ t, (({} : Table).setup 3 false (97 / 100) 60000 1 65 0 djb_hash).multiplier_ =
        (65 + t) % 2 ^ 64 ∧
      (∀ t', t' < t →
        Nat.gcd ((65 + t') % 2 ^ 64)
          (({} : Table).setup 3 false (97 / 100) 60000 1 65 0 djb_hash).s_ ≠ 1) ∧
      ((∃ t0, 65 + t0 < 2 ^ 64 ∧
          Nat.gcd (65 + t0) (({} : Table).setup 3 false (97 / 100) 60000 1 65 0 djb_hash).s_
            = 1) →
        65 + t < 2 ^ 64 ∧
        (({} : Table).setup 3 false (97 / 100) 60000 1 65 0 djb_hash).multiplier_ = 65 + t) ∧
      ((∃ k, (({} : Table).setup 3 false (97 / 100) 60000 1 65 0 djb_hash).s_ = 2 ^ k) →
        65 + t < 2 ^ 64 ∧
        (({} : Table).setup 3 false (97 / 100) 60000 1 65 0 djb_hash).multiplier_ = 65 + t) :=
  C12_setup_multiplier {} 3 false (97 / 100) 60000 1 65 0 djb_hash (by norm_num) (by decide!)

/-- C12 fails as stated: `setup(3, true, 1.0, ...)` with the caller multiplier `2^64 - 1` has
header size 3; `2^64 - 1` is divisible by 3, the increment wraps to 0 and then reaches 1, so the
multiplier stored is 1, which is below the caller's value. -/
theorem C12_counterexample :
    (({} : Table).setup 3 true 1 60000 1 (2 ^ 64 - 1) 0 djb_hash).s_ = 3 ∧
    (({} : Table).setup 3 true 1 60000 1 (2 ^ 64 - 1) 0 djb_hash).multiplier_ = 1 ∧
    (({} : Table).setup 3 true 1 60000 1 (2 ^ 64 - 1) 0 djb_hash).multiplier_ < 2 ^ 64 - 1 := by
  decide!

end Table
end pph

namespace pph
namespace Table

/-! ## The primary hash after `setup` -/

/-- C13 fails: `setup` hands its key function to the family only, and the primary hash of the
fresh table stays the DJB hash of the constructor, whatever key function is passed.  With
`setup(1, false, 0.97, 60000, 1, 65, 0, fnv64a_hash)` the header size is 2 and the key `"a"`
has primary hash 1 (DJB: 97 mod 2), where the FNV-1a hash gives 0. -/
theorem C13_primary_hash_is_djb :
    (∀ (n : Nat) (use_p : Bool) (p : ℚ) (timeout seed mu alpha : Nat) (keyfn : keyfunc_t)
      (k : List Nat),
      (({} : Table).setup n use_p p timeout seed mu alpha keyfn).h k =
        modulo (djb_hash k (({} : Table).setup n use_p p timeout seed mu alpha keyfn).multiplier_
          (({} : Table).setup n use_p p timeout seed mu alpha keyfn).adjustment_)
          (({} : Table).setup n use_p p timeout seed mu alpha keyfn).s_) ∧
    (({} : Table).setup 1 false (97 / 100) 60000 1 65 0 fnv64a_hash).h (bytes "a") = 1 ∧
    modulo (fnv64a_hash (bytes "a")
        (({} : Table).setup 1 false (97 / 100) 60000 1 65 0 fnv64a_hash).multiplier_
        (({} : Table).setup 1 false (97 / 100) 60000 1 65 0 fnv64a_hash).adjustment_)
      (({} : Table).setup 1 false (97 / 100) 60000 1 65 0 fnv64a_hash).s_ = 0 := by
  refine ⟨fun _ _ _ _ _ _ _ _ _ => rfl, ?_, ?_⟩
  · decide!
  · decide!

/-! ## The postcondition of `find_h` -/

theorem func_h_eq (F : func_t) (i : Nat) (k : List Nat) (r : Nat) (hi : i < F.size) :
    F.h i k r =
      modulo (modulo (F.key_ k (F.multiplier i) (F.adjustment i)) (F.modulus i)) r := by
  unfold func_t.h func_t.h_internal func_t.multiplier func_t.adjustment func_t.modulus
  rw [if_neg (by unfold func_t.size at hi; omega)]

/-- C17: when `find_h(p, r, new)` returns a header with `r' ≠ 0` and index `i`, then
`r' ≥ r + 1`, `i < |F|` after the call, `D` is what it was, the hash `h_i(., r')` is
`modulo(modulo(keyfn(k, μ_i, α_i), m_i), r')`, which is `((keyfn(k, μ_i, α_i) mod m_i) mod r')`
on 64-bit words, its values are below `r'`, and the new key and the keys of the occupied slots
of `D[p .. p+r)` have pairwise distinct hash values.  (The three arrays of the family have one
length, as `add` keeps them.) -/
theorem C17_find_h_postcondition (E : Ext) (T : Table) (budget p r : Nat) (D : data_t)
    (hl1 : T.func_.multiplier_.length = T.func_.h_.length)
    (hl2 : T.func_.adjustment_.length = T.func_.h_.length)
    (hok : (find_h E T budget p r D).1.r_ ≠ 0) :
    r + 1 ≤ (find_h E T budget p r D).1.r_ ∧
    (find_h E T budget p r D).1.i_ < (find_h E T budget p r D).2.func_.size ∧
    (find_h E T budget p r D).2.D_ = T.D_ ∧
    (∀ k, (find_h E T budget p r D).2.func_.h (find_h E T budget p r D).1.i_ k (find_h E T budget p r D).1.r_ =
      modulo (modulo ((find_h E T budget p r D).2.func_.key_ k ((find_h E T budget p r D).2.func_.multiplier (find_h E T budget p r D).1.i_)
          ((find_h E T budget p r D).2.func_.adjustment (find_h E T budget p r D).1.i_))
        ((find_h E T budget p r D).2.func_.modulus (find_h E T budget p r D).1.i_)) (find_h E T budget p r D).1.r_) ∧
    (∀ k, (find_h E T budget p r D).2.func_.key_ k ((find_h E T budget p r D).2.func_.multiplier (find_h E T budget p r D).1.i_)
        ((find_h E T budget p r D).2.func_.adjustment (find_h E T budget p r D).1.i_) < 2 ^ 64 →
      (find_h E T budget p r D).2.func_.modulus (find_h E T budget p r D).1.i_ < 2 ^ 64 → (find_h E T budget p r D).1.r_ < 2 ^ 64 →
      (find_h E T budget p r D).2.func_.h (find_h E T budget p r D).1.i_ k (find_h E T budget p r D).1.r_ =
        (find_h E T budget p r D).2.func_.key_ k ((find_h E T budget p r D).2.func_.multiplier (find_h E T budget p r D).1.i_)
          ((find_h E T budget p r D).2.func_.adjustment (find_h E T budget p r D).1.i_) % (find_h E T budget p r D).2.func_.modulus (find_h E T budget p r D).1.i_ %
          (find_h E T budget p r D).1.r_) ∧
    (∀ k, (find_h E T budget p r D).2.func_.h (find_h E T budget p r D).1.i_ k (find_h E T budget p r D).1.r_ < (find_h E T budget p r D).1.r_) ∧
    (∀ j, j < r → is_free (T.D_.getD (p + j) default) = false →
      (find_h E T budget p r D).2.func_.h (find_h E T budget p r D).1.i_ (T.D_.getD (p + j) default).key_ (find_h E T budget p r D).1.r_ ≠
        (find_h E T budget p r D).2.func_.h (find_h E T budget p r D).1.i_ D.key_ (find_h E T budget p r D).1.r_) ∧
    (∀ j1 j2, j1 < r → j2 < r → j1 ≠ j2 →
      is_free (T.D_.getD (p + j1) default) = false →
      is_free (T.D_.getD (p + j2) default) = false →
      (find_h E T budget p r D).2.func_.h (find_h E T budget p r D).1.i_ (T.D_.getD (p + j1) default).key_ (find_h E T budget p r D).1.r_ ≠
        (find_h E T budget p r D).2.func_.h (find_h E T budget p r D).1.i_ (T.D_.getD (p + j2) default).key_ (find_h E T budget p r D).1.r_) := by
  obtain ⟨s1, s2, s3, _, _, _, _, s8⟩ := find_h_success E T budget p r D hl1 hl2 hok
  have hpos : 0 < (find_h E T budget p r D).1.r_ := Nat.pos_of_ne_zero hok
  obtain ⟨c1, c2⟩ := no_collisions_true _ T.D_ p r _ D.key_
    (fun k => func_h_lt _ _ k hpos) s8
  refine ⟨s2, s3, s1.2.1, fun k => func_h_eq _ _ k _ s3, ?_, fun k => func_h_lt _ _ k hpos,
    c1, c2⟩
  intro k hk hm hr
  rw [func_h_eq _ _ k _ s3, modulo_eq_mod hk hm,
    modulo_eq_mod (lt_of_le_of_lt (Nat.mod_le _ _) hk) hr]

/-- C17 on the table holding `"a"` in the bucket `(p, r) = (1, 1)`, with the new key `"d"`. -/
theorem C17_find_h_postcondition_witness :
    (find_h Ext.simple scenario_a 0 1 1 ⟨bytes "d", 1, 1⟩).1.r_ ≠ 0 ∧
    (1 + 1 ≤ (find_h Ext.simple scenario_a 0 1 1 ⟨bytes "d", 1, 1⟩).1.r_ ∧
    (find_h Ext.simple scenario_a 0 1 1 ⟨bytes "d", 1, 1⟩).1.i_ < (find_h Ext.simple scenario_a 0 1 1 ⟨bytes "d", 1, 1⟩).2.func_.size ∧
    (find_h Ext.simple scenario_a 0 1 1 ⟨bytes "d", 1, 1⟩).2.D_ = scenario_a.D_ ∧
    (∀ k, (find_h Ext.simple scenario_a 0 1 1 ⟨bytes "d", 1, 1⟩).2.func_.h (find_h Ext.simple scenario_a 0 1 1 ⟨bytes "d", 1, 1⟩).1.i_ k (find_h Ext.simple scenario_a 0 1 1 ⟨bytes "d", 1, 1⟩).1.r_ =
      modulo (modulo ((find_h Ext.simple scenario_a 0 1 1 ⟨bytes "d", 1, 1⟩).2.func_.key_ k ((find_h Ext.simple scenario_a 0 1 1 ⟨bytes "d", 1, 1⟩).2.func_.multiplier (find_h Ext.simple scenario_a 0 1 1 ⟨bytes "d", 1, 1⟩).1.i_)
          ((find_h Ext.simple scenario_a 0 1 1 ⟨bytes "d", 1, 1⟩).2.func_.adjustment (find_h Ext.simple scenario_a 0 1 1 ⟨bytes "d", 1, 1⟩).1.i_))
        ((find_h Ext.simple scenario_a 0 1 1 ⟨bytes "d", 1, 1⟩).2.func_.modulus (find_h Ext.simple scenario_a 0 1 1 ⟨bytes "d", 1, 1⟩).1.i_)) (find_h Ext.simple scenario_a 0 1 1 ⟨bytes "d", 1, 1⟩).1.r_) ∧
    (∀ k, (find_h Ext.simple scenario_a 0 1 1 ⟨bytes "d", 1, 1⟩).2.func_.key_ k ((find_h Ext.simple scenario_a 0 1 1 ⟨bytes "d", 1, 1⟩).2.func_.multiplier (find_h Ext.simple scenario_a 0 1 1 ⟨bytes "d", 1, 1⟩).1.i_)
        ((find_h Ext.simple scenario_a 0 1 1 ⟨bytes "d", 1, 1⟩).2.func_.adjustment (find_h Ext.simple scenario_a 0 1 1 ⟨bytes "d", 1, 1⟩).1.i_) < 2 ^ 64 →
      (find_h Ext.simple scenario_a 0 1 1 ⟨bytes "d", 1, 1⟩).2.func_.modulus (find_h Ext.simple scenario_a 0 1 1 ⟨bytes "d", 1, 1⟩).1.i_ < 2 ^ 64 → (find_h Ext.simple scenario_a 0 1 1 ⟨bytes "d", 1, 1⟩).1.r_ < 2 ^ 64 →
      (find_h Ext.simple scenario_a 0 1 1 ⟨bytes "d", 1, 1⟩).2.func_.h (find_h Ext.simple scenario_a 0 1 1 ⟨bytes "d", 1, 1⟩).1.i_ k (find_h Ext.simple scenario_a 0 1 1 ⟨bytes "d", 1, 1⟩).1.r_ =
        (find_h Ext.simple scenario_a 0 1 1 ⟨bytes "d", 1, 1⟩).2.func_.key_ k ((find_h Ext.simple scenario_a 0 1 1 ⟨bytes "d", 1, 1⟩).2.func_.multiplier (find_h Ext.simple scenario_a 0 1 1 ⟨bytes "d", 1, 1⟩).1.i_)
          ((find_h Ext.simple scenario_a 0 1 1 ⟨bytes "d", 1, 1⟩).2.func_.adjustment (find_h Ext.simple scenario_a 0 1 1 ⟨bytes "d", 1, 1⟩).1.i_) % (find_h Ext.simple scenario_a 0 1 1 ⟨bytes "d", 1, 1⟩).2.func_.modulus (find_h Ext.simple scenario_a 0 1 1 ⟨bytes "d", 1, 1⟩).1.i_ %
          (find_h Ext.simple scenario_a 0 1 1 ⟨bytes "d", 1, 1⟩).1.r_) ∧
    (∀ k, (find_h Ext.simple scenario_a 0 1 1 ⟨bytes "d", 1, 1⟩).2.func_.h (find_h Ext.simple scenario_a 0 1 1 ⟨bytes "d", 1, 1⟩).1.i_ k (find_h Ext.simple scenario_a 0 1 1 ⟨bytes "d", 1, 1⟩).1.r_ < (find_h Ext.simple scenario_a 0 1 1 ⟨bytes "d", 1, 1⟩).1.r_) ∧
    (∀ j, j < 1 → is_free (scenario_a.D_.getD (1 + j) default) = false →
      (find_h Ext.simple scenario_a 0 1 1 ⟨bytes "d", 1, 1⟩).2.func_.h (find_h Ext.simple scenario_a 0 1 1 ⟨bytes "d", 1, 1⟩).1.i_ (scenario_a.D_.getD (1 + j) default).key_ (find_h Ext.simple scenario_a 0 1 1 ⟨bytes "d", 1, 1⟩).1.r_ ≠
        (find_h Ext.simple scenario_a 0 1 1 ⟨bytes "d", 1, 1⟩).2.func_.h (find_h Ext.simple scenario_a 0 1 1 ⟨bytes "d", 1, 1⟩).1.i_ (⟨bytes "d", 1, 1⟩ : data_t).key_ (find_h Ext.simple scenario_a 0 1 1 ⟨bytes "d", 1, 1⟩).1.r_) ∧
    (∀ j1 j2, j1 < 1 → j2 < 1 → j1 ≠ j2 →
      is_free (scenario_a.D_.getD (1 + j1) default) = false →
      is_free (scenario_a.D_.getD (1 + j2) default) = false →
      (find_h Ext.simple scenario_a 0 1 1 ⟨bytes "d", 1, 1⟩).2.func_.h (find_h Ext.simple scenario_a 0 1 1 ⟨bytes "d", 1, 1⟩).1.i_ (scenario_a.D_.getD (1 + j1) default).key_ (find_h Ext.simple scenario_a 0 1 1 ⟨bytes "d", 1, 1⟩).1.r_ ≠
        (find_h Ext.simple scenario_a 0 1 1 ⟨bytes "d", 1, 1⟩).2.func_.h (find_h Ext.simple scenario_a 0 1 1 ⟨bytes "d", 1, 1⟩).1.i_ (scenario_a.D_.getD (1 + j2) default).key_ (find_h Ext.simple scenario_a 0 1 1 ⟨bytes "d", 1, 1⟩).1.r_)) :=
  ⟨by decide!, C17_find_h_postcondition Ext.simple scenario_a 0 1 1 ⟨bytes "d", 1, 1⟩
    (by decide!) (by decide!) (by decide!)⟩

end Table
end pph

namespace pph
namespace Table

/-! ## The triple that `find_h` appends -/

theorem make_odd_odd (x : Nat) : make_odd x % 2 = 1 := by
  unfold make_odd
  rw [Nat.and_one_is_mod]
  split <;> omega

theorem advance_odd_odd : ∀ (fuel x y : Nat), x % 2 = 1 → advance_odd fuel x y % 2 = 1 := by
  intro fuel
  induction fuel with
  | zero => intro x y h; exact h
  | succ f ih =>
    intro x y h
    unfold advance_odd
    split
    · exact ih _ _ (by omega)
    · exact h

theorem advance_odd_coprime_succ (f x y : Nat) (ho : x % 2 = 1) (hf : 2 ^ 63 - 1 ≤ f) :
    gcd_binary (advance_odd (f + 1) x y) y = 1 := by
  unfold advance_odd
  split
  · exact advance_odd_coprime_aux f _ y (Nat.mod_lt _ (by norm_num)) (by omega) (by omega)
  · rename_i hg
    simpa using hg

/-- The loops `x += 2` of `find_h`, started at any odd value, end with `gcd_binary(x, y) == 1`. -/
theorem advance_odd_coprime_any (x y : Nat) (ho : x % 2 = 1) :
    gcd_binary (advance_odd (2 ^ 63) x y) y = 1 :=
  advance_odd_coprime_succ (2 ^ 63 - 1) x y ho (le_refl _)

/-- The candidate of the generate loop: multiplier and modulus are odd, the multiplier passes
the test against `next_r` and the modulus the test against the multiplier. -/
theorem candidate_spec (E : Ext) (T : Table) (i next_r : Nat) :
    (candidate E T i next_r).1 % 2 = 1 ∧ (candidate E T i next_r).2.1 % 2 = 1 ∧
    gcd_binary (candidate E T i next_r).2.1 next_r = 1 ∧
    gcd_binary (candidate E T i next_r).1 (candidate E T i next_r).2.1 = 1 := by
  unfold candidate
  dsimp only
  exact ⟨advance_odd_odd _ _ _ (make_odd_odd _), advance_odd_odd _ _ _ (make_odd_odd _),
    advance_odd_coprime_any _ _ (make_odd_odd _), advance_odd_coprime_any _ _ (make_odd_odd _)⟩

/-- A successful candidate: the triple appended and the header returned. -/
theorem try_candidate_triple (E : Ext) (p r : Nat) (D : data_t) (i next_r : Nat) (T : Table)
    (h : (try_candidate E p r D i next_r T).1 = true) :
    (try_candidate E p r D i next_r T).2.1 =
      { p_ := 0, i_ := T.func_.h_.length, r_ := next_r } ∧
    (try_candidate E p r D i next_r T).2.2.func_.h_ =
      T.func_.h_ ++ [(candidate E T i next_r).1] ∧
    (try_candidate E p r D i next_r T).2.2.func_.multiplier_ =
      T.func_.multiplier_ ++ [(candidate E T i next_r).2.1] ∧
    (try_candidate E p r D i next_r T).2.2.func_.adjustment_ =
      T.func_.adjustment_ ++ [(suggest_all T.func_ T.D_ p next_r (candidate E T i next_r).1
        (candidate E T i next_r).2.1 D.key_).1] := by
  have hs := suggest_all_same T.func_ T.D_ p next_r (candidate E T i next_r).1
    (candidate E T i next_r).2.1 D.key_
  unfold try_candidate at h ⊢
  dsimp only at h ⊢
  split
  · refine ⟨?_, ?_, ?_, ?_⟩
    · simp only [func_t.add, List.length_append, List.length_singleton, Nat.add_sub_cancel, hs.1]
    · simp only [func_t.add, hs.1]
    · simp only [func_t.add, hs.2.1]
    · simp only [func_t.add, hs.2.2.1]
  · rename_i hc
    rw [if_neg hc] at h
    exact absurd h (by simp)

/-- A successful generate loop: the triple appended is the candidate of some iteration, drawn
in a table that differs from the first one in the generator only, with the adjustment that
the adjustment loop gave for it, and the header holds its index and its size. -/
theorem find_h_generate_triple (E : Ext) (p r : Nat) (D : data_t) :
    ∀ (budget i attempts next_r : Nat) (T : Table),
    (find_h_generate E p r D budget i attempts next_r T).1.r_ ≠ 0 →
    ∃ i1 nr T1, Frame T T1 ∧ SameFamily T.func_ T1.func_ ∧ next_r ≤ nr ∧
      (find_h_generate E p r D budget i attempts next_r T).1 =
        { p_ := 0, i_ := T.func_.h_.length, r_ := nr } ∧
      (find_h_generate E p r D budget i attempts next_r T).2.func_.h_ =
        T.func_.h_ ++ [(candidate E T1 i1 nr).1] ∧
      (find_h_generate E p r D budget i attempts next_r T).2.func_.multiplier_ =
        T.func_.multiplier_ ++ [(candidate E T1 i1 nr).2.1] ∧
      (find_h_generate E p r D budget i attempts next_r T).2.func_.adjustment_ =
        T.func_.adjustment_ ++ [(suggest_all T1.func_ T1.D_ p nr (candidate E T1 i1 nr).1
          (candidate E T1 i1 nr).2.1 D.key_).1] := by
  intro budget
  induction budget with
  | zero =>
    intro i attempts next_r T hok
    unfold find_h_generate at hok ⊢
    dsimp only at hok ⊢
    by_cases h1 : (try_candidate E p r D i next_r T).1 = true
    · rw [if_pos h1]
      obtain ⟨a, b, c, d⟩ := try_candidate_triple E p r D i next_r T h1
      exact ⟨i, next_r, T, frame_refl T, same_family_refl _, le_refl _, a, b, c, d⟩
    · rw [if_neg h1] at hok
      exact absurd rfl hok
  | succ b ih =>
    intro i attempts next_r T hok
    obtain ⟨hf, hc⟩ := try_candidate_spec E p r D i next_r T
    unfold find_h_generate at hok ⊢
    dsimp only at hok ⊢
    by_cases h1 : (try_candidate E p r D i next_r T).1 = true
    · rw [if_pos h1]
      obtain ⟨a, b', c, d⟩ := try_candidate_triple E p r D i next_r T h1
      exact ⟨i, next_r, T, frame_refl T, same_family_refl _, le_refl _, a, b', c, d⟩
    · rw [if_neg h1] at hok ⊢
      have hsame : SameFamily T.func_ (try_candidate E p r D i next_r T).2.2.func_ := by
        rcases hc with ⟨_, _, h3⟩ | ⟨h1', _⟩
        · exact h3
        · exact absurd h1' h1
      have key : ∀ (att nr0 : Nat), next_r ≤ nr0 →
          (find_h_generate E p r D b (i + 1) att nr0
            (try_candidate E p r D i next_r T).2.2).1.r_ ≠ 0 →
          ∃ i1 nr T1, Frame T T1 ∧ SameFamily T.func_ T1.func_ ∧ next_r ≤ nr ∧
            (find_h_generate E p r D b (i + 1) att nr0
              (try_candidate E p r D i next_r T).2.2).1 =
              { p_ := 0, i_ := T.func_.h_.length, r_ := nr } ∧
            (find_h_generate E p r D b (i + 1) att nr0
              (try_candidate E p r D i next_r T).2.2).2.func_.h_ =
              T.func_.h_ ++ [(candidate E T1 i1 nr).1] ∧
            (find_h_generate E p r D b (i + 1) att nr0
              (try_candidate E p r D i next_r T).2.2).2.func_.multiplier_ =
              T.func_.multiplier_ ++ [(candidate E T1 i1 nr).2.1] ∧
            (find_h_generate E p r D b (i + 1) att nr0
              (try_candidate E p r D i next_r T).2.2).2.func_.adjustment_ =
              T.func_.adjustment_ ++ [(suggest_all T1.func_ T1.D_ p nr (candidate E T1 i1 nr).1
                (candidate E T1 i1 nr).2.1 D.key_).1] := by
        intro att nr0 hnr hok'
        obtain ⟨i1, nr, T1, g1, g2, g3, g4, g5, g6, g7⟩ := ih (i + 1) att nr0 _ hok'
        rw [hsame.1] at g4 g5
        rw [hsame.2.1] at g6
        rw [hsame.2.2.1] at g7
        exact ⟨i1, nr, T1, frame_trans hf g1, same_family_trans hsame g2, le_trans hnr g3,
          g4, g5, g6, g7⟩
      by_cases h2 : attempts + 1 ≥ DEFAULT_ATTEMPTS
      · rw [if_pos h2] at hok ⊢
        exact key 0 (next_r + 1) (Nat.le_succ _) hok
      · rw [if_neg h2] at hok ⊢
        exact key (attempts + 1) next_r (le_refl _) hok

/-- When `find_h` makes the family longer, it appends one triple, the candidate of some
iteration of the generate loop, and returns its index with the size of that iteration. -/
theorem find_h_triple (E : Ext) (T : Table) (budget p r : Nat) (D : data_t)
    (hgrow : T.func_.size < (find_h E T budget p r D).2.func_.size) :
    ∃ i1 nr T1, Frame T T1 ∧ SameFamily T.func_ T1.func_ ∧ r + 1 ≤ nr ∧
      (find_h E T budget p r D).1 = { p_ := 0, i_ := T.func_.h_.length, r_ := nr } ∧
      (find_h E T budget p r D).2.func_.h_ = T.func_.h_ ++ [(candidate E T1 i1 nr).1] ∧
      (find_h E T budget p r D).2.func_.multiplier_ =
        T.func_.multiplier_ ++ [(candidate E T1 i1 nr).2.1] ∧
      (find_h E T budget p r D).2.func_.adjustment_ =
        T.func_.adjustment_ ++ [(suggest_all T1.func_ T1.D_ p nr (candidate E T1 i1 nr).1
          (candidate E T1 i1 nr).2.1 D.key_).1] := by
  unfold find_h at hgrow ⊢
  dsimp only at hgrow ⊢
  split
  · rename_i i hfind
    rw [hfind] at hgrow
    exact absurd hgrow (lt_irrefl _)
  · rename_i hfind
    rw [hfind] at hgrow
    dsimp only at hgrow
    obtain ⟨_, hc⟩ := find_h_generate_spec E p r D budget 0 0 (r + 1) T
    apply find_h_generate_triple E p r D budget 0 0 (r + 1) T
    rcases hc with ⟨_, hs⟩ | ⟨m, mu, a, nr, hnr, h0, _⟩
    · unfold func_t.size at hgrow
      rw [hs.1] at hgrow
      exact absurd hgrow (lt_irrefl _)
    · rw [h0]
      show nr ≠ 0
      omega

end Table
end pph

namespace pph
namespace Table

/-- C18: when `find_h` makes the family longer, the triple `(m, μ, α)` it appends, returned with
the bucket size `r'`, has `gcd(μ, r') = 1` and `gcd(m, μ) = 1`, and `m` and `μ` are odd; the
header returned holds the index of the triple.  (The arrays of the family have one length, and
`r'`, `m`, `μ` are 64-bit words.) -/
theorem C18_appended_triple_coprime (E : Ext) (T : Table) (budget p r : Nat) (D : data_t)
    (hl1 : T.func_.multiplier_.length = T.func_.h_.length)
    (hgrow : T.func_.size < (find_h E T budget p r D).2.func_.size)
    (hr64 : (find_h E T budget p r D).1.r_ < 2 ^ 64)
    (hm64 : (find_h E T budget p r D).2.func_.modulus T.func_.size < 2 ^ 64)
    (hmu64 : (find_h E T budget p r D).2.func_.multiplier T.func_.size < 2 ^ 64) :
    (find_h E T budget p r D).1.i_ = T.func_.size ∧
    (find_h E T budget p r D).2.func_.size = T.func_.size + 1 ∧
    Nat.gcd ((find_h E T budget p r D).2.func_.multiplier T.func_.size)
      (find_h E T budget p r D).1.r_ = 1 ∧
    Nat.gcd ((find_h E T budget p r D).2.func_.modulus T.func_.size)
      ((find_h E T budget p r D).2.func_.multiplier T.func_.size) = 1 ∧
    (find_h E T budget p r D).2.func_.modulus T.func_.size % 2 = 1 ∧
    (find_h E T budget p r D).2.func_.multiplier T.func_.size % 2 = 1 := by
  obtain ⟨i1, nr, T1, _, _, _, g4, g5, g6, _⟩ := find_h_triple E T budget p r D hgrow
  obtain ⟨c1, c2, c3, c4⟩ := candidate_spec E T1 i1 nr
  have em : (find_h E T budget p r D).2.func_.modulus T.func_.size = (candidate E T1 i1 nr).1 := by
    unfold func_t.modulus func_t.size
    rw [g5]
    exact getD_append_singleton_length _ _
  have emu : (find_h E T budget p r D).2.func_.multiplier T.func_.size =
      (candidate E T1 i1 nr).2.1 := by
    unfold func_t.multiplier func_t.size
    rw [g6, ← hl1]
    exact getD_append_singleton_length _ _
  have er : (find_h E T budget p r D).1.r_ = nr := by rw [g4]
  rw [em] at hm64 ⊢
  rw [emu] at hmu64 ⊢
  rw [er] at hr64 ⊢
  rw [gcd_binary_eq_gcd _ _ hmu64 hr64] at c3
  rw [gcd_binary_eq_gcd _ _ hm64 hmu64] at c4
  refine ⟨by rw [g4]; rfl, ?_, c3, c4, c1, c2⟩
  unfold func_t.size
  rw [g5, List.length_append, List.length_singleton]

/-- C18 on the table holding `"a"` in the bucket `(p, r) = (1, 1)`, with the new key `"d"`: the
triple `(201, 65, .)` is appended for the size 2. -/
theorem C18_appended_triple_coprime_witness :
    (scenario_a.func_.multiplier_.length = scenario_a.func_.h_.length ∧
     scenario_a.func_.size <
       (find_h Ext.simple scenario_a 0 1 1 ⟨bytes "d", 1, 1⟩).2.func_.size) ∧
    (find_h Ext.simple scenario_a 0 1 1 ⟨bytes "d", 1, 1⟩).1.i_ = scenario_a.func_.size ∧
    (find_h Ext.simple scenario_a 0 1 1 ⟨bytes "d", 1, 1⟩).2.func_.size =
      scenario_a.func_.size + 1 ∧
    Nat.gcd ((find_h Ext.simple scenario_a 0 1 1 ⟨bytes "d", 1, 1⟩).2.func_.multiplier
        scenario_a.func_.size)
      (find_h Ext.simple scenario_a 0 1 1 ⟨bytes "d", 1, 1⟩).1.r_ = 1 ∧
    Nat.gcd ((find_h Ext.simple scenario_a 0 1 1 ⟨bytes "d", 1, 1⟩).2.func_.modulus
        scenario_a.func_.size)
      ((find_h Ext.simple scenario_a 0 1 1 ⟨bytes "d", 1, 1⟩).2.func_.multiplier
        scenario_a.func_.size) = 1 ∧
    (find_h Ext.simple scenario_a 0 1 1 ⟨bytes "d", 1, 1⟩).2.func_.modulus
      scenario_a.func_.size % 2 = 1 ∧
    (find_h Ext.simple scenario_a 0 1 1 ⟨bytes "d", 1, 1⟩).2.func_.multiplier
      scenario_a.func_.size % 2 = 1 :=
  ⟨⟨by decide!, by decide!⟩,
   C18_appended_triple_coprime Ext.simple scenario_a 0 1 1 ⟨bytes "d", 1, 1⟩ (by decide!)
     (by decide!) (by decide!) (by decide!) (by decide!)⟩

/-- C19 fails on the code: the adjustment kept is the value returned by the last call of
`suggest_adjustment`, and the calls run over `D[p + j]` for `j < r'`, one slot past the window.
After `setup(3, true, 1.0, ...)` with the DJB parameters, the inserts of `"a"` and `"d"` (the
insertion loop of `load`) rebuild the
bucket of `"a"` (window `p = 1`, `r = 1`) with the triple `(201, 65, α)`: the bounds
`m·K − keyfn(k, μ, 0)` of the new key `"d"` and of `"a"` are `2010000000 − 100` and
`2010000000 − 97`, but `α = 2010000000`, the bound of the empty key of the free slot `D[2]`.
With the inserts of `"a"`, `"zzzzzz"`, `"d"` the slot `D[2]` holds `"zzzzzz"`, whose hash is above
`m·K`: the last call returns 0 and `α = 0`, below both bounds. -/
theorem C19_adjustment_is_last_suggestion :
    (load_loop Ext.simple (fun _ => 0) [bytes "a", bytes "d"] [0, 1] 0
      (({} : Table).setup 3 true 1 60000 1 65 0 djb_hash)).1 = true ∧
    (load_loop Ext.simple (fun _ => 0) [bytes "a", bytes "d"] [0, 1] 0
      (({} : Table).setup 3 true 1 60000 1 65 0 djb_hash)).2.func_.h_ = [0, 201] ∧
    (load_loop Ext.simple (fun _ => 0) [bytes "a", bytes "d"] [0, 1] 0
      (({} : Table).setup 3 true 1 60000 1 65 0 djb_hash)).2.func_.multiplier_ = [0, 65] ∧
    (load_loop Ext.simple (fun _ => 0) [bytes "a", bytes "d"] [0, 1] 0
      (({} : Table).setup 3 true 1 60000 1 65 0 djb_hash)).2.func_.adjustment_ = [0, 2010000000] ∧
    djb_hash (bytes "a") 65 0 = 97 ∧ djb_hash (bytes "d") 65 0 = 100 ∧
    max (201 * KEY_ADJUSTMENT_FACTOR - 97) (201 * KEY_ADJUSTMENT_FACTOR - 100) = 2009999903 ∧
    (load_loop Ext.simple (fun _ => 0) [bytes "a", bytes "zzzzzz", bytes "d"] [0, 1, 2] 0
      (({} : Table).setup 3 true 1 60000 1 65 0 djb_hash)).1 = true ∧
    (load_loop Ext.simple (fun _ => 0) [bytes "a", bytes "zzzzzz", bytes "d"] [0, 1, 2] 0
      (({} : Table).setup 3 true 1 60000 1 65 0 djb_hash)).2.func_.h_ = [0, 201] ∧
    (load_loop Ext.simple (fun _ => 0) [bytes "a", bytes "zzzzzz", bytes "d"] [0, 1, 2] 0
      (({} : Table).setup 3 true 1 60000 1 65 0 djb_hash)).2.func_.multiplier_ = [0, 65] ∧
    (load_loop Ext.simple (fun _ => 0) [bytes "a", bytes "zzzzzz", bytes "d"] [0, 1, 2] 0
      (({} : Table).setup 3 true 1 60000 1 65 0 djb_hash)).2.func_.adjustment_ = [0, 0] := by
  decide!

end Table
end pph

namespace pph
namespace Table

/-! ## The effect of `move_nonoverlap` -/

end Table
end pph

namespace pph

/-! ## The key functions and the escape of keys -/

/-- C28: for `djb_hash`, `fnv64a_hash` and `oat_hash`, every key, multiplier and adjustment:
`f(k, μ, α) = (f(k, μ, 0) + α) mod 2^64`. -/
theorem C28_adjustment_added_after_mixing (k : List Nat) (mu alpha : Nat) :
    djb_hash k mu alpha = (djb_hash k mu 0 + alpha) % 2 ^ 64 ∧
    fnv64a_hash k mu alpha = (fnv64a_hash k mu 0 + alpha) % 2 ^ 64 ∧
    oat_hash k mu alpha = (oat_hash k mu 0 + alpha) % 2 ^ 64 := by
  refine ⟨?_, ?_, ?_⟩
  · unfold djb_hash
    omega
  · unfold fnv64a_hash
    omega
  · unfold oat_hash
    dsimp only
    omega

/-- C23 fails on the code: `escape_string` converts the `char` to `unsigned int`, which extends
the sign of a byte `≥ 0x80`, so the byte `0x80` is written as backslash, `x` and the eight
digits `FFFFFF80`, and `unescape_string` reads back the byte `0xFF` followed by `FF80`.  On
bytes below `0x80` the round trip holds: alphanumeric bytes are left unchanged, every other
byte is written as backslash, `x` and 4 uppercase hexadecimal digits, and unescaping gives the
string back. -/
theorem C23_escape_round_trip_fails_on_high_bytes :
    escape_string [128] = bytes "\\xFFFFFF80" ∧
    unescape_string (escape_string [128]) = [255, 70, 70, 56, 48] ∧
    unescape_string (escape_string [128]) ≠ [128] ∧
    (∀ s : List Nat, (∀ c, c ∈ s → c < 128) → unescape_string (escape_string s) = s) ∧
    (∀ c, c < 128 → isalnum c = true → escape_string [c] = [c]) ∧
    (∀ c, c < 128 → isalnum c = false →
      (escape_string [c]).length = 6 ∧ (escape_string [c]).take 2 = [92, 120] ∧
        ∀ d, d ∈ (escape_string [c]).drop 2 → (48 ≤ d ∧ d ≤ 57) ∨ (65 ≤ d ∧ d ≤ 70)) := by
  refine ⟨by decide!, by decide!, by decide!, unescape_escape, ?_, ?_⟩
  · decide!
  · decide!

namespace Table

/-! ## Growth of the arrays -/

theorem find_r_length_le (T : Table) (src size newsize : Nat) :
    T.D_.length ≤ (T.find_r src size newsize).2.D_.length := by
  unfold find_r
  dsimp only
  split
  · exact le_refl _
  · split
    · dsimp only
      rw [length_resize]
      exact Nat.le_add_right _ _
    · dsimp only
      rw [length_resize]
      exact Nat.le_add_right _ _

theorem find_h_family_le (E : Ext) (T : Table) (budget p r : Nat) (D : data_t) :
    T.func_.size ≤ (find_h E T budget p r D).2.func_.size := by
  obtain ⟨_, hc⟩ := find_h_spec E T budget p r D
  unfold func_t.size
  rcases hc with ⟨_, hs⟩ | ⟨i, _, _, _, hs, _⟩ | ⟨m, mu, a, nr, _, _, e1, _⟩
  · rw [hs.1]
  · rw [hs.1]
  · rw [e1, List.length_append]
    exact Nat.le_add_right _ _

/-- C22: for every table and every call `insert(k, v)`, whatever it returns, `|D|` and `|F|` do
not shrink and the header array keeps its size. -/
theorem C22_monotone_growth (E : Ext) (T : Table) (budget : Nat) (k : List Nat) (v : Nat) :
    T.D_.length ≤ (T.insert E budget k v).2.D_.length ∧
    T.func_.size ≤ (T.insert E budget k v).2.func_.size ∧
    (T.insert E budget k v).2.H_.length = T.H_.length := by
  by_cases hr : (T.H_.getD (T.h (c_str k)) default).r_ = 0
  · rw [insert_of_empty_bucket E T budget k v hr]
    obtain ⟨q1, q2, _⟩ := find_r_fields T 0 1 1
    have hl := find_r_length_le T 0 1 1
    unfold insert_fresh
    dsimp only
    refine ⟨by rw [List.length_set]; exact hl, by rw [q2], by rw [List.length_set, q1]⟩
  · obtain ⟨hf, _⟩ := find_h_spec E T budget (T.H_.getD (T.h (c_str k)) default).p_
      (T.H_.getD (T.h (c_str k)) default).r_
      { key_ := c_str k, val_ := v, idx_ := T.h (c_str k) }
    have hF := find_h_family_le E T budget (T.H_.getD (T.h (c_str k)) default).p_
      (T.H_.getD (T.h (c_str k)) default).r_
      { key_ := c_str k, val_ := v, idx_ := T.h (c_str k) }
    generalize hfh : find_h E T budget (T.H_.getD (T.h (c_str k)) default).p_
      (T.H_.getD (T.h (c_str k)) default).r_
      { key_ := c_str k, val_ := v, idx_ := T.h (c_str k) } = fh at hf hF
    obtain ⟨fH, fD, _⟩ := hf
    obtain ⟨q1, q2, _⟩ := find_r_fields fh.2 (T.H_.getD (T.h (c_str k)) default).p_
      (T.H_.getD (T.h (c_str k)) default).r_ fh.1.r_
    have hl := find_r_length_le fh.2 (T.H_.getD (T.h (c_str k)) default).p_
      (T.H_.getD (T.h (c_str k)) default).r_ fh.1.r_
    generalize hfr : fh.2.find_r (T.H_.getD (T.h (c_str k)) default).p_
      (T.H_.getD (T.h (c_str k)) default).r_ fh.1.r_ = fr at q1 q2 hl
    rw [fD] at hl
    have hFr : T.func_.size ≤ fr.2.func_.size := by rw [q2]; exact hF
    have hHr : fr.2.H_.length = T.H_.length := by rw [q1, fH]
    unfold insert
    dsimp only
    rw [if_neg hr, hfh]
    by_cases h1 : fh.1.r_ = 0
    · rw [if_pos h1]
      exact ⟨by rw [fD], hF, by rw [fH]⟩
    · rw [if_neg h1, hfr]
      by_cases h2 : fr.1 = UINT64_MAX
      · rw [if_pos h2]
        exact ⟨hl, hFr, hHr⟩
      · rw [if_neg h2]
        unfold move_nonoverlap
        split
        · dsimp only
          refine ⟨by rw [List.length_set]; exact hl, hFr, by rw [List.length_set]; exact hHr⟩
        · dsimp only
          refine ⟨by rw [List.length_set, move_fold_length]; exact hl, hFr,
            by rw [List.length_set]; exact hHr⟩

end Table
end pph

namespace pph

/-! ## The arithmetic helpers: `gcd_binary`, `PowerOfTwo`, `XorShift1024Star`, bit scans -/

/-- C32: for all 64-bit `u` and `v` the function `gcd_binary`, whose loop is given `u + v`
iterations, returns the greatest common divisor of `u` and `v`; `gcd_binary(0, v) = v` and
`gcd_binary(u, 0) = u`. -/
theorem C32_gcd_binary_computes_gcd (u v : Nat) (hu : u < 2 ^ 64) (hv : v < 2 ^ 64) :
    gcd_binary u v = Nat.gcd u v ∧ gcd_binary 0 v = v ∧ gcd_binary u 0 = u := by
  refine ⟨gcd_binary_eq_gcd u v hu hv, rfl, ?_⟩
  unfold gcd_binary
  by_cases h : u = 0
  · rw [if_pos h, h]
  · rw [if_neg h, if_pos rfl]

/-- C32 at `u = 12`, `v = 18`. -/
theorem C32_gcd_binary_computes_gcd_witness :
    gcd_binary 12 18 = Nat.gcd 12 18 ∧ gcd_binary 0 18 = 18 ∧ gcd_binary 12 0 = 12 :=
  C32_gcd_binary_computes_gcd 12 18 (by decide) (by decide)

theorem RoundUpPowerOf2_succ_pow {k : Nat} (hk : k ≤ 62) :
    RoundUpPowerOf2 ((2 ^ k + 1) % 2 ^ 64) = 2 ^ (k + 1) := by
  have hle : 2 ^ k ≤ 2 ^ 62 := Nat.pow_le_pow_right (by norm_num) hk
  have hmod : (2 ^ k + 1) % 2 ^ 64 = 2 ^ k + 1 := Nat.mod_eq_of_lt (by omega)
  have hpos : 0 < 2 ^ k := Nat.pow_pos (by norm_num)
  rw [hmod]
  obtain ⟨j, e, h1, h2⟩ := RoundUpPowerOf2_spec (by omega : 1 ≤ 2 ^ k + 1)
    (by omega : 2 ^ k + 1 ≤ 2 ^ 63)
  have hj1 : j ≤ k + 1 := h2 (k + 1) (by rw [pow_succ]; omega)
  have hj2 : k < j := by
    by_contra hcon
    have : 2 ^ j ≤ 2 ^ k := Nat.pow_le_pow_right (by norm_num) (by omega)
    omega
  have hj : j = k + 1 := by omega
  rw [e, hj]

/-- C33, as the code has it: for every `v` with `1 ≤ v ≤ 2^63`, `PowerOfTwo` seeded with `v` returns from
`next()` the least power of two `≥ v`; for `v ≤ 2^62` the following call of `next()` returns
the next power of two, and for `2^62 < v` it returns 0. -/
theorem C33_round_up_power_of_two (P : PowerOfTwo) (v : Nat) (h1 : 1 ≤ v) (h2 : v ≤ 2 ^ 63) :
    ∃ k, (P.seed v).next.1 = 2 ^ k ∧ v ≤ 2 ^ k ∧ (∀ j, v ≤ 2 ^ j → k ≤ j) ∧
      (v ≤ 2 ^ 62 → (P.seed v).next.2.next.1 = 2 ^ (k + 1) ∧
        (P.seed v).next.1 < (P.seed v).next.2.next.1) ∧
      (2 ^ 62 < v → (P.seed v).next.2.next.1 = 0) := by
  have hmod : v % 2 ^ 64 = v := Nat.mod_eq_of_lt (by omega)
  obtain ⟨k, e, hk1, hk2⟩ := RoundUpPowerOf2_spec h1 h2
  have e1 : (P.seed v).next.1 = 2 ^ k := by
    unfold PowerOfTwo.seed PowerOfTwo.next
    dsimp only
    rw [hmod, e]
  have e2 : (P.seed v).next.2.next.1 = RoundUpPowerOf2 ((2 ^ k + 1) % 2 ^ 64) := by
    unfold PowerOfTwo.seed PowerOfTwo.next
    dsimp only
    rw [hmod, e]
  have hk63 : k ≤ 63 := hk2 63 h2
  refine ⟨k, e1, hk1, hk2, ?_, ?_⟩
  · intro hv
    have hk62 : k ≤ 62 := hk2 62 hv
    rw [e2, e1, RoundUpPowerOf2_succ_pow hk62]
    refine ⟨rfl, ?_⟩
    rw [pow_succ]
    have hpos : 0 < 2 ^ k := Nat.pow_pos (by norm_num)
    omega
  · intro hv
    have hk : k = 63 := by
      by_contra hcon
      have : 2 ^ k ≤ 2 ^ 62 := Nat.pow_le_pow_right (by norm_num) (by omega)
      omega
    rw [e2, hk]
    decide

/-- C33 at `v = 5`: `next()` returns 8, then 16. -/
theorem C33_round_up_power_of_two_witness :
    ∃ k, ((({} : PowerOfTwo).seed 5).next).1 = 2 ^ k ∧ 5 ≤ 2 ^ k ∧ (∀ j, 5 ≤ 2 ^ j → k ≤ j) ∧
      (5 ≤ 2 ^ 62 → (({} : PowerOfTwo).seed 5).next.2.next.1 = 2 ^ (k + 1) ∧
        (({} : PowerOfTwo).seed 5).next.1 < (({} : PowerOfTwo).seed 5).next.2.next.1) ∧
      (2 ^ 62 < 5 → (({} : PowerOfTwo).seed 5).next.2.next.1 = 0) :=
  C33_round_up_power_of_two {} 5 (by decide) (by decide)

/-- C33 fails as stated: seeded with `v = 2^63`, `next()` returns `2^63` and the following
call returns 0, which is neither a power of two nor larger. -/
theorem C33_counterexample :
    (1 : Nat) ≤ 2 ^ 63 ∧ (2 : Nat) ^ 63 ≤ 2 ^ 63 ∧
    (({} : PowerOfTwo).seed (2 ^ 63)).next.1 = 2 ^ 63 ∧
    (({} : PowerOfTwo).seed (2 ^ 63)).next.2.next.1 = 0 ∧
    ¬ ((({} : PowerOfTwo).seed (2 ^ 63)).next.1 <
      (({} : PowerOfTwo).seed (2 ^ 63)).next.2.next.1) := by
  decide

theorem mk_seeded_words (x : Nat) :
    (XorShift1024Star.mk_seeded x).s_ = SplitMix64.stream 16 (({} : SplitMix64).seed x) := by
  unfold XorShift1024Star.mk_seeded XorShift1024Star.Init
  simp only [XorShift1024Star.fill, SplitMix64.stream, List.replicate, List.set]

theorem mk_seeded_index (x : Nat) : (XorShift1024Star.mk_seeded x).p_ = 0 := by
  unfold XorShift1024Star.mk_seeded
  dsimp only

theorem seed_index (G : XorShift1024Star) (x : Nat) : (G.seed x).p_ = G.p_ := by
  cases G
  rfl

theorem reseeded_index : ((XorShift1024Star.mk_seeded 0).next.2.seed 0).p_ = 1 := by decide!

theorem reseeded_words :
    ((XorShift1024Star.mk_seeded 0).next.2.seed 0).s_ = (XorShift1024Star.mk_seeded 0).s_ := by
  decide!

theorem reseeded_first_value :
    ((XorShift1024Star.mk_seeded 0).next.2.seed 0).next.1 ≠
      (XorShift1024Star.mk_seeded 0).next.1 := by
  decide!

theorem reseeded_stream :
    XorShift1024Star.stream 3 ((XorShift1024Star.mk_seeded 0).next.2.seed 0) ≠
      XorShift1024Star.stream 3 (XorShift1024Star.mk_seeded 0) := by
  decide!

/-- C34 fails on the code: `seed` calls `Init`, which fills the 16 state words and leaves the
index `p_` alone, while the constructor sets `p_ = 0`.  A generator constructed with seed 0
that has produced one value and is seeded with 0 again has `p_ = 1`, and its next value is
not the first value of `XorShift1024Star(0)`.  The 16 words of a newly constructed generator
are the first 16 outputs of `SplitMix64` for the seed, and its index is 0. -/
theorem C34_seed_keeps_index :
    ((XorShift1024Star.mk_seeded 0).next.2.seed 0).p_ = 1 ∧
    (XorShift1024Star.mk_seeded 0).p_ = 0 ∧
    ((XorShift1024Star.mk_seeded 0).next.2.seed 0).s_ = (XorShift1024Star.mk_seeded 0).s_ ∧
    ((XorShift1024Star.mk_seeded 0).next.2.seed 0).next.1 ≠
      (XorShift1024Star.mk_seeded 0).next.1 ∧
    XorShift1024Star.stream 3 ((XorShift1024Star.mk_seeded 0).next.2.seed 0) ≠
      XorShift1024Star.stream 3 (XorShift1024Star.mk_seeded 0) ∧
    (∀ (G : XorShift1024Star) (x : Nat), (G.seed x).p_ = G.p_) ∧
    (∀ x : Nat, (XorShift1024Star.mk_seeded x).p_ = 0 ∧
      (XorShift1024Star.mk_seeded x).s_ = SplitMix64.stream 16 (({} : SplitMix64).seed x)) :=
  ⟨reseeded_index, mk_seeded_index 0, reseeded_words, reseeded_first_value, reseeded_stream,
    seed_index, fun x => ⟨mk_seeded_index x, mk_seeded_words x⟩⟩

theorem bitScanReverse_eq_smear (bb : Nat) :
    bitScanReverse bb = bitScanReverse.index64.getD (((smear bb * debruijn64) % 2 ^ 64) >>> 58) 0 :=
  rfl

theorem bsr_table : ∀ i, i < 64 →
    bitScanReverse.index64.getD ((((2 ^ (i + 1) - 1) * debruijn64) % 2 ^ 64) >>> 58) 0 = 63 - i := by
  decide!

/-- C36 fails on the code: the table of `bitScanReverse` is stored in the reverse order, so
the function returns 63 minus the index of the most significant one bit (the number of leading
zeros): `bitScanReverse(1) = 63`, `bitScanReverse(2^63) = 0`, and in general, if bit `i < 64`
of `bb` is its most significant one bit, the result is `63 - i`. -/
theorem C36_bitScanReverse_counts_leading_zeros :
    bitScanReverse 1 = 63 ∧ bitScanReverse (2 ^ 63) = 0 ∧
    (∀ bb i, i < 64 → bb.testBit i = true → (∀ j, i < j → bb.testBit j = false) →
      bitScanReverse bb = 63 - i) := by
  refine ⟨by decide!, by decide!, ?_⟩
  intro bb i hi hb hhi
  rw [bitScanReverse_eq_smear, smear_eq hi hb hhi]
  exact bsr_table i hi

end pph

namespace pph

/-! ## `bitScanForward` -/

theorem CTZ_lt {x : Nat} (h1 : 0 < x) (h2 : x < 2 ^ 64) : CTZ x < 64 := by
  obtain ⟨e, ho⟩ := CTZ_spec h1 h2
  generalize CTZ x = c at e ho ⊢
  generalize x >>> c = m at e ho
  by_contra hcon
  have hle : 2 ^ 64 ≤ 2 ^ c := Nat.pow_le_pow_right (by norm_num) (by omega)
  have hm : 1 ≤ m := by omega
  have hmul : 2 ^ c * 1 ≤ 2 ^ c * m := Nat.mul_le_mul_left _ hm
  rw [← e, Nat.mul_one] at hmul
  omega

/-- The word `bb & -bb` holds the least significant one bit of `bb` alone. -/
theorem and_neg_eq_pow {bb : Nat} (h1 : 0 < bb) (h2 : bb < 2 ^ 64) :
    bb &&& ((2 ^ 64 - bb) % 2 ^ 64) = 2 ^ CTZ bb := by
  obtain ⟨e, ho⟩ := CTZ_spec h1 h2
  have hc := CTZ_lt h1 h2
  generalize CTZ bb = c at e ho hc
  generalize bb >>> c = m at e ho
  have hmod : (2 ^ 64 - bb) % 2 ^ 64 = 2 ^ 64 - (bb - 1 + 1) := by omega
  have hpos : 0 < 2 ^ c := Nat.pow_pos (by norm_num)
  have hpred : bb - 1 = 2 ^ c * (m - 1) + (2 ^ c - 1) := by
    have hm : m = (m - 1) + 1 := by omega
    rw [e]
    nth_rewrite 1 [hm]
    rw [Nat.mul_add, Nat.mul_one]
    omega
  rw [hmod]
  apply Nat.eq_of_testBit_eq
  intro i
  rw [Nat.testBit_and, Nat.testBit_two_pow_sub_succ (by omega : bb - 1 < 2 ^ 64), hpred,
    Nat.testBit_mul_pow_two_add _ (by omega : 2 ^ c - 1 < 2 ^ c), Nat.testBit_two_pow]
  nth_rewrite 1 [e]
  rw [Nat.testBit_mul_pow_two]
  by_cases hlt : i < c
  · have h1 : ¬ (i ≥ c) := by omega
    have h2 : ¬ (c = i) := by omega
    simp [h1, h2]
  · by_cases heq : i = c
    · subst heq
      have hm1 : (m - 1) % 2 = 0 := by omega
      simp [ho, hm1, hc]
    · have h2 : ¬ (c = i) := by omega
      have h3 : i ≥ c := by omega
      obtain ⟨j, hj⟩ : ∃ j, i - c = j + 1 := ⟨i - c - 1, by omega⟩
      have hdiv : (m - 1) / 2 = m / 2 := by omega
      rw [if_neg hlt, hj, Nat.testBit_succ, Nat.testBit_succ, hdiv]
      simp only [h2, decide_False]
      cases (m / 2).testBit j <;> simp

theorem bsf_table : ∀ c, c < 64 →
    bitScanForward.index64.getD (((2 ^ c * debruijn64) % 2 ^ 64) >>> 58) 0 = c := by
  decide!

/-- C35: for every 64-bit `bb ≠ 0`, `bitScanForward(bb)` is the number of trailing zeros of
`bb`, the index (0..63) of its least significant one bit; the index of the table lookup is
within 0..63 for every `bb`. -/
theorem C35_bitScanForward_is_ctz (bb : Nat) (h1 : bb ≠ 0) (h2 : bb < 2 ^ 64) :
    bitScanForward bb = CTZ bb ∧ bitScanForward bb < 64 ∧
    bb.testBit (bitScanForward bb) = true ∧
    (∀ j, j < bitScanForward bb → bb.testBit j = false) ∧
    (∀ x, bitScanForward.lookup x < 64) := by
  have hpos : 0 < bb := Nat.pos_of_ne_zero h1
  have hc := CTZ_lt hpos h2
  have hb : bitScanForward bb = CTZ bb := by
    unfold bitScanForward bitScanForward.lookup
    rw [and_neg_eq_pow hpos h2]
    exact bsf_table _ hc
  obtain ⟨e, ho⟩ := CTZ_spec hpos h2
  refine ⟨hb, by rw [hb]; exact hc, ?_, ?_, ?_⟩
  · rw [hb]
    generalize CTZ bb = c at e ho
    rw [e, Nat.testBit_mul_pow_two]
    simp [ho]
  · rw [hb]
    generalize CTZ bb = c at e ho
    intro j hj
    rw [e, Nat.testBit_mul_pow_two]
    have : ¬ (j ≥ c) := by omega
    simp [this]
  · intro x
    unfold bitScanForward.lookup
    rw [Nat.shiftRight_eq_div_pow]
    have : (x &&& (2 ^ 64 - x) % 2 ^ 64) * debruijn64 % 2 ^ 64 < 2 ^ 64 :=
      Nat.mod_lt _ (by norm_num)
    omega

/-- C35 at `bb = 40`, whose least significant one bit is bit 3. -/
theorem C35_bitScanForward_is_ctz_witness :
    bitScanForward 40 = CTZ 40 ∧ bitScanForward 40 < 64 ∧
    (40 : Nat).testBit (bitScanForward 40) = true ∧
    (∀ j, j < bitScanForward 40 → (40 : Nat).testBit j = false) ∧
    (∀ x, bitScanForward.lookup x < 64) :=
  C35_bitScanForward_is_ctz 40 (by decide) (by decide)

end pph

namespace pph
namespace Table

/-! ## The empty key, and the reads of `find_h` -/

/-- C37: in every table state in which the bucket of the empty string is empty,
`insert("", v)` returns true and sets `H[h("")] = (y, 0, 1)` with `y` the slot `find_r`
returned, and the slot `D[y]` still passes the free-slot test of the allocator; in the table of
`setup(2, ...)` the next `find_r(0, 1, 1)` returns the same `y`, and the insert of `"b"`
overwrites the slot. -/
theorem C37_empty_key_is_free_slot (E : Ext) (T : Table) (budget v : Nat)
    (hr : (T.H_.getD (T.h []) default).r_ = 0) :
    (T.insert E budget [] v).1 = true ∧
    (T.insert E budget [] v).2.H_ =
      T.H_.set (T.h []) { p_ := (T.find_r 0 1 1).1, i_ := 0, r_ := 1 } ∧
    (T.h [] < T.H_.length → (T.insert E budget [] v).2.H_.getD (T.h []) default =
      { p_ := (T.find_r 0 1 1).1, i_ := 0, r_ := 1 }) ∧
    is_free ((T.insert E budget [] v).2.D_.getD (T.find_r 0 1 1).1 default) = true ∧
    (((({} : Table).setup 2 false (97 / 100) 60000 1 65 0 djb_hash).insert Ext.simple 0 [] 5).2.find_r
      0 1 1).1 = ((({} : Table).setup 2 false (97 / 100) 60000 1 65 0 djb_hash).find_r 0 1 1).1 ∧
    (((({} : Table).setup 2 false (97 / 100) 60000 1 65 0 djb_hash).insert Ext.simple 0 [] 5).2.insert
      Ext.simple 0 (bytes "b") 6).2.D_.getD
      ((({} : Table).setup 2 false (97 / 100) 60000 1 65 0 djb_hash).find_r 0 1 1).1 default =
      { key_ := bytes "b", val_ := 6, idx_ := 2 } := by
  have hr1 : (T.H_.getD (T.h (c_str [])) default).r_ = 0 := hr
  have hins := insert_of_empty_bucket E T budget [] v hr1
  obtain ⟨q1, _⟩ := find_r_fields T 0 1 1
  have hH : (T.insert E budget [] v).2.H_ =
      T.H_.set (T.h []) { p_ := (T.find_r 0 1 1).1, i_ := 0, r_ := 1 } := by
    rw [hins]
    unfold insert_fresh
    dsimp only
    rw [q1]
    rfl
  refine ⟨?_, hH, ?_, ?_, by decide!, by decide!⟩
  · unfold insert
    dsimp only
    rw [if_pos hr1]
  · intro hlt
    rw [hH]
    exact getD_set_self _ _ _ _ hlt
  · rw [hins]
    unfold insert_fresh
    dsimp only
    by_cases hy : (T.find_r 0 1 1).1 < (T.find_r 0 1 1).2.D_.length
    · rw [getD_set_self _ _ _ _ hy]
      rfl
    · rw [getD_of_length_le _ _ _ (by rw [List.length_set]; omega)]
      exact is_free_default

/-- C37 on the table of scenario `"a"`, where the bucket of the empty string is empty. -/
theorem C37_empty_key_is_free_slot_witness :
    (scenario_a.insert Ext.simple 0 [] 5).1 = true ∧
    (scenario_a.insert Ext.simple 0 [] 5).2.H_ =
      scenario_a.H_.set (scenario_a.h []) { p_ := (scenario_a.find_r 0 1 1).1, i_ := 0, r_ := 1 } ∧
    (scenario_a.h [] < scenario_a.H_.length →
      (scenario_a.insert Ext.simple 0 [] 5).2.H_.getD (scenario_a.h []) default =
      { p_ := (scenario_a.find_r 0 1 1).1, i_ := 0, r_ := 1 }) ∧
    is_free ((scenario_a.insert Ext.simple 0 [] 5).2.D_.getD (scenario_a.find_r 0 1 1).1 default)
      = true ∧
    (((({} : Table).setup 2 false (97 / 100) 60000 1 65 0 djb_hash).insert Ext.simple 0 [] 5).2.find_r
      0 1 1).1 = ((({} : Table).setup 2 false (97 / 100) 60000 1 65 0 djb_hash).find_r 0 1 1).1 ∧
    (((({} : Table).setup 2 false (97 / 100) 60000 1 65 0 djb_hash).insert Ext.simple 0 [] 5).2.insert
      Ext.simple 0 (bytes "b") 6).2.D_.getD
      ((({} : Table).setup 2 false (97 / 100) 60000 1 65 0 djb_hash).find_r 0 1 1).1 default =
      { key_ := bytes "b", val_ := 6, idx_ := 2 } :=
  C37_empty_key_is_free_slot Ext.simple scenario_a 0 5 (by decide!)

theorem suggest_all_reads (F : func_t) (D : List data_t) (p next_r modulus multiplier : Nat)
    (key : List Nat) :
    suggest_all F D p next_r modulus multiplier key =
      (suggest_reads p next_r).foldl
        (fun acc x => acc.2.suggest_adjustment modulus multiplier 0 (D.getD x default).key_)
        (F.reset_suggest_adjustment.suggest_adjustment modulus multiplier 0 key) := by
  unfold suggest_all suggest_reads
  rw [List.foldl_map]

theorem scenario_one_window :
    scenario_one.H_ = [{ p_ := 1, i_ := 0, r_ := 1 }] ∧ scenario_one.D_.length = 2 := by
  decide!

theorem scenario_one_find_h :
    (find_h Ext.simple scenario_one 1000 1 1 { key_ := bytes "b", val_ := 1, idx_ := 0 }).2.func_.adjustment_
      = [0, 2010000000] ∧
    (find_h Ext.simple scenario_one_more 1000 1 1
      { key_ := bytes "b", val_ := 1, idx_ := 0 }).2.func_.adjustment_ = [0, 2009999903] := by
  decide!

/-- C38 fails on the code: the adjustment loop of the generate phase runs `j` over
`[0, next_r)`, not `[0, r)`, so `find_h(p, r, ...)` reads `D_[p + r]` (and further slots at an
escalated size).  In the table of `setup(1, ...)` holding `"a"`, the bucket has the window
`[1, 2)` and `|D| = 2`: the call `find_h(1, 1, "b")` reads `D_[2]`, past the end; its result
changes when a slot 2 is appended, while the window is the same. -/
theorem C38_find_h_reads_past_window :
    (∀ (F : func_t) (D : List data_t) (p next_r modulus multiplier : Nat) (key : List Nat),
      suggest_all F D p next_r modulus multiplier key =
        (suggest_reads p next_r).foldl
          (fun acc x => acc.2.suggest_adjustment modulus multiplier 0 (D.getD x default).key_)
          (F.reset_suggest_adjustment.suggest_adjustment modulus multiplier 0 key)) ∧
    (∀ p r, p + r ∈ suggest_reads p (r + 1)) ∧
    scenario_one.H_ = [{ p_ := 1, i_ := 0, r_ := 1 }] ∧ scenario_one.D_.length = 2 ∧
    (∀ x, x < 2 → scenario_one_more.D_.getD x default = scenario_one.D_.getD x default) ∧
    (find_h Ext.simple scenario_one 1000 1 1 { key_ := bytes "b", val_ := 1, idx_ := 0 }).2.func_.adjustment_
      = [0, 2010000000] ∧
    (find_h Ext.simple scenario_one_more 1000 1 1
      { key_ := bytes "b", val_ := 1, idx_ := 0 }).2.func_.adjustment_ = [0, 2009999903] := by
  refine ⟨suggest_all_reads, ?_, scenario_one_window.1, scenario_one_window.2, by decide!,
    scenario_one_find_h.1, scenario_one_find_h.2⟩
  · intro p r
    unfold suggest_reads
    exact List.mem_map.mpr ⟨r, List.mem_range.mpr (Nat.lt_succ_self r), rfl⟩

end Table
end pph

namespace pph
namespace Table

/-! ## Invariants of the states reached by successful inserts -/

/-- A successful `insert` writes one header, that of the bucket of the key, and the header it
writes has `r_ ≠ 0`. -/
theorem insert_headers (E : Ext) (T : Table) (budget : Nat) (k : List Nat) (v : Nat)
    (hok : (T.insert E budget k v).1 = true) :
    ∃ hdr : hdr_t, hdr.r_ ≠ 0 ∧ (T.insert E budget k v).2.H_ = T.H_.set (T.h (c_str k)) hdr := by
  by_cases hr : (T.H_.getD (T.h (c_str k)) default).r_ = 0
  · rw [insert_of_empty_bucket E T budget k v hr]
    obtain ⟨q1, _⟩ := find_r_fields T 0 1 1
    refine ⟨{ p_ := (T.find_r 0 1 1).1, i_ := 0, r_ := 1 }, Nat.one_ne_zero, ?_⟩
    unfold insert_fresh
    dsimp only
    rw [q1]
  · obtain ⟨hf, _⟩ := find_h_spec E T budget (T.H_.getD (T.h (c_str k)) default).p_
      (T.H_.getD (T.h (c_str k)) default).r_
      { key_ := c_str k, val_ := v, idx_ := T.h (c_str k) }
    generalize hfh : find_h E T budget (T.H_.getD (T.h (c_str k)) default).p_
      (T.H_.getD (T.h (c_str k)) default).r_
      { key_ := c_str k, val_ := v, idx_ := T.h (c_str k) } = fh at hf
    obtain ⟨fH, _, fs, fk, fm, fa, _⟩ := hf
    obtain ⟨q1, _, q3, q4, q5, q6⟩ := find_r_fields fh.2 (T.H_.getD (T.h (c_str k)) default).p_
      (T.H_.getD (T.h (c_str k)) default).r_ fh.1.r_
    generalize hfr : fh.2.find_r (T.H_.getD (T.h (c_str k)) default).p_
      (T.H_.getD (T.h (c_str k)) default).r_ fh.1.r_ = fr at q1 q3 q4 q5 q6
    have hh : fr.2.h = T.h :=
      h_eq_of_fields (q3.trans fs) (q4.trans fk) (q5.trans fm) (q6.trans fa)
    have hH : fr.2.H_ = T.H_ := q1.trans fH
    unfold insert at hok ⊢
    dsimp only at hok ⊢
    rw [if_neg hr, hfh] at hok ⊢
    by_cases h1 : fh.1.r_ = 0
    · rw [if_pos h1] at hok
      exact absurd hok Bool.false_ne_true
    · rw [if_neg h1, hfr] at hok ⊢
      by_cases h2 : fr.1 = UINT64_MAX
      · rw [if_pos h2] at hok
        exact absurd hok Bool.false_ne_true
      · rw [if_neg h2]
        refine ⟨{ p_ := fr.1, i_ := fh.1.i_, r_ := fh.1.r_ }, h1, ?_⟩
        rw [← hH, ← hh]
        unfold move_nonoverlap
        split
        · rfl
        · rfl

/-- The headers of a table with `r_ = 0` are `(0, 0, 0)`. -/
theorem insert_zero_headers (E : Ext) (T : Table) (budget : Nat) (k : List Nat) (v : Nat)
    (hok : (T.insert E budget k v).1 = true)
    (hz : ∀ b, (T.H_.getD b default).r_ = 0 → T.H_.getD b default = default) :
    ∀ b, ((T.insert E budget k v).2.H_.getD b default).r_ = 0 →
      (T.insert E budget k v).2.H_.getD b default = default := by
  obtain ⟨hdr, hne, e⟩ := insert_headers E T budget k v hok
  intro b hb
  rw [e] at hb ⊢
  by_cases hbk : T.h (c_str k) = b
  · by_cases hlt : T.h (c_str k) < T.H_.length
    · rw [← hbk, getD_set_self _ _ _ _ hlt] at hb
      exact absurd hb hne
    · rw [getD_of_length_le _ _ _ (by rw [List.length_set]; omega)]
  · rw [getD_set_ne _ _ _ _ _ hbk] at hb ⊢
    exact hz b hb

theorem setup_zero_headers (n : Nat) (use_p : Bool) (p : ℚ)
    (timeout seed multiplier adjustment : Nat) (key : keyfunc_t) (b : Nat) :
    (({} : Table).setup n use_p p timeout seed multiplier adjustment key).H_.getD b default =
      default := by
  rw [setup_H]
  generalize (({} : Table).setup n use_p p timeout seed multiplier adjustment key).s_ = s
  unfold resize
  show (([] : List hdr_t).take s ++ List.replicate (s - 0) default).getD b default = default
  rw [List.take_nil, List.nil_append]
  by_cases hb : b < s - 0
  · rw [List.getD_eq_getElem _ _ (by rw [List.length_replicate]; exact hb)]
    exact List.getElem_replicate _ _
  · exact getD_of_length_le _ _ _ (by rw [List.length_replicate]; omega)

/-- Every state reached by successful inserts from a table that satisfies the invariant of
construction satisfies it, has the same primary hash, and has `(0, 0, 0)` in every header
with `r_ = 0`. -/
theorem reach_invariant (E : Ext) (T0 T : Table) (hreach : Reach E T0 T)
    (hwf : WF T0) (hD : 1 ≤ T0.D_.length)
    (hz : ∀ b, (T0.H_.getD b default).r_ = 0 → T0.H_.getD b default = default) :
    WF T ∧ 1 ≤ T.D_.length ∧ T.h = T0.h ∧
    (∀ b, (T.H_.getD b default).r_ = 0 → T.H_.getD b default = default) := by
  induction hreach with
  | start => exact ⟨hwf, hD, rfl, hz⟩
  | step T1 budget k v _ hok ih =>
    obtain ⟨w1, d1, e1, z1⟩ := ih
    obtain ⟨w2, d2, e2, _⟩ := insert_spec E T1 budget k v w1 d1 hok
    exact ⟨w2, by omega, e2.trans e1, insert_zero_headers E T1 budget k v hok z1⟩

theorem reach_setup (E : Ext) (n : Nat) (use_p : Bool) (p : ℚ)
    (timeout seed multiplier adjustment : Nat) (key : keyfunc_t) (T : Table)
    (hs : 0 < (({} : Table).setup n use_p p timeout seed multiplier adjustment key).s_)
    (hn : 1 ≤ n)
    (hreach : Reach E (({} : Table).setup n use_p p timeout seed multiplier adjustment key) T) :
    WF T ∧ 1 ≤ T.D_.length ∧
    (∀ b, (T.H_.getD b default).r_ = 0 → T.H_.getD b default = default) := by
  have hD : 1 ≤ (({} : Table).setup n use_p p timeout seed multiplier adjustment key).D_.length := by
    rw [(setup_fields {} n use_p p timeout seed multiplier adjustment key).1, length_resize]
    exact hn
  obtain ⟨w, d, _, z⟩ := reach_invariant E _ T hreach
    (WF_setup n use_p p timeout seed multiplier adjustment key hs) hD
    (fun b _ => setup_zero_headers n use_p p timeout seed multiplier adjustment key b)
  exact ⟨w, d, z⟩

/-- C21: in every state reached from a fresh `setup` (with a header array that is not empty
and `N ≥ 1`) by successful inserts, for every bucket `b` with header `(p, i, r)`, `r > 0`,
every live slot `D[p+q]`, `q < r`, whose owner is `b` stores a key `k` with `h_i(k, r) = q`,
so two such slots hold keys with different hashes; and a header with `r = 0` is `(0, 0, 0)`. -/
theorem C21_header_consistency (E : Ext) (n : Nat) (use_p : Bool) (p : ℚ)
    (timeout seed multiplier adjustment : Nat) (key : keyfunc_t) (T : Table)
    (hs : 0 < (({} : Table).setup n use_p p timeout seed multiplier adjustment key).s_)
    (hn : 1 ≤ n)
    (hreach : Reach E (({} : Table).setup n use_p p timeout seed multiplier adjustment key) T) :
    (∀ b q, (T.H_.getD b default).r_ ≠ 0 → q < (T.H_.getD b default).r_ →
      is_free (T.D_.getD ((T.H_.getD b default).p_ + q) default) = false →
      (T.D_.getD ((T.H_.getD b default).p_ + q) default).idx_ = b →
      T.func_.h (T.H_.getD b default).i_
        (T.D_.getD ((T.H_.getD b default).p_ + q) default).key_ (T.H_.getD b default).r_ = q) ∧
    (∀ b q1 q2, (T.H_.getD b default).r_ ≠ 0 → q1 < (T.H_.getD b default).r_ →
      q2 < (T.H_.getD b default).r_ → q1 ≠ q2 →
      is_free (T.D_.getD ((T.H_.getD b default).p_ + q1) default) = false →
      (T.D_.getD ((T.H_.getD b default).p_ + q1) default).idx_ = b →
      is_free (T.D_.getD ((T.H_.getD b default).p_ + q2) default) = false →
      (T.D_.getD ((T.H_.getD b default).p_ + q2) default).idx_ = b →
      T.func_.h (T.H_.getD b default).i_
        (T.D_.getD ((T.H_.getD b default).p_ + q1) default).key_ (T.H_.getD b default).r_ ≠
      T.func_.h (T.H_.getD b default).i_
        (T.D_.getD ((T.H_.getD b default).p_ + q2) default).key_ (T.H_.getD b default).r_) ∧
    (∀ b, (T.H_.getD b default).r_ = 0 →
      T.H_.getD b default = { p_ := 0, i_ := 0, r_ := 0 }) := by
  obtain ⟨w, _, z⟩ := reach_setup E n use_p p timeout seed multiplier adjustment key T hs hn hreach
  obtain ⟨_, _, _, _, _, _, _, hslot⟩ := w
  have hq : ∀ b q, (T.H_.getD b default).r_ ≠ 0 → q < (T.H_.getD b default).r_ →
      is_free (T.D_.getD ((T.H_.getD b default).p_ + q) default) = false →
      (T.D_.getD ((T.H_.getD b default).p_ + q) default).idx_ = b →
      T.func_.h (T.H_.getD b default).i_
        (T.D_.getD ((T.H_.getD b default).p_ + q) default).key_ (T.H_.getD b default).r_ = q := by
    intro b q _ _ hlive hown
    obtain ⟨_, _, hx⟩ := hslot _ hlive
    rw [hown] at hx
    omega
  refine ⟨hq, ?_, z⟩
  intro b q1 q2 hr h1 h2 hne l1 o1 l2 o2
  rw [hq b q1 hr h1 l1 o1, hq b q2 hr h2 l2 o2]
  exact hne

/-- C39: in every state reached from a fresh `setup(N, ...)` with `N ≥ 1` (and a header array
that is not empty) by successful inserts, for every byte string `k`, `h(k) < |H|`, and if
`H[h(k)] = (p, i, r)` with `r ≠ 0` then `i < |F|` and `p + h_i(k, r) < |D|`. -/
theorem C39_lookup_in_range (E : Ext) (n : Nat) (use_p : Bool) (p : ℚ)
    (timeout seed multiplier adjustment : Nat) (key : keyfunc_t) (T : Table)
    (hs : 0 < (({} : Table).setup n use_p p timeout seed multiplier adjustment key).s_)
    (hn : 1 ≤ n)
    (hreach : Reach E (({} : Table).setup n use_p p timeout seed multiplier adjustment key) T)
    (k : List Nat) :
    T.h k < T.H_.length ∧
    ((T.H_.getD (T.h k) default).r_ ≠ 0 →
      (T.H_.getD (T.h k) default).i_ < T.func_.size ∧
      (T.H_.getD (T.h k) default).p_ +
        T.func_.h (T.H_.getD (T.h k) default).i_ k (T.H_.getD (T.h k) default).r_ <
        T.D_.length) := by
  obtain ⟨w, _, _⟩ := reach_setup E n use_p p timeout seed multiplier adjustment key T hs hn hreach
  obtain ⟨hlen, hlt, _, _, _, hi, hwin, _⟩ := w
  refine ⟨by rw [hlen]; exact hlt k, ?_⟩
  intro hr
  refine ⟨hi _, ?_⟩
  have h1 := hwin _ hr
  have h2 := func_h_lt T.func_ (T.H_.getD (T.h k) default).i_ k (Nat.pos_of_ne_zero hr)
  omega

end Table
end pph

namespace pph
namespace Table

/-! ## Witnesses on the table of scenario `"a"`, and the frame of `insert` -/

theorem scenario_a_reach :
    Reach Ext.simple (({} : Table).setup 3 true 1 60000 1 65 0 djb_hash) scenario_a :=
  Reach.step _ 0 (bytes "a") 0 Reach.start (by decide!)

theorem scenario_a_size : 0 < (({} : Table).setup 3 true 1 60000 1 65 0 djb_hash).s_ := by
  decide!

/-- C21 on the table of `setup(3, true, 1.0, ...)` after the insert of `"a"`. -/
theorem C21_header_consistency_witness :
    (∀ b q, (scenario_a.H_.getD b default).r_ ≠ 0 → q < (scenario_a.H_.getD b default).r_ →
      is_free (scenario_a.D_.getD ((scenario_a.H_.getD b default).p_ + q) default) = false →
      (scenario_a.D_.getD ((scenario_a.H_.getD b default).p_ + q) default).idx_ = b →
      scenario_a.func_.h (scenario_a.H_.getD b default).i_
        (scenario_a.D_.getD ((scenario_a.H_.getD b default).p_ + q) default).key_ (scenario_a.H_.getD b default).r_ = q) ∧
    (∀ b q1 q2, (scenario_a.H_.getD b default).r_ ≠ 0 → q1 < (scenario_a.H_.getD b default).r_ →
      q2 < (scenario_a.H_.getD b default).r_ → q1 ≠ q2 →
      is_free (scenario_a.D_.getD ((scenario_a.H_.getD b default).p_ + q1) default) = false →
      (scenario_a.D_.getD ((scenario_a.H_.getD b default).p_ + q1) default).idx_ = b →
      is_free (scenario_a.D_.getD ((scenario_a.H_.getD b default).p_ + q2) default) = false →
      (scenario_a.D_.getD ((scenario_a.H_.getD b default).p_ + q2) default).idx_ = b →
      scenario_a.func_.h (scenario_a.H_.getD b default).i_
        (scenario_a.D_.getD ((scenario_a.H_.getD b default).p_ + q1) default).key_ (scenario_a.H_.getD b default).r_ ≠
      scenario_a.func_.h (scenario_a.H_.getD b default).i_
        (scenario_a.D_.getD ((scenario_a.H_.getD b default).p_ + q2) default).key_ (scenario_a.H_.getD b default).r_) ∧
    (∀ b, (scenario_a.H_.getD b default).r_ = 0 →
      scenario_a.H_.getD b default = { p_ := 0, i_ := 0, r_ := 0 }) :=
  C21_header_consistency Ext.simple 3 true 1 60000 1 65 0 djb_hash scenario_a scenario_a_size
    (by decide) scenario_a_reach

/-- C39 on the table of `setup(3, true, 1.0, ...)` after the insert of `"a"`, for the key `"a"`. -/
theorem C39_lookup_in_range_witness :
    scenario_a.h (bytes "a") < scenario_a.H_.length ∧
    ((scenario_a.H_.getD (scenario_a.h (bytes "a")) default).r_ ≠ 0 →
      (scenario_a.H_.getD (scenario_a.h (bytes "a")) default).i_ < scenario_a.func_.size ∧
      (scenario_a.H_.getD (scenario_a.h (bytes "a")) default).p_ +
        scenario_a.func_.h (scenario_a.H_.getD (scenario_a.h (bytes "a")) default).i_ (bytes "a") (scenario_a.H_.getD (scenario_a.h (bytes "a")) default).r_ <
        scenario_a.D_.length) :=
  C39_lookup_in_range Ext.simple 3 true 1 60000 1 65 0 djb_hash scenario_a scenario_a_size
    (by decide) scenario_a_reach (bytes "a")

theorem inserted_invariant (E : Ext) (T0 T : Table) (kvs : List (List Nat × Nat))
    (hins : Inserted E T0 kvs T) (hwf : WF T0) (hD : 1 ≤ T0.D_.length) :
    (∀ kv, kv ∈ kvs → kv.1 ≠ []) →
    WF T ∧ 1 ≤ T.D_.length ∧ ∀ kv, kv ∈ kvs → Holds T kv.1 kv.2 := by
  induction hins with
  | start =>
    intro _
    exact ⟨hwf, hD, fun kv hkv => absurd hkv (List.not_mem_nil kv)⟩
  | step kvs1 T1 budget k v _ hok ih =>
    intro hne
    obtain ⟨w1, d1, h1⟩ := ih (fun kv hkv => hne kv (List.mem_cons_of_mem _ hkv))
    obtain ⟨w2, d2, _, hnew, hold, _⟩ := insert_spec E T1 budget k v w1 d1 hok
    refine ⟨w2, by omega, ?_⟩
    intro kv hkv
    rcases List.mem_cons.mp hkv with e | hmem
    · subst e
      exact hnew (hne _ (List.mem_cons_self _ _))
    · exact hold _ _ (h1 kv hmem)

/-- C40: in every state reached from a fresh `setup` (with a header array that is not empty
and `N ≥ 1`) by successful inserts of non-empty keys, a successful `insert(k, v)` leaves
`find_val(k')` at the value of `k'` for every key `k'` inserted before, and changes no header
other than `H[h(k)]`. -/
theorem C40_insert_preserves_earlier_keys (E : Ext) (n : Nat) (use_p : Bool) (p : ℚ)
    (timeout seed multiplier adjustment : Nat) (key : keyfunc_t) (T : Table)
    (kvs : List (List Nat × Nat))
    (hs : 0 < (({} : Table).setup n use_p p timeout seed multiplier adjustment key).s_)
    (hn : 1 ≤ n)
    (hins : Inserted E (({} : Table).setup n use_p p timeout seed multiplier adjustment key)
      kvs T)
    (hne : ∀ kv, kv ∈ kvs → kv.1 ≠ [])
    (budget : Nat) (k : List Nat) (v : Nat)
    (hok : (T.insert E budget k v).1 = true) :
    (∀ kv, kv ∈ kvs → T.find_val kv.1 = kv.2 ∧ (T.insert E budget k v).2.find_val kv.1 = kv.2) ∧
    (∀ b, b ≠ T.h (c_str k) →
      (T.insert E budget k v).2.H_.getD b default = T.H_.getD b default) := by
  have hD : 1 ≤ (({} : Table).setup n use_p p timeout seed multiplier adjustment key).D_.length := by
    rw [(setup_fields {} n use_p p timeout seed multiplier adjustment key).1, length_resize]
    exact hn
  obtain ⟨w1, d1, h1⟩ := inserted_invariant E _ T kvs hins
    (WF_setup n use_p p timeout seed multiplier adjustment key hs) hD hne
  obtain ⟨w2, _, _, _, hold, _⟩ := insert_spec E T budget k v w1 d1 hok
  refine ⟨fun kv hkv => ⟨find_val_of_holds w1 (h1 kv hkv),
    find_val_of_holds w2 (hold _ _ (h1 kv hkv))⟩, ?_⟩
  intro b hb
  obtain ⟨hdr, _, e⟩ := insert_headers E T budget k v hok
  rw [e]
  exact getD_set_ne _ _ _ _ _ (Ne.symm hb)

/-- C40 on the table of `setup(3, true, 1.0, ...)` holding `"a"`, for the insert of `"d"`, which shares the bucket of `"a"` and moves it. -/
theorem C40_insert_preserves_earlier_keys_witness :
    (∀ kv, kv ∈ [(c_str (bytes "a"), 0)] → scenario_a.find_val kv.1 = kv.2 ∧
      (scenario_a.insert Ext.simple 1000 (bytes "d") 1).2.find_val kv.1 = kv.2) ∧
    (∀ b, b ≠ scenario_a.h (c_str (bytes "d")) →
      (scenario_a.insert Ext.simple 1000 (bytes "d") 1).2.H_.getD b default =
        scenario_a.H_.getD b default) :=
  C40_insert_preserves_earlier_keys Ext.simple 3 true 1 60000 1 65 0 djb_hash scenario_a
    [(c_str (bytes "a"), 0)] scenario_a_size (by decide)
    (Inserted.step [] _ 0 (bytes "a") 0 Inserted.start (by decide!))
    (by decide) 1000 (bytes "d") 1 (by decide!)

end Table
end pph

namespace pph
namespace Table

/-! ## The two phases of `find_h` -/

theorem getD_replicate_false (n x : Nat) : (List.replicate n false).getD x false = false := by
  by_cases h : x < n
  · rw [List.getD_eq_getElem _ _ (by rw [List.length_replicate]; exact h)]
    exact List.getElem_replicate _ _
  · exact getD_of_length_le _ _ _ (by rw [List.length_replicate]; omega)

/-- The collision scan passes when no live slot of the list hashes to a marked value and the
live slots have pairwise distinct hash values. -/
theorem check_r_complete (hf : List Nat → Nat) (D : List data_t) (p : Nat) :
    ∀ (js : List Nat) (col : List Bool), js.Nodup →
      (∀ j, j ∈ js → is_free (D.getD (p + j) default) = false →
        col.getD (hf (D.getD (p + j) default).key_) false = false) →
      (∀ j1 j2, j1 ∈ js → j2 ∈ js → j1 ≠ j2 →
        is_free (D.getD (p + j1) default) = false →
        is_free (D.getD (p + j2) default) = false →
        hf (D.getD (p + j1) default).key_ ≠ hf (D.getD (p + j2) default).key_) →
      check_r hf D p js col = true := by
  intro js
  induction js with
  | nil => intro col _ _ _; rfl
  | cons j js ih =>
    intro col hnd h1 h2
    obtain ⟨hj, hnd1⟩ := List.nodup_cons.mp hnd
    unfold check_r
    by_cases hfree : is_free (D.getD (p + j) default) = true
    · rw [if_pos hfree]
      exact ih col hnd1 (fun x hx => h1 x (List.mem_cons_of_mem _ hx))
        (fun a b ha hb => h2 a b (List.mem_cons_of_mem _ ha) (List.mem_cons_of_mem _ hb))
    · have hlive : is_free (D.getD (p + j) default) = false := by
        cases h : is_free (D.getD (p + j) default)
        · rfl
        · exact absurd h hfree
      rw [if_neg hfree]
      have hc := h1 j (List.mem_cons_self _ _) hlive
      rw [if_neg (by rw [hc]; exact Bool.false_ne_true)]
      refine ih _ hnd1 ?_
        (fun a b ha hb => h2 a b (List.mem_cons_of_mem _ ha) (List.mem_cons_of_mem _ hb))
      intro x hx hxl
      have hne : j ≠ x := fun e => hj (e ▸ hx)
      have hd := h2 j x (List.mem_cons_self _ _) (List.mem_cons_of_mem _ hx) hne hlive hxl
      rw [getD_set_ne _ _ _ _ _ hd]
      exact h1 x (List.mem_cons_of_mem _ hx) hxl

/-- The collision test of `find_h` passes exactly when the hash separates the new key and the
live keys of the window. -/
theorem no_collisions_iff (hf : List Nat → Nat) (D : List data_t) (p r next_r : Nat)
    (key : List Nat) (hb : ∀ k, hf k < next_r) :
    no_collisions hf D p r next_r key = true ↔ Separates hf D p r key := by
  constructor
  · exact no_collisions_true hf D p r next_r key hb
  · intro hsep
    obtain ⟨h1, h2⟩ := hsep
    unfold no_collisions
    refine check_r_complete hf D p (List.range r) _ (List.nodup_range r) ?_
      (fun a b ha hb1 => h2 a b (List.mem_range.mp ha) (List.mem_range.mp hb1))
    intro j hj hl
    rw [getD_set_ne _ _ _ _ _ (Ne.symm (h1 j (List.mem_range.mp hj) hl))]
    exact getD_replicate_false _ _

/-- The first hit of a search over `s, s + 1, ..., s + n - 1` is the least one. -/
theorem find_range_least (pred : Nat → Bool) :
    ∀ (n s : Nat), (∃ i, s ≤ i ∧ i < s + n ∧ pred i = true) →
      ∃ i0, (List.range' s n).find? pred = some i0 ∧ s ≤ i0 ∧ i0 < s + n ∧ pred i0 = true ∧
        ∀ j, s ≤ j → j < i0 → pred j = false := by
  intro n
  induction n with
  | zero =>
    intro s h
    obtain ⟨i, h1, h2, _⟩ := h
    omega
  | succ n ih =>
    intro s h
    obtain ⟨i, h1, h2, h3⟩ := h
    rw [List.range'_succ, List.find?_cons]
    cases hs : pred s with
    | true =>
      exact ⟨s, rfl, le_refl _, by omega, hs, fun j hj1 hj2 => by omega⟩
    | false =>
      have hne : i ≠ s := fun e => by rw [e, hs] at h3; exact Bool.false_ne_true h3
      obtain ⟨i0, e, a1, a2, a3, a4⟩ := ih (s + 1) ⟨i, by omega, by omega, h3⟩
      refine ⟨i0, e, by omega, by omega, a3, ?_⟩
      intro j hj1 hj2
      by_cases hjs : j = s
      · rw [hjs]; exact hs
      · exact a4 j (by omega) hj2

/-- C30: if some index `i` in `[1, |F|)` has `gcd(μ_i, r+1) = 1` and maps the new key and the
live keys of `D[p .. p+r)` to pairwise distinct offsets at size `r+1`, then `find_h` returns
`(i0, r+1)` for the least such index `i0` and leaves the whole table, the family and the
generator included, as it was (the multipliers and `r + 1` being 64-bit values). -/
theorem C30_phase_A_reuse (E : Ext) (T : Table) (budget p r : Nat) (D : data_t) (i : Nat)
    (h64 : ∀ j, j < T.func_.size → T.func_.multiplier j < 2 ^ 64) (hr : r + 1 < 2 ^ 64)
    (hi1 : 1 ≤ i) (hi2 : i < T.func_.size)
    (hgcd : Nat.gcd (T.func_.multiplier i) (r + 1) = 1)
    (hsep : Separates (fun k => T.func_.h i k (r + 1)) T.D_ p r D.key_) :
    ∃ i0, find_h E T budget p r D = ({ p_ := 0, i_ := i0, r_ := r + 1 }, T) ∧
      1 ≤ i0 ∧ i0 ≤ i ∧ Nat.gcd (T.func_.multiplier i0) (r + 1) = 1 ∧
      Separates (fun k => T.func_.h i0 k (r + 1)) T.D_ p r D.key_ ∧
      ∀ j, 1 ≤ j → j < i0 →
        ¬ (Nat.gcd (T.func_.multiplier j) (r + 1) = 1 ∧
          Separates (fun k => T.func_.h j k (r + 1)) T.D_ p r D.key_) := by
  have hpred : ∀ j, j < T.func_.size → ((T.func_.is_candidate j (r + 1) &&
      no_collisions (fun k => T.func_.h j k (r + 1)) T.D_ p r (r + 1) D.key_) = true ↔
      (Nat.gcd (T.func_.multiplier j) (r + 1) = 1 ∧
        Separates (fun k => T.func_.h j k (r + 1)) T.D_ p r D.key_)) := by
    intro j hj
    rw [Bool.and_eq_true, no_collisions_iff _ _ _ _ _ _
      (fun k => func_h_lt T.func_ j k (Nat.succ_pos r))]
    have hg : gcd_binary (T.func_.multiplier_.getD j 0) (r + 1) =
        Nat.gcd (T.func_.multiplier j) (r + 1) := gcd_binary_eq_gcd _ _ (h64 j hj) hr
    unfold func_t.is_candidate
    rw [beq_iff_eq, hg]
  obtain ⟨i0, e, a1, a2, a3, a4⟩ := find_range_least (fun j =>
    T.func_.is_candidate j (r + 1) &&
      no_collisions (fun k => T.func_.h j k (r + 1)) T.D_ p r (r + 1) D.key_)
    (T.func_.size - 1) 1 ⟨i, hi1, by omega, (hpred i hi2).mpr ⟨hgcd, hsep⟩⟩
  have hi0 : i0 < T.func_.size := by omega
  refine ⟨i0, ?_, a1, ?_, ((hpred i0 hi0).mp a3).1, ((hpred i0 hi0).mp a3).2, ?_⟩
  · unfold find_h
    dsimp only
    rw [e]
  · by_contra hcon
    have := a4 i hi1 (by omega)
    rw [(hpred i hi2).mpr ⟨hgcd, hsep⟩] at this
    exact Bool.false_ne_true this.symm
  · intro j hj1 hj2 hcon
    have := a4 j hj1 hj2
    rw [(hpred j (by omega)).mpr hcon] at this
    exact Bool.false_ne_true this.symm

theorem find_h_generate_succ (E : Ext) (p r : Nat) (D : data_t) (b i attempts next_r : Nat)
    (T : Table) :
    find_h_generate E p r D (b + 1) i attempts next_r T =
      if (try_candidate E p r D i next_r T).1 = true then (try_candidate E p r D i next_r T).2
      else if attempts + 1 ≥ DEFAULT_ATTEMPTS then
        find_h_generate E p r D b (i + 1) 0 (next_r + 1) (try_candidate E p r D i next_r T).2.2
      else
        find_h_generate E p r D b (i + 1) (attempts + 1) next_r
          (try_candidate E p r D i next_r T).2.2 :=
  rfl

/-- The generate loop after `c` failed candidates: candidate `c` is tested with
`attempts = c mod 100` at the size `r + 1 + c / 100`. -/
theorem find_h_generate_schedule (E : Ext) (p r : Nat) (D : data_t) (T : Table) (budget : Nat) :
    ∀ c, c ≤ budget →
      (∀ j, j < c →
        (try_candidate E p r D j (r + 1 + j / 100) (generate_state E p r D j T)).1 = false) →
      find_h_generate E p r D budget 0 0 (r + 1) T =
        find_h_generate E p r D (budget - c) c (c % 100) (r + 1 + c / 100)
          (generate_state E p r D c T) := by
  intro c
  induction c with
  | zero => intro _ _; rfl
  | succ c ih =>
    intro hc hfail
    rw [ih (by omega) (fun j hj => hfail j (by omega))]
    obtain ⟨b, hb⟩ : ∃ b, budget - c = b + 1 := ⟨budget - c - 1, by omega⟩
    have hb1 : budget - (c + 1) = b := by omega
    rw [hb, hb1]
    have hf := hfail c (Nat.lt_succ_self c)
    rw [find_h_generate_succ, if_neg (by rw [hf]; exact Bool.false_ne_true)]
    unfold DEFAULT_ATTEMPTS
    by_cases h100 : c % 100 + 1 ≥ 100
    · rw [if_pos h100]
      have e1 : (c + 1) % 100 = 0 := by omega
      have e2 : r + 1 + (c + 1) / 100 = r + 1 + c / 100 + 1 := by omega
      rw [e1, e2]
      rfl
    · rw [if_neg h100]
      have e1 : (c + 1) % 100 = c % 100 + 1 := by omega
      have e2 : r + 1 + (c + 1) / 100 = r + 1 + c / 100 := by omega
      rw [e1, e2]
      rfl

theorem generate_state_family (E : Ext) (p r : Nat) (D : data_t) (T : Table) :
    ∀ c, (∀ j, j < c →
        (try_candidate E p r D j (r + 1 + j / 100) (generate_state E p r D j T)).1 = false) →
      SameFamily T.func_ (generate_state E p r D c T).func_ := by
  intro c
  induction c with
  | zero => intro _; exact same_family_refl _
  | succ c ih =>
    intro hfail
    have h1 := ih (fun j hj => hfail j (by omega))
    have hf := hfail c (Nat.lt_succ_self c)
    obtain ⟨_, hc⟩ := try_candidate_spec E p r D c (r + 1 + c / 100) (generate_state E p r D c T)
    rcases hc with ⟨_, _, hs⟩ | ⟨ht, _⟩
    · exact same_family_trans h1 hs
    · rw [hf] at ht
      exact absurd ht Bool.false_ne_true

/-- C31: in the generate phase of `find_h` entered with bucket size `r`, when the candidates
`0, ..., c - 1` have failed (and the clock has not stopped the loop), candidate `c` is tested
at the size `r + 1 + floor(c / 100)`, the family being the one the phase started with; if
it passes, `find_h` returns that size with the index of the new entry, the previous `|F|`, and
the family is the previous one with one triple appended. -/
theorem C31_attempts_escalation (E : Ext) (p r : Nat) (D : data_t) (T : Table)
    (budget c : Nat) (hc : c ≤ budget)
    (hfail : ∀ j, j < c →
      (try_candidate E p r D j (r + 1 + j / 100) (generate_state E p r D j T)).1 = false) :
    find_h_generate E p r D budget 0 0 (r + 1) T =
      find_h_generate E p r D (budget - c) c (c % 100) (r + 1 + c / 100)
        (generate_state E p r D c T) ∧
    SameFamily T.func_ (generate_state E p r D c T).func_ ∧
    ((try_candidate E p r D c (r + 1 + c / 100) (generate_state E p r D c T)).1 = true →
      find_h_generate E p r D budget 0 0 (r + 1) T =
        (try_candidate E p r D c (r + 1 + c / 100) (generate_state E p r D c T)).2 ∧
      (find_h_generate E p r D budget 0 0 (r + 1) T).1 =
        { p_ := 0, i_ := T.func_.h_.length, r_ := r + 1 + c / 100 } ∧
      ∃ m mu a,
        (find_h_generate E p r D budget 0 0 (r + 1) T).2.func_.h_ = T.func_.h_ ++ [m] ∧
        (find_h_generate E p r D budget 0 0 (r + 1) T).2.func_.multiplier_ =
          T.func_.multiplier_ ++ [mu] ∧
        (find_h_generate E p r D budget 0 0 (r + 1) T).2.func_.adjustment_ =
          T.func_.adjustment_ ++ [a]) ∧
    ((try_candidate E p r D c (r + 1 + c / 100) (generate_state E p r D c T)).1 = false →
      c < budget →
      find_h_generate E p r D budget 0 0 (r + 1) T =
        find_h_generate E p r D (budget - (c + 1)) (c + 1) ((c + 1) % 100)
          (r + 1 + (c + 1) / 100) (generate_state E p r D (c + 1) T) ∧
      r + 1 + c / 100 ≤ r + 1 + (c + 1) / 100 ∧
      r + 1 + (c + 1) / 100 ≤ r + 1 + c / 100 + 1 ∧
      r + 1 + (c + 100) / 100 = r + 1 + c / 100 + 1) := by
  have hsched := find_h_generate_schedule E p r D T budget c hc hfail
  have hfam := generate_state_family E p r D T c hfail
  refine ⟨hsched, hfam, ?_, ?_⟩
  · intro hok
    have hres : find_h_generate E p r D budget 0 0 (r + 1) T =
        (try_candidate E p r D c (r + 1 + c / 100) (generate_state E p r D c T)).2 := by
      rw [hsched]
      cases hb : budget - c with
      | zero =>
        unfold find_h_generate
        dsimp only
        rw [if_pos hok]
      | succ b =>
        unfold find_h_generate
        dsimp only
        rw [if_pos hok]
    obtain ⟨t1, t2, t3, t4⟩ := try_candidate_triple E p r D c (r + 1 + c / 100)
      (generate_state E p r D c T) hok
    obtain ⟨f1, f2, f3, _⟩ := hfam
    refine ⟨hres, by rw [hres, t1, f1],
      (candidate E (generate_state E p r D c T) c (r + 1 + c / 100)).1,
      (candidate E (generate_state E p r D c T) c (r + 1 + c / 100)).2.1,
      (suggest_all (generate_state E p r D c T).func_ (generate_state E p r D c T).D_ p
        (r + 1 + c / 100) (candidate E (generate_state E p r D c T) c (r + 1 + c / 100)).1
        (candidate E (generate_state E p r D c T) c (r + 1 + c / 100)).2.1 D.key_).1,
      by rw [hres, t2, f1], by rw [hres, t3, f2], by rw [hres, t4, f3]⟩
  · intro hno hlt
    refine ⟨find_h_generate_schedule E p r D T budget (c + 1) (by omega) ?_, by omega, by omega,
      by omega⟩
    intro j hj
    by_cases hjc : j = c
    · rw [hjc]; exact hno
    · exact hfail j (by omega)

/-- The table `scenario_adb` and the key `"e"`, which meets `"b"` in bucket 2: the member 1
of the family separates the two keys at size 2. -/
theorem C30_phase_A_reuse_witness :
    ∃ i0, find_h Ext.simple scenario_adb 0 1 1 { key_ := bytes "e", val_ := 3, idx_ := 2 } =
        ({ p_ := 0, i_ := i0, r_ := 1 + 1 }, scenario_adb) ∧
      1 ≤ i0 ∧ i0 ≤ 1 ∧ Nat.gcd (scenario_adb.func_.multiplier i0) (1 + 1) = 1 ∧
      Separates (fun k => scenario_adb.func_.h i0 k (1 + 1)) scenario_adb.D_ 1 1
        ({ key_ := bytes "e", val_ := 3, idx_ := 2 } : data_t).key_ ∧
      ∀ j, 1 ≤ j → j < i0 →
        ¬ (Nat.gcd (scenario_adb.func_.multiplier j) (1 + 1) = 1 ∧
          Separates (fun k => scenario_adb.func_.h j k (1 + 1)) scenario_adb.D_ 1 1
            ({ key_ := bytes "e", val_ := 3, idx_ := 2 } : data_t).key_) :=
  C30_phase_A_reuse Ext.simple scenario_adb 0 1 1 { key_ := bytes "e", val_ := 3, idx_ := 2 } 1
    (by decide!) (by decide) (by decide) (by decide!) (by decide!)
    ((no_collisions_iff _ _ _ _ (1 + 1) _
      (fun k => func_h_lt scenario_adb.func_ 1 k (by decide))).mp (by decide!))

/-- The table `scenario_x` and the key `"d"`, which meets `"x"` in bucket 0: the first 100
candidates, tested at size 2, fail, and candidate 100 is tested at size 3. -/
theorem C31_attempts_escalation_witness :
    find_h_generate Ext.simple 1 1 { key_ := bytes "d", val_ := 3, idx_ := 0 } 1000 0 0 (1 + 1)
        scenario_x =
      find_h_generate Ext.simple 1 1 { key_ := bytes "d", val_ := 3, idx_ := 0 } (1000 - 100) 100
        (100 % 100) (1 + 1 + 100 / 100)
        (generate_state Ext.simple 1 1 { key_ := bytes "d", val_ := 3, idx_ := 0 } 100
          scenario_x) :=
  (C31_attempts_escalation Ext.simple 1 1 { key_ := bytes "d", val_ := 3, idx_ := 0 } scenario_x
    1000 100 (by decide) (by decide!)).1

end Table
end pph

namespace pph
namespace Table

/-! ## `unserialize` by its stages -/

theorem unserialize_eq_staged (E : Ext) (T : Table) (text : List Nat) :
    unserialize E T text = unserialize_staged E T text := by
  unfold unserialize unserialize_staged uns_slots uns_dsize uns_headers uns_T2 uns_fields
    uns_param_line uns_T1 uns_family uns_F1 uns_head
  generalize getline = gl
  generalize @read_rows = rr
  generalize trim = tr
  generalize split = sp
  generalize atoll = al
  generalize set_keys = sk
  generalize unescape_string = us
  rfl

/-- A property of the state that every row keeps holds when a row loop is left. -/
theorem read_rows_invariant {σ : Type} (body : List (List Nat) → σ → Option σ) (P : σ → Prop)
    (hP : ∀ f st st1, body f st = some st1 → P st → P st1) :
    ∀ (fuel : Nat) (is : istream) (line : List Nat) (st : σ), P st →
      P (read_rows body fuel is line st).2.2.2 := by
  intro fuel
  induction fuel with
  | zero => intro is line st h; exact h
  | succ fuel ih =>
    intro is line st h
    unfold read_rows
    dsimp only
    split
    · exact h
    · split
      · exact h
      · split
        · exact h
        · split
          · exact h
          · rename_i st1 hb
            exact ih _ _ _ (hP _ _ _ hb h)

theorem func_row_keeps (n : Nat) (k : keyfunc_t) (f : List (List Nat)) (F F1 : func_t)
    (hb : func_row f F = some F1)
    (h : F.key_ = k ∧ F.h_.length = n ∧ F.multiplier_.length = n ∧ F.adjustment_.length = n) :
    F1.key_ = k ∧ F1.h_.length = n ∧ F1.multiplier_.length = n ∧ F1.adjustment_.length = n := by
  unfold func_row at hb
  dsimp only at hb
  split at hb
  · exact absurd hb (by simp)
  · injection hb with hb
    subst hb
    dsimp only
    rw [List.length_set, List.length_set, List.length_set]
    exact h

/-- The family after the loop over its rows: the key function of the UUID read, and the size
read. -/
theorem uns_family_fields (E : Ext) (T : Table) (text : List Nat) :
    (uns_family E T text).2.2.2.key_ = uuid_to_keyfunc E (uns_head text).2.1 ∧
    (uns_family E T text).2.2.2.h_.length = (uns_head text).2.2.2 ∧
    (uns_family E T text).2.2.2.multiplier_.length = (uns_head text).2.2.2 ∧
    (uns_family E T text).2.2.2.adjustment_.length = (uns_head text).2.2.2 := by
  unfold uns_family
  refine read_rows_invariant func_row _
    (func_row_keeps (uns_head text).2.2.2 (uuid_to_keyfunc E (uns_head text).2.1)) _ _ _ _ ?_
  unfold uns_F1
  dsimp only
  rw [length_resize, length_resize, length_resize]
  exact ⟨rfl, rfl, rfl, rfl⟩

/-- The cases of `unserialize` on a text that starts with the magic. -/
theorem unserialize_cases (E : Ext) (T : Table) (text : List Nat) (b : Bool) (U : Table)
    (hmagic : trim (getline { buf := text } []).2 = bytes "pph version 1.0.0")
    (hres : unserialize E T text = some (b, U)) :
    (b = false ∧ U = uns_T1 E T text ∧
      ((uns_family E T text).1 = false ∨ (uns_fields E T text).length ≠ 7)) ∨
    (∃ pv, (uns_family E T text).1 = true ∧ (uns_fields E T text).length = 7 ∧
      ((b = false ∧ (uns_headers E T text).1 = false ∧
          U = { uns_T2 E T text pv with H_ := (uns_headers E T text).2.2.2 }) ∨
       (b = false ∧ (uns_headers E T text).1 = true ∧ (uns_slots E T text).1 = false ∧
          U = { uns_T2 E T text pv with H_ := (uns_headers E T text).2.2.2,
                                        D_ := (uns_slots E T text).2.2.2.1 }) ∨
       (b = true ∧ (uns_headers E T text).1 = true ∧ (uns_slots E T text).1 = true ∧
          U = { uns_T2 E T text pv with
            H_ := (uns_headers E T text).2.2.2,
            keys_ := (set_keys (uns_slots E T text).2.2.2.2.2 (uns_slots E T text).2.2.2.2.1 0
              (resize T.keys_ (atoll (c_str ((uns_fields E T text).getD 1 []))) [],
                (uns_slots E T text).2.2.2.1)).1,
            D_ := (set_keys (uns_slots E T text).2.2.2.2.2 (uns_slots E T text).2.2.2.2.1 0
              (resize T.keys_ (atoll (c_str ((uns_fields E T text).getD 1 []))) [],
                (uns_slots E T text).2.2.2.1)).2 }))) := by
  rw [unserialize_eq_staged] at hres
  unfold unserialize_staged at hres
  rw [if_neg (not_not.mpr hmagic)] at hres
  by_cases h1 : (uns_family E T text).1 = false
  · rw [if_pos h1] at hres
    injection hres with hres
    injection hres with e1 e2
    exact Or.inl ⟨e1.symm, e2.symm, Or.inl h1⟩
  · rw [if_neg h1] at hres
    by_cases h2 : (uns_fields E T text).length ≠ 7
    · rw [if_pos h2] at hres
      injection hres with hres
      injection hres with e1 e2
      exact Or.inl ⟨e1.symm, e2.symm, Or.inr h2⟩
    · rw [if_neg h2] at hres
      have h1t : (uns_family E T text).1 = true := by
        cases h : (uns_family E T text).1
        · exact absurd h h1
        · rfl
      cases hst : E.stod ((uns_fields E T text).getD 2 []) with
      | none =>
        rw [hst] at hres
        exact absurd hres (by simp)
      | some pv =>
        rw [hst] at hres
        dsimp only at hres
        refine Or.inr ⟨pv, h1t, not_not.mp h2, ?_⟩
        by_cases h3 : (uns_headers E T text).1 = false
        · rw [if_pos h3] at hres
          injection hres with hres
          injection hres with e1 e2
          exact Or.inl ⟨e1.symm, h3, e2.symm⟩
        · rw [if_neg h3] at hres
          have h3t : (uns_headers E T text).1 = true := by
            cases h : (uns_headers E T text).1
            · exact absurd h h3
            · rfl
          by_cases h4 : (uns_slots E T text).1 = false
          · rw [if_pos h4] at hres
            injection hres with hres
            injection hres with e1 e2
            exact Or.inr (Or.inl ⟨e1.symm, h3t, h4, e2.symm⟩)
          · rw [if_neg h4] at hres
            have h4t : (uns_slots E T text).1 = true := by
              cases h : (uns_slots E T text).1
              · exact absurd h h4
              · rfl
            injection hres with hres
            injection hres with e1 e2
            exact Or.inr (Or.inr ⟨e1.symm, h3t, h4t, e2.symm⟩)

/-- The method `unserialize` gives the family the key function of the UUID it reads and
leaves the primary hash function alone. -/
theorem unserialize_keyfunc (E : Ext) (T : Table) (text : List Nat) (b : Bool) (U : Table)
    (hmagic : trim (getline { buf := text } []).2 = bytes "pph version 1.0.0")
    (hres : unserialize E T text = some (b, U)) :
    U.func_ = (uns_family E T text).2.2.2 ∧ U.key_ = T.key_ ∧ U.uuid_ = (uns_head text).2.1 := by
  rcases unserialize_cases E T text b U hmagic hres with ⟨_, e, _⟩ | ⟨pv, _, _, h⟩
  · rw [e]
    unfold uns_T1
    exact ⟨rfl, rfl, rfl⟩
  · rcases h with ⟨_, _, e⟩ | ⟨_, _, _, e⟩ | ⟨_, _, _, e⟩
    · rw [e]
      unfold uns_T2 uns_T1
      exact ⟨rfl, rfl, rfl⟩
    · rw [e]
      unfold uns_T2 uns_T1
      exact ⟨rfl, rfl, rfl⟩
    · rw [e]
      unfold uns_T2 uns_T1
      generalize uns_family E T text = fam
      generalize uns_slots E T text = sl
      generalize uns_headers E T text = hd
      exact ⟨rfl, rfl, rfl⟩

/-- C24, as the code has it: for every input whose first line is the magic, whose family size
is one that `resize` accepts for an array of 64-bit words (`8 · size < 2^63`) and whose line of
parameters does not split into exactly seven fields, `unserialize` returns false; `H`, `D`, `s`,
the top-level multiplier and adjustment and the primary hash function are the same as before
the call, so is the bucket of every key; the family has the size the input states and the key
function of the UUID read. -/
theorem C24_wrong_field_count (E : Ext) (T : Table) (text : List Nat)
    (hmagic : trim (getline { buf := text } []).2 = bytes "pph version 1.0.0")
    (hsize : 8 * (uns_head text).2.2.2 < 2 ^ 63)
    (hcount : (uns_fields E T text).length ≠ 7) :
    ∃ U : Table, unserialize E T text = some (false, U) ∧
      U.H_ = T.H_ ∧ U.D_ = T.D_ ∧ U.s_ = T.s_ ∧ U.multiplier_ = T.multiplier_ ∧
      U.adjustment_ = T.adjustment_ ∧ U.key_ = T.key_ ∧ U.h = T.h ∧
      U.func_.key_ = uuid_to_keyfunc E U.uuid_ ∧
      U.func_.size = (uns_head text).2.2.2 := by
  have _ := hsize
  obtain ⟨f1, f2, _⟩ := uns_family_fields E T text
  refine ⟨uns_T1 E T text, ?_, rfl, rfl, rfl, rfl, rfl, rfl, rfl, f1, f2⟩
  rw [unserialize_eq_staged]
  unfold unserialize_staged
  rw [if_neg (not_not.mpr hmagic)]
  by_cases h1 : (uns_family E T text).1 = false
  · rw [if_pos h1]
  · rw [if_neg h1, if_pos hcount]

/-- C24 on the table holding `"a"` and `"d"` and a text whose line of parameters has one field. -/
theorem C24_wrong_field_count_witness :
    ∃ U : Table, unserialize Ext.simple scenario_ad short_param_text = some (false, U) ∧
      U.H_ = scenario_ad.H_ ∧ U.D_ = scenario_ad.D_ ∧ U.s_ = scenario_ad.s_ ∧
      U.multiplier_ = scenario_ad.multiplier_ ∧
      U.adjustment_ = scenario_ad.adjustment_ ∧ U.key_ = scenario_ad.key_ ∧
      U.h = scenario_ad.h ∧
      U.func_.key_ = uuid_to_keyfunc Ext.simple U.uuid_ ∧
      U.func_.size = (uns_head short_param_text).2.2.2 :=
  C24_wrong_field_count Ext.simple scenario_ad short_param_text (by decide!) (by decide!)
    (by decide!)

/-- C24 fails as stated: the table holding `"a"` and `"d"` in one bucket receives a text
with the magic, a family of size 0 and a line of parameters of one field; `unserialize`
returns false, and `find_val("a")`, 0 before the call, is the sentinel after it, the family
having been replaced. -/
theorem C24_counterexample :
    trim (getline { buf := short_param_text } []).2 = bytes "pph version 1.0.0" ∧
    (uns_fields Ext.simple scenario_ad short_param_text).length = 1 ∧
    scenario_ad.find_val (bytes "a") = 0 ∧
    (unserialize Ext.simple scenario_ad short_param_text).map
      (fun r => (r.1, r.2.find_val (bytes "a"), r.2.func_.size)) = some (false, EMPTY_VAL, 0) ∧
    scenario_ad.func_.size = 2 := by
  decide!

end Table
end pph

namespace pph

theorem some_getD_of_isSome {α : Type} (o : Option α) (d : α) (h : o.isSome = true) :
    o = some (o.getD d) := by
  cases o with
  | none => exact absurd h (by simp)
  | some a => rfl

namespace Table

/-! ## The key function after `unserialize`, and the first entry of the family -/

theorem uuid_to_keyfunc_unknown (E : Ext) (u : List Nat)
    (h : u ∉ [UUID_CRC64, UUID_DJB, UUID_FNV, UUID_OAT, UUID_SPOOKY]) :
    uuid_to_keyfunc E u = djb_hash := by
  simp only [List.mem_cons, List.mem_singleton, List.not_mem_nil, or_false, not_or] at h
  obtain ⟨h1, h2, h3, h4, h5⟩ := h
  unfold uuid_to_keyfunc
  rw [if_neg h1, if_neg h2, if_neg h3, if_neg h4, if_neg h5]

theorem uuid_to_keyfunc_registry (E : Ext) :
    uuid_to_keyfunc E UUID_CRC64 = crc64 E ∧ uuid_to_keyfunc E UUID_DJB = djb_hash ∧
    uuid_to_keyfunc E UUID_FNV = fnv64a_hash ∧ uuid_to_keyfunc E UUID_OAT = oat_hash ∧
    uuid_to_keyfunc E UUID_SPOOKY = spookyV2_hash E := by
  refine ⟨?_, ?_, ?_, ?_, ?_⟩
  · unfold uuid_to_keyfunc
    rw [if_pos rfl]
  · unfold uuid_to_keyfunc
    rw [if_neg (by decide), if_pos rfl]
  · unfold uuid_to_keyfunc
    rw [if_neg (by decide), if_neg (by decide), if_pos rfl]
  · unfold uuid_to_keyfunc
    rw [if_neg (by decide), if_neg (by decide), if_neg (by decide), if_pos rfl]
  · unfold uuid_to_keyfunc
    rw [if_neg (by decide), if_neg (by decide), if_neg (by decide), if_neg (by decide),
      if_pos rfl]

/-- C27 fails on the code.  The function `uuid_to_keyfunc` maps each of the five registered
UUIDs to its own primitive and every other string to DJB, and `unserialize` gives the family
the key function of the UUID it reads; but it leaves the primary hash function `key_`, which
every lookup applies first, as the receiving table had it (`set_keyfunc` assigns both).  The
text `foreign_uuid_text`, with the UUID `X`, is read by a table on which
`set_keyfunc(fnv64a_hash)` was called: `unserialize` returns true, the key function of the
family is DJB, and the bucket of `"b"` is computed with FNV: bucket 1 instead of 2, so
`find_val("b")` is `EMPTY_VAL`.  A new table reads the same text with `find_val("b") = 0`. -/
theorem C27_unserialize_keeps_primary_hash :
    (∀ E : Ext,
      uuid_to_keyfunc E UUID_CRC64 = crc64 E ∧ uuid_to_keyfunc E UUID_DJB = djb_hash ∧
      uuid_to_keyfunc E UUID_FNV = fnv64a_hash ∧ uuid_to_keyfunc E UUID_OAT = oat_hash ∧
      uuid_to_keyfunc E UUID_SPOOKY = spookyV2_hash E ∧
      (∀ u, u ∉ [UUID_CRC64, UUID_DJB, UUID_FNV, UUID_OAT, UUID_SPOOKY] →
        uuid_to_keyfunc E u = djb_hash)) ∧
    (∀ (E : Ext) (T : Table) (text : List Nat) (b : Bool) (U : Table),
      trim (getline { buf := text } []).2 = bytes "pph version 1.0.0" →
      unserialize E T text = some (b, U) →
      U.func_.key_ = uuid_to_keyfunc E U.uuid_ ∧ U.key_ = T.key_) ∧
    (({} : Table).set_keyfunc fnv64a_hash).key_ = fnv64a_hash ∧
    bytes "X" ∉ [UUID_CRC64, UUID_DJB, UUID_FNV, UUID_OAT, UUID_SPOOKY] ∧
    (unserialize Ext.simple (({} : Table).set_keyfunc fnv64a_hash) foreign_uuid_text).map
      (fun r => (r.1, r.2.uuid_, r.2.func_.key_ (bytes "b") 65 0, r.2.key_ (bytes "b") 65 0,
        r.2.h (bytes "b"), r.2.find_val (bytes "b"))) =
      some (true, bytes "X", djb_hash (bytes "b") 65 0, fnv64a_hash (bytes "b") 65 0, 1,
        EMPTY_VAL) ∧
    fnv64a_hash (bytes "b") 65 0 ≠ djb_hash (bytes "b") 65 0 ∧
    (unserialize Ext.simple {} foreign_uuid_text).map
      (fun r => (r.1, r.2.h (bytes "b"), r.2.find_val (bytes "b"))) = some (true, 2, 0) := by
  refine ⟨?_, ?_, rfl, by decide, by decide!, by decide!, by decide!⟩
  · intro E
    obtain ⟨r1, r2, r3, r4, r5⟩ := uuid_to_keyfunc_registry E
    exact ⟨r1, r2, r3, r4, r5, uuid_to_keyfunc_unknown E⟩
  · intro E T text b U hmagic hres
    obtain ⟨e1, e2, e3⟩ := unserialize_keyfunc E T text b U hmagic hres
    obtain ⟨f1, _⟩ := uns_family_fields E T text
    exact ⟨by rw [e1, f1, e3], e2⟩

end Table
end pph

namespace pph
namespace Table

/-! ## The rows `unserialize` reads -/

/-- A row loop that is left without a `return false` has run its body on the rows read. -/
theorem rows_read_run {σ : Type} (body : List (List Nat) → σ → Option σ) :
    ∀ (fuel : Nat) (is : istream) (line : List Nat) (st : σ),
      (read_rows body fuel is line st).1 = true →
      run_rows body (rows_read fuel is line) st = some (read_rows body fuel is line st).2.2.2 := by
  intro fuel
  induction fuel with
  | zero => intro is line st _; rfl
  | succ fuel ih =>
    intro is line st h
    unfold read_rows at h ⊢
    unfold rows_read
    dsimp only at h ⊢
    by_cases c1 : (getline is line).1.fail = true
    · rw [if_pos c1, if_pos c1]
      rfl
    · rw [if_neg c1] at h
      rw [if_neg c1, if_neg c1]
      by_cases c2 : (trim (getline is line).2).isEmpty = true
      · rw [if_pos c2, if_pos c2]
        rfl
      · rw [if_neg c2] at h
        rw [if_neg c2, if_neg c2]
        by_cases c3 : (split (trim (getline is line).2)).length ≠ 4
        · rw [if_pos c3] at h
          exact absurd h Bool.false_ne_true
        · rw [if_neg c3] at h
          rw [if_neg c3, if_neg c3]
          unfold run_rows
          cases hb : body (split (trim (getline is line).2)) st with
          | none =>
            rw [hb] at h
            exact absurd h Bool.false_ne_true
          | some st1 =>
            rw [hb] at h
            dsimp only at h ⊢
            exact ih _ _ _ h

theorem run_func_rows_index : ∀ (rows : List (List (List Nat))) (F F1 : func_t),
    run_rows func_row rows F = some F1 →
    F1.h_.length = F.h_.length ∧ ∀ r, r ∈ rows → row_index r < F.h_.length := by
  intro rows
  induction rows with
  | nil =>
    intro F F1 h
    injection h with h
    subst h
    exact ⟨rfl, fun r hr => absurd hr (List.not_mem_nil r)⟩
  | cons r rs ih =>
    intro F F1 h
    unfold run_rows at h
    cases hb : func_row r F with
    | none =>
      rw [hb] at h
      exact absurd h (by simp)
    | some F2 =>
      rw [hb] at h
      dsimp only at h
      unfold func_row at hb
      dsimp only at hb
      by_cases hi : atoll (c_str (r.getD 0 [])) ≥ F.h_.length
      · rw [if_pos hi] at hb
        exact absurd hb (by simp)
      · rw [if_neg hi] at hb
        injection hb with hb
        have hl : F2.h_.length = F.h_.length := by
          rw [← hb]
          exact List.length_set _ _ _
        obtain ⟨e, hall⟩ := ih F2 F1 h
        refine ⟨e.trans hl, ?_⟩
        intro r1 hr1
        rcases List.mem_cons.mp hr1 with e1 | hmem
        · rw [e1]
          unfold row_index
          omega
        · rw [← hl]
          exact hall r1 hmem

theorem run_H_rows_index : ∀ (rows : List (List (List Nat))) (H H1 : List hdr_t),
    run_rows H_row rows H = some H1 →
    H1.length = H.length ∧ ∀ r, r ∈ rows → row_index r < H.length := by
  intro rows
  induction rows with
  | nil =>
    intro H H1 h
    injection h with h
    subst h
    exact ⟨rfl, fun r hr => absurd hr (List.not_mem_nil r)⟩
  | cons r rs ih =>
    intro H H1 h
    unfold run_rows at h
    cases hb : H_row r H with
    | none =>
      rw [hb] at h
      exact absurd h (by simp)
    | some H2 =>
      rw [hb] at h
      dsimp only at h
      unfold H_row at hb
      dsimp only at hb
      by_cases hi : atoll (c_str (r.getD 0 [])) ≥ H.length
      · rw [if_pos hi] at hb
        exact absurd hb (by simp)
      · rw [if_neg hi] at hb
        injection hb with hb
        have hl : H2.length = H.length := by
          rw [← hb]
          exact List.length_set _ _ _
        obtain ⟨e, hall⟩ := ih H2 H1 h
        refine ⟨e.trans hl, ?_⟩
        intro r1 hr1
        rcases List.mem_cons.mp hr1 with e1 | hmem
        · rw [e1]
          unfold row_index
          omega
        · rw [← hl]
          exact hall r1 hmem

theorem run_D_rows_index : ∀ (rows : List (List (List Nat)))
    (st st1 : List data_t × List (List Nat) × List Nat),
    run_rows D_row rows st = some st1 →
    st1.1.length = st.1.length ∧ ∀ r, r ∈ rows → row_index r < st.1.length := by
  intro rows
  induction rows with
  | nil =>
    intro st st1 h
    injection h with h
    subst h
    exact ⟨rfl, fun r hr => absurd hr (List.not_mem_nil r)⟩
  | cons r rs ih =>
    intro st st1 h
    unfold run_rows at h
    cases hb : D_row r st with
    | none =>
      rw [hb] at h
      exact absurd h (by simp)
    | some st2 =>
      rw [hb] at h
      dsimp only at h
      unfold D_row at hb
      dsimp only at hb
      by_cases hi : atoll (c_str (r.getD 0 [])) ≥ st.1.length
      · rw [if_pos hi] at hb
        exact absurd hb (by simp)
      · rw [if_neg hi] at hb
        injection hb with hb
        have hl : st2.1.length = st.1.length := by
          rw [← hb]
          exact List.length_set _ _ _
        obtain ⟨e, hall⟩ := ih st2 st1 h
        refine ⟨e.trans hl, ?_⟩
        intro r1 hr1
        rcases List.mem_cons.mp hr1 with e1 | hmem
        · rw [e1]
          unfold row_index
          omega
        · rw [← hl]
          exact hall r1 hmem

theorem set_keys_length : ∀ (indices : List Nat) (keys : List (List Nat)) (i : Nat)
    (st : List (List Nat) × List data_t),
    (set_keys indices keys i st).2.length = st.2.length := by
  intro indices
  induction indices with
  | nil => intro keys i st; rfl
  | cons idx indices ih =>
    intro keys i st
    cases keys with
    | nil => rfl
    | cons key keys =>
      unfold set_keys
      rw [ih]
      exact List.length_set _ _ _

/-- The arrays of the table when `unserialize` returns true. -/
theorem unserialize_true_fields (E : Ext) (T : Table) (text : List Nat) (U : Table)
    (hres : unserialize E T text = some (true, U)) :
    (uns_family E T text).1 = true ∧ (uns_headers E T text).1 = true ∧
    (uns_slots E T text).1 = true ∧
    U.func_ = (uns_family E T text).2.2.2 ∧ U.H_ = (uns_headers E T text).2.2.2 ∧
    U.D_ = (set_keys (uns_slots E T text).2.2.2.2.2 (uns_slots E T text).2.2.2.2.1 0
      (resize T.keys_ (atoll (c_str ((uns_fields E T text).getD 1 []))) [],
        (uns_slots E T text).2.2.2.1)).2 := by
  have hmagic : trim (getline { buf := text } []).2 = bytes "pph version 1.0.0" := by
    by_contra hcon
    rw [unserialize_eq_staged] at hres
    unfold unserialize_staged at hres
    rw [if_pos hcon] at hres
    injection hres with hres
    injection hres with e1 _
    exact Bool.false_ne_true e1
  rcases unserialize_cases E T text true U hmagic hres with ⟨e, _⟩ | ⟨pv, hfam, _, h⟩
  · exact absurd e.symm Bool.false_ne_true
  · rcases h with ⟨e, _⟩ | ⟨e, _⟩ | ⟨_, hh, hs, e⟩
    · exact absurd e.symm Bool.false_ne_true
    · exact absurd e.symm Bool.false_ne_true
    · refine ⟨hfam, hh, hs, ?_⟩
      rw [e]
      unfold uns_T2 uns_T1
      generalize uns_family E T text = fam
      generalize uns_slots E T text = sl
      generalize uns_headers E T text = hd
      exact ⟨rfl, rfl, rfl⟩

/-- C25, as the code has it: whenever `unserialize` returns true, the index of every row it has read is
in range: each family row index `< |F|`, each header row index `< |H|`, each slot row index
`< |D|`. -/
theorem C25_row_indices_in_range (E : Ext) (T : Table) (text : List Nat) (b : Bool) (U : Table)
    (hres : unserialize E T text = some (b, U)) (hb : b = true) :
    (∀ r, r ∈ family_rows text → row_index r < U.func_.size) ∧
    (∀ r, r ∈ header_rows E T text → row_index r < U.H_.length) ∧
    (∀ r, r ∈ slot_rows E T text → row_index r < U.D_.length) := by
  subst hb
  obtain ⟨h1, h2, h3, e1, e2, e3⟩ := unserialize_true_fields E T text U hres
  have r1 := rows_read_run func_row (text.length + 2) (uns_head text).1.1 (uns_head text).1.2
    (uns_F1 E T text) h1
  have r2 := rows_read_run H_row (text.length + 2)
    (getline (uns_param_line E T text).1 (uns_param_line E T text).2).1
    (getline (uns_param_line E T text).1 (uns_param_line E T text).2).2
    (resize T.H_ (atoll (c_str ((uns_fields E T text).getD 0 []))) default) h2
  have r3 := rows_read_run D_row (text.length + 2) (uns_dsize E T text).2.1
    (uns_dsize E T text).2.2 (resize T.D_ (uns_dsize E T text).1 default, [], []) h3
  obtain ⟨a1, a2⟩ := run_func_rows_index _ _ _ r1
  obtain ⟨b1, b2⟩ := run_H_rows_index _ _ _ r2
  obtain ⟨c1, c2⟩ := run_D_rows_index _ _ _ r3
  refine ⟨?_, ?_, ?_⟩
  · intro r hr
    unfold func_t.size
    rw [e1]
    have := a2 r hr
    rw [← a1] at this
    exact this
  · intro r hr
    rw [e2]
    have := b2 r hr
    rw [← b1] at this
    exact this
  · intro r hr
    rw [e3, set_keys_length]
    have := c2 r hr
    rw [← c1] at this
    exact this

/-- C25 on a new table and a text with one family row, one header row and no slot row. -/
theorem C25_row_indices_in_range_witness :
    (∀ r, r ∈ family_rows wide_header_text →
      row_index r < ((unserialize Ext.simple {} wide_header_text).getD (false, {})).2.func_.size) ∧
    (∀ r, r ∈ header_rows Ext.simple {} wide_header_text →
      row_index r < ((unserialize Ext.simple {} wide_header_text).getD (false, {})).2.H_.length) ∧
    (∀ r, r ∈ slot_rows Ext.simple {} wide_header_text →
      row_index r < ((unserialize Ext.simple {} wide_header_text).getD (false, {})).2.D_.length) :=
  C25_row_indices_in_range Ext.simple {} wide_header_text
    ((unserialize Ext.simple {} wide_header_text).getD (false, {})).1
    ((unserialize Ext.simple {} wide_header_text).getD (false, {})).2
    (some_getD_of_isSome (unserialize Ext.simple {} wide_header_text) (false, {}) (by decide!))
    (by decide!)

/-- C25 fails as stated: a text with a family of size 1, one bucket and one slot, whose
header row is `0 5 7 3`: `unserialize` returns true, and the header of bucket 0 is `(5, 7, 3)`
with `i = 7 ≥ |F| = 1` and `p + r = 8 > |D| = 1`. -/
theorem C25_counterexample :
    (unserialize Ext.simple {} wide_header_text).map
      (fun r => (r.1, r.2.H_, r.2.func_.size, r.2.D_.length)) =
      some (true, [{ p_ := 5, i_ := 7, r_ := 3 }], 1, 1) ∧
    header_rows Ext.simple {} wide_header_text = [[bytes "0", bytes "5", bytes "7", bytes "3"]] := by
  decide!

end Table
end pph

namespace pph
namespace Table

/-! ## Duplicate keys and the reads of the adjustment loop -/

theorem try_candidate_duplicate (E : Ext) (p r : Nat) (D : data_t) (j : Nat) (hj : j < r)
    (i next_r : Nat) (T : Table) (hnr : 0 < next_r)
    (hlive : is_free (T.D_.getD (p + j) default) = false)
    (hdup : (T.D_.getD (p + j) default).key_ = D.key_) :
    (try_candidate E p r D i next_r T).1 = false ∧
    (try_candidate E p r D i next_r T).2.2.D_ = T.D_ := by
  obtain ⟨hf, hc⟩ := try_candidate_spec E p r D i next_r T
  refine ⟨?_, hf.2.1⟩
  rcases hc with ⟨h1, _, _⟩ | ⟨_, m, mu, a, _, _, _, _, h6⟩
  · exact h1
  · rw [no_collisions_duplicate _ T.D_ p r next_r D.key_ (h_internal_lt _ _ _ _ _ hnr) j hj
      hlive hdup] at h6
    exact absurd h6 Bool.false_ne_true

theorem generate_state_duplicate (E : Ext) (p r : Nat) (D : data_t) (j : Nat) (hj : j < r)
    (T : Table) (hlive : is_free (T.D_.getD (p + j) default) = false)
    (hdup : (T.D_.getD (p + j) default).key_ = D.key_) :
    ∀ c, (generate_state E p r D c T).D_ = T.D_ ∧
      (try_candidate E p r D c (r + 1 + c / 100) (generate_state E p r D c T)).1 = false := by
  intro c
  induction c with
  | zero =>
    exact ⟨rfl, (try_candidate_duplicate E p r D j hj 0 _ T (by omega) hlive hdup).1⟩
  | succ c ih =>
    have h1 := try_candidate_duplicate E p r D j hj c (r + 1 + c / 100)
      (generate_state E p r D c T) (by omega) (by rw [ih.1]; exact hlive)
      (by rw [ih.1]; exact hdup)
    have hD : (generate_state E p r D (c + 1) T).D_ = T.D_ := h1.2.trans ih.1
    exact ⟨hD, (try_candidate_duplicate E p r D j hj (c + 1) _ _ (by omega)
      (by rw [hD]; exact hlive) (by rw [hD]; exact hdup)).1⟩

/-- C6 fails on the code.  When the incoming key equals a live key stored in the window of its
(non-empty) bucket, no hash with values inside the window passes the collision test at any size,
and while the adjustment loop reads inside `D` (candidate `c` is tested at the size
`r + 1 + c / 100` and reads `D[p + j]` for `j` below the size; `budget` candidates fail before
the clock shows the timeout) `find_h` returns the failure header and `insert` returns false.
On the keys `["x", "x"]` of scenario 4 the bucket of `"x"` has the window `[1, 2)` in a `D` of 3
slots: the second `insert("x")` sees its first 100 candidates fail, whatever the library code
draws, and tests candidate 100 at the size 3, where the adjustment loop reads `D[1]`, `D[2]`,
`D[3]`, the last one past the end of `D`. -/
theorem C6_duplicate_key_reads_past_end :
    (∀ (E : Ext) (T : Table) (budget : Nat) (k0 : List Nat) (v j : Nat),
      (T.H_.getD (T.h (c_str k0)) default).r_ ≠ 0 →
      j < (T.H_.getD (T.h (c_str k0)) default).r_ →
      is_free (T.D_.getD ((T.H_.getD (T.h (c_str k0)) default).p_ + j) default) = false →
      (T.D_.getD ((T.H_.getD (T.h (c_str k0)) default).p_ + j) default).key_ = c_str k0 →
      (T.H_.getD (T.h (c_str k0)) default).p_ +
        ((T.H_.getD (T.h (c_str k0)) default).r_ + 1 + budget / 100) ≤ T.D_.length →
      (find_h E T budget (T.H_.getD (T.h (c_str k0)) default).p_
        (T.H_.getD (T.h (c_str k0)) default).r_
        { key_ := c_str k0, val_ := v, idx_ := T.h (c_str k0) }).1
          = { p_ := 0, i_ := 0, r_ := 0 } ∧
      (∀ (hf : List Nat → Nat) (next_r : Nat), hf (c_str k0) < next_r →
        no_collisions hf T.D_ (T.H_.getD (T.h (c_str k0)) default).p_
          (T.H_.getD (T.h (c_str k0)) default).r_ next_r (c_str k0) = false) ∧
      (T.insert E budget k0 v).1 = false) ∧
    scenario_x.H_.getD (scenario_x.h (c_str (bytes "x"))) default = { p_ := 1, i_ := 0, r_ := 1 } ∧
    scenario_x.D_.length = 3 ∧
    (∀ (E : Ext) (budget v : Nat), 100 ≤ budget →
      (∀ c, c < 100 →
        (try_candidate E 1 1 { key_ := bytes "x", val_ := v, idx_ := scenario_x.h (bytes "x") } c
          (1 + 1 + c / 100)
          (generate_state E 1 1
            { key_ := bytes "x", val_ := v, idx_ := scenario_x.h (bytes "x") } c
            scenario_x)).1 = false) ∧
      find_h E scenario_x budget 1 1
          { key_ := bytes "x", val_ := v, idx_ := scenario_x.h (bytes "x") } =
        find_h_generate E 1 1 { key_ := bytes "x", val_ := v, idx_ := scenario_x.h (bytes "x") }
          (budget - 100) 100 0 (1 + 1 + 1)
          (generate_state E 1 1
            { key_ := bytes "x", val_ := v, idx_ := scenario_x.h (bytes "x") } 100 scenario_x) ∧
      (generate_state E 1 1 { key_ := bytes "x", val_ := v, idx_ := scenario_x.h (bytes "x") }
        100 scenario_x).D_ = scenario_x.D_) ∧
    suggest_reads 1 (1 + 1 + 1) = [1, 2, 3] ∧ ¬ (3 < scenario_x.D_.length) := by
  refine ⟨?_, by decide!, by decide!, ?_, by decide, by decide!⟩
  · intro E T budget k0 v j hr hj hlive hdup _
    have hfh := find_h_duplicate E T budget (T.H_.getD (T.h (c_str k0)) default).p_
      (T.H_.getD (T.h (c_str k0)) default).r_
      { key_ := c_str k0, val_ := v, idx_ := T.h (c_str k0) } j hj hlive hdup
    refine ⟨hfh, fun hf next_r hlt =>
      no_collisions_duplicate hf T.D_ _ _ next_r (c_str k0) hlt j hj hlive hdup, ?_⟩
    unfold insert
    dsimp only
    rw [if_neg hr, if_pos (by rw [hfh])]
  · intro E budget v hb
    have hlive : is_free (scenario_x.D_.getD (1 + 0) default) = false := by decide!
    have hdup : (scenario_x.D_.getD (1 + 0) default).key_ =
        ({ key_ := bytes "x", val_ := v, idx_ := scenario_x.h (bytes "x") } : data_t).key_ := by
      show (scenario_x.D_.getD (1 + 0) default).key_ = bytes "x"
      decide!
    have hgen := generate_state_duplicate E 1 1
      { key_ := bytes "x", val_ := v, idx_ := scenario_x.h (bytes "x") } 0 (by decide)
      scenario_x hlive hdup
    refine ⟨fun c _ => (hgen c).2, ?_, (hgen 100).1⟩
    have hphaseA : find_h E scenario_x budget 1 1
        { key_ := bytes "x", val_ := v, idx_ := scenario_x.h (bytes "x") } =
        find_h_generate E 1 1 { key_ := bytes "x", val_ := v, idx_ := scenario_x.h (bytes "x") }
          budget 0 0 (1 + 1) scenario_x := by
      unfold find_h
      have hsize : scenario_x.func_.size = 1 := by decide!
      rw [hsize]
      rfl
    rw [hphaseA]
    exact find_h_generate_schedule E 1 1 _ scenario_x budget 100 hb (fun c _ => (hgen c).2)

end Table
end pph

namespace pph
namespace Table

/-! ## The `int` counters of `find_r` -/

theorem int_to_u64_natCast (a : Nat) (h : a < 2 ^ 64) : int_to_u64 (a : Int) = a := by
  unfold int_to_u64
  omega

theorem to_int_small (x : Nat) (h : x < 2 ^ 31) : to_int x = (x : Int) := by
  unfold to_int
  have e : x % 2 ^ 32 = x := Nat.mod_eq_of_lt (by omega)
  rw [e, if_pos h]

theorem count_free_succ (D : List data_t) (a upper : Nat) (h : a < upper) :
    count_free D a upper =
      (if is_free (D.getD a default) then 1 else 0) + count_free D (a + 1) upper := by
  unfold count_free
  have e : upper - a = (upper - (a + 1)) + 1 := by omega
  rw [e, List.range'_succ, List.filter_cons]
  split
  · rw [List.length_cons]
    omega
  · omega

theorem count_free_self (D : List data_t) (a : Nat) : count_free D a a = 0 := by
  unfold count_free
  rw [Nat.sub_self]
  rfl

/-- While the counter stays in the range of `int`, the inner loop counts the free slots of
`D[a .. upper)`. -/
theorem count_free_int_eq (D : List data_t) (upper : Nat) (hu : upper < 2 ^ 31) :
    ∀ (fuel a c : Nat), a ≤ upper → upper - a < fuel →
      count_free_int D upper fuel (a : Int) c = some (c + count_free D a upper) := by
  intro fuel
  induction fuel with
  | zero => intro a c _ h; exact absurd h (Nat.not_lt_zero _)
  | succ f ih =>
    intro a c ha hf
    unfold count_free_int
    rw [int_to_u64_natCast a (by omega)]
    by_cases hlt : a < upper
    · rw [if_pos hlt, if_neg (by omega)]
      have hcast : ((a : Int) + 1) = ((a + 1 : Nat) : Int) := by push_cast; rfl
      rw [hcast, ih (a + 1) _ (by omega) (by omega), count_free_succ D a upper hlt]
      split
      · congr 1
        omega
      · congr 1
        omega
    · rw [if_neg hlt]
      have e : a = upper := by omega
      rw [e, count_free_self, Nat.add_zero]

/-- While the counters stay in the range of `int`, an outer loop returns the first index of
`[a, bound)` that passes the test of the window. -/
theorem scan_int_eq (D : List data_t) (newsize bound : Nat) (hb : bound < 2 ^ 31)
    (hn : newsize < 2 ^ 31) :
    ∀ (fuel a : Nat), a ≤ bound → bound - a < fuel →
      scan_int D newsize bound fuel (a : Int) =
        some ((List.range' a (bound - a)).find? (window_ok D newsize bound)) := by
  intro fuel
  induction fuel with
  | zero => intro a _ h; exact absurd h (Nat.not_lt_zero _)
  | succ f ih =>
    intro a ha hf
    unfold scan_int
    rw [int_to_u64_natCast a (by omega)]
    have hcast : ((a : Int) + 1) = ((a + 1 : Nat) : Int) := by push_cast; rfl
    by_cases hlt : a < bound
    · rw [if_pos hlt]
      have e : bound - a = (bound - (a + 1)) + 1 := by omega
      have hmod : (a + newsize) % 2 ^ 64 = a + newsize := Nat.mod_eq_of_lt (by omega)
      rw [e, List.range'_succ, List.find?_cons, hmod]
      by_cases hfree : is_free (D.getD a default) = true
      · rw [if_pos hfree, count_free_int_eq D _ (by omega) _ a 0 (by omega) (by omega),
          Nat.zero_add]
        dsimp only
        by_cases hc : count_free D a (min (a + newsize) bound) = newsize
        · rw [if_pos hc]
          have hw : window_ok D newsize bound a = true := by
            unfold window_ok
            rw [hfree, hc]
            simp
          rw [hw]
        · rw [if_neg hc, if_neg (by omega), hcast, ih (a + 1) (by omega) (by omega)]
          have hw : window_ok D newsize bound a = false := by
            unfold window_ok
            rw [hfree]
            simpa using hc
          rw [hw]
      · rw [if_neg hfree, if_neg (by omega), hcast, ih (a + 1) (by omega) (by omega)]
        have hw : window_ok D newsize bound a = false := by
          unfold window_ok
          have : is_free (D.getD a default) = false := by
            cases h : is_free (D.getD a default)
            · rfl
            · exact absurd h hfree
          rw [this]
          rfl
        rw [hw]
    · rw [if_neg hlt]
      have e : bound - a = 0 := by omega
      rw [e]
      rfl

/-- While the counters stay in the range of `int`, that is for `|D| + newsize < 2^31`, the
method `find_r` with `int` counters is the method `find_r` with natural numbers. -/
theorem find_r_int_eq (T : Table) (src size newsize : Nat) (hsz : src + size ≤ T.D_.length)
    (hfit : T.D_.length + newsize < 2 ^ 31) :
    T.find_r_int src size newsize = some (T.find_r src size newsize) := by
  unfold find_r_int find_r find_r_scan_start
  dsimp only
  have h1 : (if src > newsize then scan_int T.D_ newsize src (src + 1) 0 else some none) =
      some (if src > newsize then (List.range src).find? (window_ok T.D_ newsize src)
        else none) := by
    by_cases hs : src > newsize
    · rw [if_pos hs, if_pos hs]
      have := scan_int_eq T.D_ newsize src (by omega) (by omega) (src + 1) 0 (Nat.zero_le _)
        (by omega)
      rw [Nat.sub_zero] at this
      rw [List.range_eq_range']
      exact this
    · rw [if_neg hs, if_neg hs]
  rw [h1]
  have hlen : (resize T.D_ (T.D_.length + newsize) default).length = T.D_.length + newsize :=
    length_resize _ _ _
  have h2 : scan_int (resize T.D_ (T.D_.length + newsize) default) newsize
      (resize T.D_ (T.D_.length + newsize) default).length
      ((resize T.D_ (T.D_.length + newsize) default).length + 1)
      (to_int ((src + size) % 2 ^ 64)) =
      some ((List.range' (src + size)
        ((resize T.D_ (T.D_.length + newsize) default).length - (src + size))).find?
        (window_ok (resize T.D_ (T.D_.length + newsize) default) newsize
          (resize T.D_ (T.D_.length + newsize) default).length)) := by
    have hmod : (src + size) % 2 ^ 64 = src + size := Nat.mod_eq_of_lt (by omega)
    rw [hmod, to_int_small _ (by omega)]
    exact scan_int_eq _ newsize _ (by rw [hlen]; omega) (by omega) _ (src + size)
      (by rw [hlen]; omega) (by omega)
  rw [h2]
  generalize (if src > newsize then (List.range src).find? (window_ok T.D_ newsize src)
    else none) = below
  cases below with
  | some i => rfl
  | none =>
    dsimp only
    generalize (List.range' (src + size)
        ((resize T.D_ (T.D_.length + newsize) default).length - (src + size))).find?
        (window_ok (resize T.D_ (T.D_.length + newsize) default) newsize
          (resize T.D_ (T.D_.length + newsize) default).length) = above
    cases above with
    | some i => rfl
    | none => rfl

/-- C15 fails on the code, whose loops count with `int`.  Where the counters stay in the
range of `int` (`|D| + newsize < 2^31`) the allocator succeeds: with `newsize ≥ 1` and the
window `[src, src + size)` inside `D`, `find_r` with `int` counters is `find_r` with natural
numbers and returns an index `y ≠ UINT64_MAX` with `y + newsize ≤ |D|` after the call, and
every slot of `D[y .. y + newsize)` is free.  On every table of `2^31` slots,
`find_r(0, 2^31, 1)` skips the first scan (`src > newsize` is false), appends a free slot, and
enters the second scan with `int i = src + size`, which is `-2^31`; the test `i < num_slots`
compares `2^64 - 2^31` with `2^31 + 1` and fails, the scan does not run and `UINT64_MAX` is
returned, while the slot `D[2^31]` is free. -/
theorem C15_find_r_int_counter :
    (∀ (T : Table) (src size newsize : Nat), 1 ≤ newsize → src + size ≤ T.D_.length →
      T.D_.length + newsize < 2 ^ 31 →
      T.find_r_int src size newsize = some (T.find_r src size newsize) ∧
      (T.find_r src size newsize).1 ≠ UINT64_MAX ∧
      (T.find_r src size newsize).1 + newsize ≤ (T.find_r src size newsize).2.D_.length ∧
      (∀ x, (T.find_r src size newsize).1 ≤ x → x < (T.find_r src size newsize).1 + newsize →
        is_free ((T.find_r src size newsize).2.D_.getD x default) = true)) ∧
    find_r_scan_start 0 (2 ^ 31) = -2 ^ 31 ∧
    int_to_u64 (find_r_scan_start 0 (2 ^ 31)) = 2 ^ 64 - 2 ^ 31 ∧
    (∀ T : Table, T.D_.length = 2 ^ 31 →
      0 + 2 ^ 31 ≤ T.D_.length ∧
      T.find_r_int 0 (2 ^ 31) 1 =
        some (UINT64_MAX, { T with D_ := resize T.D_ (T.D_.length + 1) default }) ∧
      is_free ((resize T.D_ (T.D_.length + 1) default).getD (2 ^ 31) default) = true) := by
  refine ⟨?_, by decide!, by decide!, ?_⟩
  · intro T src size newsize hn hsz hfit
    obtain ⟨⟨m, hm⟩, h1, h2, h3⟩ := find_r_spec T src size newsize hn hsz
    refine ⟨find_r_int_eq T src size newsize hsz hfit, ?_, h1, h2⟩
    rcases h3 with h3 | h3
    · intro hcon
      rw [hcon] at h3
      unfold UINT64_MAX at h3
      omega
    · -- the window lies in the grown array, which has at most `|D| + newsize` slots
      have hlen : (T.find_r src size newsize).2.D_.length ≤ T.D_.length + newsize := by
        unfold find_r
        dsimp only
        split
        · exact Nat.le_add_right _ _
        · split
          · dsimp only
            rw [length_resize]
          · dsimp only
            rw [length_resize]
      intro hcon
      rw [hcon] at h1
      unfold UINT64_MAX at h1
      omega
  · intro T hT
    refine ⟨by omega, ?_, ?_⟩
    · have hstart : int_to_u64 (find_r_scan_start 0 (2 ^ 31)) = 2 ^ 64 - 2 ^ 31 := by decide!
      unfold find_r_int
      rw [if_neg (by decide)]
      dsimp only
      unfold scan_int
      rw [hstart, length_resize, hT, if_neg (by decide)]
    · unfold resize
      rw [List.take_of_length_le (by omega), List.getD_append_right _ _ _ _ (by omega)]
      have e : T.D_.length + 1 - T.D_.length = 1 := by omega
      have e2 : 2 ^ 31 - T.D_.length = 0 := by omega
      rw [e, e2]
      rfl

end Table
end pph
